import Mathlib

/-!
Verification of the runestone bridge (src/src/lib.rs) against its
natural-language specification.

The repository under verification is a thin bridge exposing a
decipher/encipher codec surface over the runes protocol.  The bridge code
itself (the type conversions between the public string/BigInt types and the
protocol types, and the public decipher/encipher entry points) is embedded
here from src/src/lib.rs in the Bridge namespace.  The protocol codec that
the bridge delegates to (the ordinals crate: variable-length integers, the
tag grammar, edict delta coding, etching assembly, cenotaph policy, payload
location) is not part of the repository sources; it is modelled from the
spec in the Runes namespace, each definition carrying a doc comment saying
so.  The consensus transaction reader and the hex boundary are likewise
modelled (the spec places them in an external Transaction Reader
collaborator).

Machine integers are modelled as Nat with explicit bounds and explicit
mod-2^w reductions exactly where the source performs a lossy conversion.
Bytes are Nat values below 256 in lists.
-/

/-- Numeric width constants used throughout: 2^128, 2^64, 2^32. -/
def U128 : Nat := 2 ^ 128

/-- Bound for unsigned 64-bit values. -/
def U64 : Nat := 2 ^ 64

/-- Bound for unsigned 32-bit values. -/
def U32 : Nat := 2 ^ 32

namespace Runes

/-- Modelled from the spec: the flaw taxonomy of section 7 (plus
SupplyOverflow from section 4.4).  These classify why a decode failed. -/
inductive Flaw where
  | truncated
  | overflow
  | invalidDivisibility
  | invalidSymbol
  | trailingTag
  | truncatedEdict
  | unrecognizedMandatoryTag
  | supplyOverflow
  deriving DecidableEq, Repr

/-- Fuel-indexed worker for the variable-length integer encoder; the fuel
only serves structural recursion and any fuel at least the value is
enough. -/
def varintEncAux : Nat → Nat → List Nat
  | 0, n => [n % 128]
  | fuel + 1, n =>
    if n < 128 then [n] else (128 + n % 128) :: varintEncAux fuel (n / 128)

/-- Modelled from the spec: IntegerCodec encoding (section 4.1).  A
non-negative integer becomes a little-endian base-128 sequence, 7 value bits
per byte, continuation bit set on every byte except the last,
minimal-length. -/
def varintEnc (n : Nat) : List Nat :=
  varintEncAux n n

theorem varintEncAux_fuel {f1 f2 n : Nat} (h1 : n ≤ f1) (h2 : n ≤ f2) :
    varintEncAux f1 n = varintEncAux f2 n := by
  induction f1 generalizing f2 n with
  | zero =>
    have hn : n = 0 := by omega
    subst hn
    cases f2 with
    | zero => rfl
    | succ f2 => simp [varintEncAux]
  | succ f ih =>
    cases f2 with
    | zero =>
      have hn : n = 0 := by omega
      subst hn
      simp [varintEncAux]
    | succ f2 =>
      simp only [varintEncAux]
      split
      · rfl
      · next hge =>
        have hdiv : n / 128 < n := Nat.div_lt_self (by omega) (by omega)
        have hh : varintEncAux f (n / 128) = varintEncAux f2 (n / 128) :=
          ih (by omega) (by omega)
        rw [hh]

/-- Unfolding equation of the variable-length integer encoder. -/
theorem varintEnc_eq (n : Nat) :
    varintEnc n = if n < 128 then [n] else (128 + n % 128) :: varintEnc (n / 128) := by
  have h1 : varintEncAux n n = varintEncAux (n + 1) n :=
    varintEncAux_fuel (Nat.le_refl n) (Nat.le_succ n)
  unfold varintEnc
  rw [h1]
  simp only [varintEncAux]
  split
  · rfl
  · next hge =>
    have h2 : varintEncAux n (n / 128) = varintEncAux (n / 128) (n / 128) :=
      varintEncAux_fuel (Nat.div_le_self n 128) (Nat.le_refl _)
    rw [h2]

/-- Modelled from the spec: IntegerCodec decoding of a whole payload
(section 4.1), accumulating 7 bits per byte into a widening accumulator.
The first two arguments carry the accumulator and the current byte weight
of the varint in progress (weight 1 means no varint is in progress).
Truncated means the stream ended mid-varint; Overflow means a completed
value would exceed 128 bits. -/
def decodeIntsGo : List Nat → Nat → Nat → Except Flaw (List Nat)
  | [], _, mult => if mult = 1 then .ok [] else .error .truncated
  | b :: rest, acc, mult =>
    if b < 128 then
      if acc + mult * b < U128 then
        match decodeIntsGo rest 0 1 with
        | .ok ints => .ok ((acc + mult * b) :: ints)
        | .error f => .error f
      else .error .overflow
    else decodeIntsGo rest (acc + mult * (b - 128)) (mult * 128)

/-- Modelled from the spec: IntegerCodec decoding of a whole payload into
its integer sequence (section 4.1). -/
def decodeInts (bs : List Nat) : Except Flaw (List Nat) :=
  decodeIntsGo bs 0 1

/-- Modelled from the spec: the Identifier data type (section 3), a pair of
a block number (unsigned 64-bit) and a transaction index (unsigned
32-bit). -/
structure RuneId where
  block : Nat
  tx : Nat
  deriving DecidableEq, Repr

/-- Modelled from the spec: a transfer instruction (section 3): identifier,
amount (unsigned 128-bit), output index (unsigned 32-bit). -/
structure Edict where
  id : RuneId
  amount : Nat
  output : Nat
  deriving DecidableEq, Repr

/-- Modelled from the spec: the minting terms attached to an etching
(section 3): optional per-mint amount and cap (unsigned 128-bit), height and
offset ranges with optional unsigned 64-bit bounds. -/
structure Terms where
  amount : Option Nat
  cap : Option Nat
  height : Option Nat × Option Nat
  offset : Option Nat × Option Nat
  deriving DecidableEq, Repr

/-- Modelled from the spec: the token-creation descriptor (section 3):
optional divisibility, premine, name value with spacer bitmask, single
character symbol, terms, and the turbo flag. -/
structure Etching where
  divisibility : Option Nat
  premine : Option Nat
  rune : Option Nat
  spacers : Option Nat
  symbol : Option Char
  terms : Option Terms
  turbo : Bool
  deriving DecidableEq, Repr

/-- Modelled from the spec: a well-formed decoded operation (section 3):
edicts, optional etching, optional mint identifier, optional pointer. -/
structure Runestone where
  edicts : List Edict
  etching : Option Etching
  mint : Option RuneId
  pointer : Option Nat
  deriving DecidableEq, Repr

/-- Modelled from the spec: the decode result sum type (section 3): either a
well-formed operation or a cenotaph carrying the accumulated flaws (the
CenotaphPolicy of section 4.6 never populates anything else on a
cenotaph). -/
inductive Artifact where
  | runestone (r : Runestone)
  | cenotaph (flaws : List Flaw)
  deriving DecidableEq, Repr

/-!
Tag numbering.  The spec (section 4.2) fixes the even/odd convention: even
tags are informational field tags, odd tags are structural body markers, and
the only recognized odd tag is the body tag.  It does not fix numeric
values, so this model assigns them: body is 1; the recognized field tags
are the even numbers 2 (divisibility), 4 (premine), 6 (rune), 8 (spacers),
10 (symbol), 12 (mint amount), 14 (mint cap), 16 (height start), 18
(height end), 20 (offset start), 22 (offset end), 24 (turbo), 26 (pointer),
28 (mint identifier block), 30 (mint identifier index).  The spec lists one
mint-target-id entry; since every tag pairs with exactly one value and an
identifier is two numbers, it is carried by the two adjacent even tags 28
and 30.
-/

/-- Modelled from the spec: TagStream parser state (section 4.2): the first
value seen for every even tag (recognized ones are read off by the
assembler, unrecognized even ones remain as the tolerated residual),
accumulated flaws, and decoded edicts in wire order. -/
structure PState where
  tagVals : Nat → Option Nat
  flaws : List Flaw
  edicts : List Edict

/-- Modelled from the spec: the initial, empty parser state. -/
def pstate0 : PState := { tagVals := fun _ => none, flaws := [], edicts := [] }

/-- Modelled from the spec: record one flaw (section 4.6: flaws accumulate
as a growable collection threaded through the stages). -/
def PState.addFlaw (st : PState) (f : Flaw) : PState :=
  { st with flaws := st.flaws ++ [f] }

/-- Modelled from the spec: processing of one tag/value pair (section 4.2).
A repeated single-valued tag keeps the first occurrence and ignores the
rest; an unrecognized even tag is tolerated and stored; an unrecognized odd
(structural) tag is a flaw.  The body tag is handled before this point. -/
def applyTag (t v : Nat) (st : PState) : PState :=
  if t % 2 = 1 then st.addFlaw .unrecognizedMandatoryTag
  else
    match st.tagVals t with
    | some _ => st
    | none => { st with tagVals := Function.update st.tagVals t (some v) }

/-- Modelled from the spec: EdictCodec decoding (section 4.3).  The
post-body integers come in runs of block-delta, index, amount, output; a
zero block-delta makes the index relative to the previous identifier,
otherwise the block advances and the index is absolute.  Additions that
leave the identifier widths, or values leaving their declared widths, are
Overflow flaws; a partial trailing run is a TruncatedEdict flaw. -/
def parseEdicts : List Nat → RuneId → PState → PState
  | [], _, st => st
  | db :: dt :: am :: outp :: rest, prev, st =>
    if db = 0 then
      if prev.tx + dt < U32 ∧ am < U128 ∧ outp < U32 then
        parseEdicts rest ⟨prev.block, prev.tx + dt⟩
          { st with edicts := st.edicts ++ [⟨⟨prev.block, prev.tx + dt⟩, am, outp⟩] }
      else st.addFlaw .overflow
    else
      if prev.block + db < U64 ∧ dt < U32 ∧ am < U128 ∧ outp < U32 then
        parseEdicts rest ⟨prev.block + db, dt⟩
          { st with edicts := st.edicts ++ [⟨⟨prev.block + db, dt⟩, am, outp⟩] }
      else st.addFlaw .overflow
  | _, _, st => st.addFlaw .truncatedEdict

/-- Modelled from the spec: TagStream walking (section 4.2).  The integer
sequence is read as alternating tag/value pairs; the body tag switches the
remainder into edict decoding; a tag with no following value is a
TrailingTag flaw. -/
def parseInts : List Nat → PState → PState
  | [], st => st
  | [t], st => if t = 1 then st else st.addFlaw .trailingTag
  | t :: v :: rest, st =>
    if t = 1 then parseEdicts (v :: rest) ⟨0, 0⟩ st
    else parseInts rest (applyTag t v st)

/-- Modelled from the spec: whether any etching-related tag is present
(section 4.4: the presence of any etching-related tag signals that an
etching is being attempted). -/
def hasEtching (tv : Nat → Option Nat) : Bool :=
  (tv 2).isSome || (tv 4).isSome || (tv 6).isSome || (tv 8).isSome ||
  (tv 10).isSome || (tv 12).isSome || (tv 14).isSome || (tv 16).isSome ||
  (tv 18).isSome || (tv 20).isSome || (tv 22).isSome || (tv 24).isSome

/-- Modelled from the spec: EtchingAssembler validation flaws (sections 4.4,
6 and 7): divisibility above 38, a symbol that is not a single Unicode
scalar value, values for the 64-bit range bounds or the identifier and
pointer fields that leave their declared width, and a total supply
overflowing 128 bits. -/
def assembleFlaws (tv : Nat → Option Nat) : List Flaw :=
  (match tv 2 with
   | some d => if d ≤ 38 then [] else [Flaw.invalidDivisibility]
   | none => []) ++
  (match tv 10 with
   | some s => if Nat.isValidChar s then [] else [Flaw.invalidSymbol]
   | none => []) ++
  (if hasEtching tv then
    if (tv 4).getD 0 + (tv 14).getD 0 * (tv 12).getD 0 < U128 then []
    else [Flaw.supplyOverflow]
   else []) ++
  (match tv 16 with
   | some v => if v < U64 then [] else [Flaw.overflow]
   | none => []) ++
  (match tv 18 with
   | some v => if v < U64 then [] else [Flaw.overflow]
   | none => []) ++
  (match tv 20 with
   | some v => if v < U64 then [] else [Flaw.overflow]
   | none => []) ++
  (match tv 22 with
   | some v => if v < U64 then [] else [Flaw.overflow]
   | none => []) ++
  (match tv 26 with
   | some v => if v < U32 then [] else [Flaw.overflow]
   | none => []) ++
  (match tv 28 with
   | some v => if v < U64 then [] else [Flaw.overflow]
   | none => []) ++
  (match tv 30 with
   | some v => if v < U32 then [] else [Flaw.overflow]
   | none => [])

/-- Modelled from the spec: EtchingAssembler construction (section 4.4):
the etching is built only when some etching tag signals intent, and the
terms only when some terms tag is present.  Section 4.4 names the cap and
amount tags as the signal for terms assembly, but the idempotent
re-encoding property of section 8 requires height and offset bounds arriving
without a cap or amount to surface as well, so any terms tag assembles the
terms. -/
def assembleEtching (tv : Nat → Option Nat) : Option Etching :=
  if hasEtching tv then
    some
      { divisibility := tv 2
        premine := tv 4
        rune := tv 6
        spacers := tv 8
        symbol := (tv 10).bind fun s =>
          if Nat.isValidChar s then some (Char.ofNat s) else none
        terms :=
          if (tv 12).isSome || (tv 14).isSome || (tv 16).isSome ||
             (tv 18).isSome || (tv 20).isSome || (tv 22).isSome then
            some { amount := tv 12, cap := tv 14,
                   height := (tv 16, tv 18), offset := (tv 20, tv 22) }
          else none
        turbo := (tv 24).isSome }
  else none

/-- Modelled from the spec: CenotaphPolicy (section 4.6).  With no flaws the
result is the well-formed operation; with any flaw it is a cenotaph
carrying the flaws and nothing else. -/
def assemble (st : PState) : Artifact :=
  match st.flaws ++ assembleFlaws st.tagVals with
  | [] =>
    Artifact.runestone
      { edicts := st.edicts
        etching := assembleEtching st.tagVals
        mint :=
          match st.tagVals 28, st.tagVals 30 with
          | some b, some i => some ⟨b, i⟩
          | _, _ => none
        pointer := st.tagVals 26 }
  | fs => Artifact.cenotaph fs

/-- Modelled from the spec: decoding one located payload (sections 4.1, 4.2
and 4.6): the byte stream becomes integers, the integers become tagged
fields and edicts, and the cenotaph policy classifies the outcome.  An
integer-level truncation or overflow is itself a cenotaph. -/
def decodePayload (p : List Nat) : Artifact :=
  match decodeInts p with
  | .error f => Artifact.cenotaph [f]
  | .ok ints => assemble (parseInts ints pstate0)

/-!
Encoding (spec section 4.7), producing the payload bytes and then the
carrier script.
-/

/-- Modelled from the spec: serialization of one optional tagged field as a
tag/value integer pair. -/
def optPair (t : Nat) : Option Nat → List Nat
  | none => []
  | some v => [t, v]

/-- Modelled from the spec: serialization of the terms subfields in the
fixed field order of section 4.7. -/
def termsInts (t : Terms) : List Nat :=
  optPair 12 t.amount ++ optPair 14 t.cap ++
  optPair 16 t.height.1 ++ optPair 18 t.height.2 ++
  optPair 20 t.offset.1 ++ optPair 22 t.offset.2

/-- Modelled from the spec: serialization of an etching in the fixed field
order of section 4.7 (divisibility, premine, rune, spacers, symbol, terms
subfields, turbo). -/
def etchingInts (e : Etching) : List Nat :=
  optPair 2 e.divisibility ++ optPair 4 e.premine ++
  optPair 6 e.rune ++ optPair 8 e.spacers ++
  optPair 10 (e.symbol.map Char.toNat) ++
  (match e.terms with
   | some t => termsInts t
   | none => []) ++
  (if e.turbo then [24, 1] else [])

/-- Modelled from the spec: serialization of the mint identifier as its two
tagged components. -/
def mintInts : Option RuneId → List Nat
  | some id => [28, id.block, 30, id.tx]
  | none => []

/-- Modelled from the spec: EdictCodec encoding (section 4.3): each edict
contributes its identifier delta against the previous identifier, then its
amount and output. -/
def edictInts : RuneId → List Edict → List Nat
  | _, [] => []
  | prev, e :: rest =>
    (if e.id.block = prev.block then [0, e.id.tx - prev.tx]
     else [e.id.block - prev.block, e.id.tx]) ++
    [e.amount, e.output] ++ edictInts e.id rest

/-- Modelled from the spec: identifier ordering used by the encoder when
sorting edicts (ascending block, then index). -/
def idLe (a b : RuneId) : Bool :=
  Nat.blt a.block b.block || (a.block == b.block && Nat.ble a.tx b.tx)

/-- Modelled from the spec: insertion step of the encoder-side edict sort. -/
def insertEdict (e : Edict) : List Edict → List Edict
  | [] => [e]
  | x :: xs => if idLe e.id x.id then e :: x :: xs else x :: insertEdict e xs

/-- Modelled from the spec: the encoder sorts edicts by ascending
identifier before delta computation (section 4.3). -/
def sortEdicts : List Edict → List Edict
  | [] => []
  | e :: rest => insertEdict e (sortEdicts rest)

/-- Modelled from the spec: the body section: the body tag followed by the
delta-encoded, sorted edicts; absent entirely when there are no edicts. -/
def bodyInts (es : List Edict) : List Nat :=
  match es with
  | [] => []
  | _ => 1 :: edictInts ⟨0, 0⟩ (sortEdicts es)

/-- Modelled from the spec: the full integer sequence of an operation in the
fixed tag order of section 4.7: etching fields, pointer, mint, body. -/
def intsOf (r : Runestone) : List Nat :=
  (match r.etching with
   | some e => etchingInts e
   | none => []) ++
  optPair 26 r.pointer ++ mintInts r.mint ++ bodyInts r.edicts

/-- Modelled from the spec: IntegerCodec serialization of an integer
sequence into payload bytes. -/
def bytesOfInts (ints : List Nat) : List Nat :=
  (ints.map varintEnc).flatten

/-- Modelled from the spec: the payload bytes of an operation. -/
def payload (r : Runestone) : List Nat :=
  bytesOfInts (intsOf r)

/-- Fuel-indexed worker for payload chunking; any fuel above the payload
length is enough. -/
def chunksAux : Nat → List Nat → List (List Nat)
  | 0, _ => []
  | fuel + 1, bs =>
    if bs = [] then [] else bs.take 520 :: chunksAux fuel (bs.drop 520)

/-- Modelled from the spec: the script-building facility splits the payload
into data pushes of at most 520 bytes each. -/
def chunks (bs : List Nat) : List (List Nat) :=
  chunksAux (bs.length + 1) bs

theorem chunksAux_fuel {f1 f2 : Nat} {bs : List Nat}
    (h1 : bs.length < f1) (h2 : bs.length < f2) :
    chunksAux f1 bs = chunksAux f2 bs := by
  induction f1 generalizing f2 bs with
  | zero => omega
  | succ f ih =>
    cases f2 with
    | zero => omega
    | succ f2 =>
      simp only [chunksAux]
      split
      · rfl
      · next hne =>
        have hlen : bs.length ≠ 0 := fun hl => hne (List.eq_nil_of_length_eq_zero hl)
        have hd1 : (bs.drop 520).length < f := by
          simp only [List.length_drop]
          omega
        have hd2 : (bs.drop 520).length < f2 := by
          simp only [List.length_drop]
          omega
        rw [ih hd1 hd2]

/-- Unfolding equation of the payload chunker. -/
theorem chunks_eq (bs : List Nat) :
    chunks bs = if bs = [] then [] else bs.take 520 :: chunks (bs.drop 520) := by
  show chunksAux (bs.length + 1) bs = _
  simp only [chunksAux]
  split
  · rfl
  · next hne =>
    have hlen : bs.length ≠ 0 := fun hl => hne (List.eq_nil_of_length_eq_zero hl)
    have hd : chunksAux bs.length (bs.drop 520) = chunks (bs.drop 520) := by
      apply chunksAux_fuel
      · simp only [List.length_drop]; omega
      · simp only [List.length_drop]; omega
    rw [hd]

/-- Modelled from the spec: one data push: a direct length byte below 76,
or a one- or two-byte explicit length marker. -/
def pushEnc (c : List Nat) : List Nat :=
  if c.length < 76 then c.length :: c
  else if c.length ≤ 255 then [76, c.length] ++ c
  else [77, c.length % 256, c.length / 256] ++ c

/-- Modelled from the spec: the carrier script: the reserved marker opcode
sequence followed by the payload data pushes.  This is the byte output of
the public encipher surface. -/
def encipherScript (r : Runestone) : List Nat :=
  [106, 93] ++ ((chunks (payload r)).map pushEnc).flatten

/-- Modelled from the spec: PayloadLocator data collection (section 4.5):
walk the script after the marker byte by byte, concatenating data pushes
without separators; the counter holds how many push data bytes remain to be
copied.  A non-push opcode terminates collection with the partial payload
kept, and a push whose data runs past the end of the script keeps what is
there. -/
def collectGo : List Nat → Nat → List Nat
  | [], _ => []
  | b :: rest, k + 1 => b :: collectGo rest k
  | b :: rest, 0 =>
    if b = 0 then collectGo rest 0
    else if b ≤ 75 then collectGo rest b
    else if b = 76 then
      match rest with
      | [] => []
      | n :: r => collectGo r n
    else if b = 77 then
      match rest with
      | n1 :: n2 :: r => collectGo r (n1 + 256 * n2)
      | _ => []
    else []

/-- Modelled from the spec: the concatenated data pushes of a script
fragment. -/
def collectPushes (s : List Nat) : List Nat :=
  collectGo s 0

/-- Modelled from the spec: PayloadLocator search (section 4.5): the first
output script beginning with the reserved marker opcode sequence carries the
payload; later matching scripts are ignored; no match means no operation is
present. -/
def findPayload : List (List Nat) → Option (List Nat)
  | [] => none
  | s :: rest =>
    match s with
    | 106 :: 93 :: body => some (collectPushes body)
    | _ => findPayload rest

end Runes

/-!
The transaction reader collaborator (spec sections 1 and 6): the consensus
serialization of a transaction as an ordered list of inputs and outputs.
Only the pre-witness serialization is modelled; it is what the concrete
inputs of this development use.
-/

/-- Modelled from the spec: one transaction output: a value and a script. -/
structure TxOut where
  value : Nat
  script : List Nat
  deriving DecidableEq, Repr

/-- Modelled from the spec: one transaction input of the consensus
serialization. -/
structure TxIn where
  prevHash : List Nat
  prevIdx : Nat
  scriptSig : List Nat
  sequence : Nat
  deriving DecidableEq, Repr

/-- Modelled from the spec: a parsed transaction. -/
structure Tx where
  version : Nat
  inputs : List TxIn
  outputs : List TxOut
  locktime : Nat
  deriving DecidableEq, Repr

/-- Modelled from the spec: Runestone deciphering of a transaction: locate
the payload among the output scripts and decode it; none when no output
carries the marker. -/
def Runes.decipher (tx : Tx) : Option Runes.Artifact :=
  (Runes.findPayload (tx.outputs.map TxOut.script)).map Runes.decodePayload


/-- Modelled from the spec: read a fixed number of bytes from the stream. -/
def readN (n : Nat) (bs : List Nat) : Option (List Nat × List Nat) :=
  if n ≤ bs.length then some (bs.take n, bs.drop n) else none

/-- Little-endian value of a byte list. -/
def leVal (bs : List Nat) : Nat :=
  bs.foldr (fun b acc => b + 256 * acc) 0

/-- Modelled from the spec: read a fixed-width little-endian integer. -/
def readLE (n : Nat) (bs : List Nat) : Option (Nat × List Nat) :=
  (readN n bs).map fun p => (leVal p.1, p.2)

/-- Modelled from the spec: the consensus variable-length count prefix: one
byte below 253, or a marker byte followed by a 2-, 4- or 8-byte
little-endian value. -/
def readCompact (bs : List Nat) : Option (Nat × List Nat) :=
  match bs with
  | [] => none
  | b :: rest =>
    if b < 253 then some (b, rest)
    else if b = 253 then readLE 2 rest
    else if b = 254 then readLE 4 rest
    else readLE 8 rest

/-- Modelled from the spec: read a length-prefixed byte string (a script
field). -/
def readBytesField (bs : List Nat) : Option (List Nat × List Nat) :=
  match readCompact bs with
  | none => none
  | some (n, r) => readN n r

/-- Modelled from the spec: read one consensus transaction input. -/
def readInput (bs : List Nat) : Option (TxIn × List Nat) :=
  match readN 32 bs with
  | none => none
  | some (hash, r1) =>
    match readLE 4 r1 with
    | none => none
    | some (idx, r2) =>
      match readBytesField r2 with
      | none => none
      | some (sig, r3) =>
        match readLE 4 r3 with
        | none => none
        | some (seqn, r4) => some (⟨hash, idx, sig, seqn⟩, r4)

/-- Modelled from the spec: read one consensus transaction output. -/
def readOutput (bs : List Nat) : Option (TxOut × List Nat) :=
  match readLE 8 bs with
  | none => none
  | some (v, r1) =>
    match readBytesField r1 with
    | none => none
    | some (scr, r2) => some (⟨v, scr⟩, r2)

/-- Modelled from the spec: read a counted sequence with a given element
reader. -/
def readCount {α : Type} (rd : List Nat → Option (α × List Nat)) :
    Nat → List Nat → Option (List α × List Nat)
  | 0, bs => some ([], bs)
  | n + 1, bs =>
    match rd bs with
    | none => none
    | some (a, r) =>
      match readCount rd n r with
      | none => none
      | some (as_, r2) => some (a :: as_, r2)

/-- Modelled from the spec: the Transaction Reader collaborator: parse the
pre-witness consensus serialization of a transaction (version, counted
inputs, counted outputs, locktime); trailing bytes are ignored, matching a
cursor-based reader. -/
def consensusDecodeTx (bs : List Nat) : Option Tx :=
  match readLE 4 bs with
  | none => none
  | some (ver, r1) =>
    match readCompact r1 with
    | none => none
    | some (nIn, r2) =>
      match readCount readInput nIn r2 with
      | none => none
      | some (ins, r3) =>
        match readCompact r3 with
        | none => none
        | some (nOut, r4) =>
          match readCount readOutput nOut r4 with
          | none => none
          | some (outs, r5) =>
            match readLE 4 r5 with
            | none => none
            | some (lock, _) => some ⟨ver, ins, outs, lock⟩

/-- Little-endian bytes of a value, fixed width in bytes. -/
def leBytes : Nat → Nat → List Nat
  | _, 0 => []
  | n, w + 1 => n % 256 :: leBytes (n / 256) w

/-- Modelled from the spec: the consensus count prefix, encoding side. -/
def compactEnc (n : Nat) : List Nat :=
  if n < 253 then [n]
  else if n < 2 ^ 16 then 253 :: leBytes n 2
  else if n < U32 then 254 :: leBytes n 4
  else 255 :: leBytes n 8

/-- Modelled from the spec: consensus serialization of one output. -/
def encTxOut (o : TxOut) : List Nat :=
  leBytes o.value 8 ++ compactEnc o.script.length ++ o.script

/-- Modelled from the spec: consensus serialization of one input. -/
def encTxIn (i : TxIn) : List Nat :=
  i.prevHash ++ leBytes i.prevIdx 4 ++ compactEnc i.scriptSig.length ++
  i.scriptSig ++ leBytes i.sequence 4

/-- Modelled from the spec: consensus serialization of a transaction. -/
def encTx (tx : Tx) : List Nat :=
  leBytes tx.version 4 ++ compactEnc tx.inputs.length ++
  (tx.inputs.map encTxIn).flatten ++ compactEnc tx.outputs.length ++
  (tx.outputs.map encTxOut).flatten ++ leBytes tx.locktime 4

/-!
The hex boundary.  The bridge accepts the transaction as a hex string and
decodes it with a standard hex decoder; the embedding application's
formatting choice per spec section 6.
-/

/-- Value of one hex digit character, accepting both letter cases. -/
def hexDigitVal (c : Char) : Option Nat :=
  if '0' ≤ c ∧ c ≤ '9' then some (c.toNat - 48)
  else if 'a' ≤ c ∧ c ≤ 'f' then some (c.toNat - 87)
  else if 'A' ≤ c ∧ c ≤ 'F' then some (c.toNat - 55)
  else none

/-- Hex decoding of a character list: an even number of hex digits, two
digits per byte, most significant first. -/
def hexDecodeList : List Char → Option (List Nat)
  | [] => some []
  | [_] => none
  | c1 :: c2 :: rest =>
    match hexDigitVal c1, hexDigitVal c2, hexDecodeList rest with
    | some hi, some lo, some bs => some ((16 * hi + lo) :: bs)
    | _, _, _ => none

/-- Hex decoding of a string, as the hex crate's decode used by the
bridge. -/
def hexDecode (s : String) : Option (List Nat) :=
  hexDecodeList s.data

/-- Lowercase hex digit character of a value below 16. -/
def hexDigitChar (n : Nat) : Char :=
  if n < 10 then Char.ofNat (48 + n) else Char.ofNat (87 + n)

/-- Hex encoding of a byte list into a lowercase string. -/
def hexEncode (bs : List Nat) : String :=
  String.mk ((bs.map fun b => [hexDigitChar (b / 16), hexDigitChar (b % 16)]).flatten)

/-!
Decimal digit strings, for the textual identifier form of spec section 6.
-/

/-- Fuel-indexed worker for decimal digits; any fuel at least the value is
enough. -/
def digitsRevAux : Nat → Nat → List Nat
  | 0, n => [n % 10]
  | fuel + 1, n =>
    if n < 10 then [n] else n % 10 :: digitsRevAux fuel (n / 10)

/-- Decimal digits of a number, least significant first. -/
def digitsRev (n : Nat) : List Nat :=
  digitsRevAux n n

theorem digitsRevAux_fuel {f1 f2 n : Nat} (h1 : n ≤ f1) (h2 : n ≤ f2) :
    digitsRevAux f1 n = digitsRevAux f2 n := by
  induction f1 generalizing f2 n with
  | zero =>
    cases f2 with
    | zero => rfl
    | succ f2 =>
      have : n = 0 := by omega
      subst this
      simp [digitsRevAux]
  | succ f ih =>
    cases f2 with
    | zero =>
      have : n = 0 := by omega
      subst this
      simp [digitsRevAux]
    | succ f2 =>
      simp only [digitsRevAux]
      split
      · rfl
      · next hge =>
        have hdiv : n / 10 < n := Nat.div_lt_self (by omega) (by omega)
        have hh : digitsRevAux f (n / 10) = digitsRevAux f2 (n / 10) :=
          ih (by omega) (by omega)
        rw [hh]

/-- Unfolding equation of the decimal digit list. -/
theorem digitsRev_eq (n : Nat) :
    digitsRev n = if n < 10 then [n] else n % 10 :: digitsRev (n / 10) := by
  have h1 : digitsRevAux n n = digitsRevAux (n + 1) n :=
    digitsRevAux_fuel (Nat.le_refl n) (Nat.le_succ n)
  unfold digitsRev
  rw [h1]
  simp only [digitsRevAux]
  split
  · rfl
  · next hge =>
    have h2 : digitsRevAux n (n / 10) = digitsRevAux (n / 10) (n / 10) :=
      digitsRevAux_fuel (Nat.div_le_self n 10) (Nat.le_refl _)
    rw [h2]

/-- Decimal string of a number. -/
def natToString (n : Nat) : String :=
  String.mk (((digitsRev n).reverse).map fun d => Char.ofNat (48 + d))

/-- Value of a decimal digit character. -/
def digitVal (c : Char) : Option Nat :=
  if '0' ≤ c ∧ c ≤ '9' then some (c.toNat - 48) else none

/-- Accumulating decimal parse over a character list. -/
def parseNatCore : List Char → Nat → Option Nat
  | [], acc => some acc
  | c :: cs, acc =>
    match digitVal c with
    | some d => parseNatCore cs (10 * acc + d)
    | none => none

/-- Parse a nonempty all-digit character list into a number. -/
def parseNatChars (cs : List Char) : Option Nat :=
  if cs.isEmpty then none else parseNatCore cs 0

/-- Split a character list at its first colon. -/
def splitColon : List Char → Option (List Char × List Char)
  | [] => none
  | c :: rest =>
    if c = ':' then some ([], rest)
    else (splitColon rest).map fun p => (c :: p.1, p.2)

/-- Modelled from the spec: the textual identifier form of section 6, block
and index in decimal joined by a colon. -/
def formatRuneId (id : Runes.RuneId) : String :=
  natToString id.block ++ ":" ++ natToString id.tx

/-- Modelled from the spec: parsing the textual identifier form back: split
at the first colon and parse both sides as bounded decimal numbers (the
block is unsigned 64-bit, the index unsigned 32-bit). -/
def parseRuneId (s : String) : Option Runes.RuneId :=
  match splitColon s.data with
  | none => none
  | some (a, b) =>
    match parseNatChars a, parseNatChars b with
    | some blk, some tx =>
      if blk < U64 ∧ tx < U32 then some ⟨blk, tx⟩ else none
    | _, _ => none

/-!
The spaced name textual form (spec sections 3 and 6): a base-26-style name
plus a bitmask marking which letter boundaries carry the separator glyph.
-/

/-- Modelled from the spec: a spaced name value: the name in its base-26
numeric form plus the spacer bitmask. -/
structure SpacedRune where
  rune : Nat
  spacers : Nat
  deriving DecidableEq, Repr

/-- Fuel-indexed worker for the letter digits; any fuel at least the value
is enough. -/
def lettersAux : Nat → Nat → List Nat
  | 0, n => [n % 26]
  | fuel + 1, n =>
    if n < 26 then [n] else lettersAux fuel (n / 26 - 1) ++ [n % 26]

/-- Letter digits (each below 26) of a name value, most significant first,
in the bijective base-26 numeration where value 0 is the single letter A
and 26 is AA. -/
def letters (n : Nat) : List Nat :=
  lettersAux n n

theorem lettersAux_fuel {f1 f2 n : Nat} (h1 : n ≤ f1) (h2 : n ≤ f2) :
    lettersAux f1 n = lettersAux f2 n := by
  induction f1 generalizing f2 n with
  | zero =>
    cases f2 with
    | zero => rfl
    | succ f2 =>
      have : n = 0 := by omega
      subst this
      simp [lettersAux]
  | succ f ih =>
    cases f2 with
    | zero =>
      have : n = 0 := by omega
      subst this
      simp [lettersAux]
    | succ f2 =>
      simp only [lettersAux]
      split
      · rfl
      · next hge =>
        have hdiv : n / 26 < n := Nat.div_lt_self (by omega) (by omega)
        have hh : lettersAux f (n / 26 - 1) = lettersAux f2 (n / 26 - 1) :=
          ih (by omega) (by omega)
        rw [hh]

/-- Unfolding equation of the letter digit list. -/
theorem letters_eq (n : Nat) :
    letters n = if n < 26 then [n] else letters (n / 26 - 1) ++ [n % 26] := by
  have h1 : lettersAux n n = lettersAux (n + 1) n :=
    lettersAux_fuel (Nat.le_refl n) (Nat.le_succ n)
  unfold letters
  rw [h1]
  simp only [lettersAux]
  split
  · rfl
  · next hge =>
    have hdiv : n / 26 < n := Nat.div_lt_self (by omega) (by omega)
    have h2 : lettersAux n (n / 26 - 1) = lettersAux (n / 26 - 1) (n / 26 - 1) :=
      lettersAux_fuel (by omega) (Nat.le_refl _)
    rw [h2]

/-- Name value of a nonempty letter digit list, inverse of letters. -/
def fromLetters : List Nat → Nat
  | [] => 0
  | d :: ds => ds.foldl (fun a e => (a + 1) * 26 + e) d

/-- Modelled from the spec: the character stream of a spaced name: letters
in order, with the separator glyph inserted after letter i whenever spacer
bit i is set; bits at or past the last letter print nothing. -/
def spacedChars : List Nat → Nat → Nat → List Char
  | [], _, _ => []
  | [d], _, _ => [Char.ofNat (65 + d)]
  | d :: e :: rest, sp, i =>
    Char.ofNat (65 + d) ::
    ((if sp / 2 ^ i % 2 = 1 then ['•'] else []) ++ spacedChars (e :: rest) sp (i + 1))

/-- Modelled from the spec: the textual form of a spaced name (section 6):
letters with a separator glyph wherever the spacer bitmask marks a
boundary. -/
def srToString (sr : SpacedRune) : String :=
  String.mk (spacedChars (letters sr.rune) sr.spacers 0)

/-- Modelled from the spec: parsing a spaced name string.  Uppercase
letters accumulate the base-26 value; a separator glyph (the display glyph
or a period) sets the spacer bit of the preceding boundary and is rejected
when leading, doubled or trailing (the invariant of section 3: separator
bits only on boundaries that exist between letters); an empty name or a
value leaving 128 bits is rejected. -/
def srParse : List Char → Nat → Nat → Nat → Bool → Option SpacedRune
  | [], k, acc, sp, lastSp =>
    if k = 0 ∨ lastSp then none
    else if acc < U128 then some ⟨acc, sp⟩ else none
  | c :: rest, k, acc, sp, lastSp =>
    if 'A' ≤ c ∧ c ≤ 'Z' then
      srParse rest (k + 1)
        (if k = 0 then c.toNat - 65 else (acc + 1) * 26 + (c.toNat - 65)) sp false
    else if c = '•' ∨ c = '.' then
      if k = 0 ∨ lastSp then none
      else srParse rest k acc (sp + 2 ^ (k - 1)) true
    else none

/-- Modelled from the spec: parse entry point for the spaced name textual
form. -/
def srFromStr (s : String) : Option SpacedRune :=
  srParse s.data 0 0 0 false

/-!
The bridge layer, embedded from src/src/lib.rs.  The public types carry
identifiers and names as strings and wide numbers as BigInt values; a
BigInt is modelled as its magnitude (a Nat).  The accessor get_u128 of the
binding layer returns a sign flag, the low 128 bits, and a losslessness
flag; get_u64 likewise with 64 bits.  The bridge source reads only the
middle component.
-/

/-- The BigInt accessor returning (sign, low 128 bits, lossless). -/
def getU128 (v : Nat) : Bool × Nat × Bool :=
  (false, v % U128, decide (v < U128))

/-- The BigInt accessor returning (sign, low 64 bits, lossless). -/
def getU64 (v : Nat) : Bool × Nat × Bool :=
  (false, v % U64, decide (v < U64))

namespace Bridge

/-- The public edict type of lib.rs: a textual identifier, a BigInt amount
and an output index. -/
structure Edict where
  id : String
  amount : Nat
  output : Nat
  deriving DecidableEq, Repr

/-- From ordinals::Edict for Edict (lib.rs lines 20 to 28): format the
identifier, keep amount and output. -/
def edictOfRunes (e : Runes.Edict) : Edict :=
  { id := formatRuneId e.id, amount := e.amount, output := e.output }

/-- TryFrom Edict for ordinals::Edict (lib.rs lines 30 to 41): parse the
identifier string; the amount is read through get_u128, keeping only the
middle component (the low 128 bits). -/
def edictToRunes (e : Edict) : Option Runes.Edict :=
  match parseRuneId e.id with
  | none => none
  | some id => some { id := id, amount := (getU128 e.amount).2.1, output := e.output }

/-- The public block range type of lib.rs: optional BigInt bounds. -/
structure BlockRange where
  start : Option Nat
  end_ : Option Nat
  deriving DecidableEq, Repr

/-- From (Option u64, Option u64) for BlockRange (lib.rs lines 50 to 57). -/
def rangeOfRunes (p : Option Nat × Option Nat) : BlockRange :=
  { start := p.1, end_ := p.2 }

/-- From BlockRange for (Option u64, Option u64) (lib.rs lines 59 to 66):
each bound is read through get_u64, keeping only the middle component (the
low 64 bits). -/
def rangeToRunes (r : BlockRange) : Option Nat × Option Nat :=
  (r.start.map fun v => (getU64 v).2.1, r.end_.map fun v => (getU64 v).2.1)

/-- The public terms type of lib.rs. -/
structure Terms where
  amount : Option Nat
  cap : Option Nat
  height : BlockRange
  offset : BlockRange
  deriving DecidableEq, Repr

/-- From ordinals::Terms for Terms (lib.rs lines 77 to 86). -/
def termsOfRunes (t : Runes.Terms) : Terms :=
  { amount := t.amount, cap := t.cap,
    height := rangeOfRunes t.height, offset := rangeOfRunes t.offset }

/-- From Terms for ordinals::Terms (lib.rs lines 88 to 97): amounts are read
through get_u128, keeping only the low 128 bits. -/
def termsToRunes (t : Terms) : Runes.Terms :=
  { amount := t.amount.map fun v => (getU128 v).2.1,
    cap := t.cap.map fun v => (getU128 v).2.1,
    height := rangeToRunes t.height, offset := rangeToRunes t.offset }

/-- The public etching type of lib.rs: the rune name and the symbol are
plain strings. -/
structure Etching where
  divisibility : Option Nat
  premine : Option Nat
  rune : String
  symbol : String
  terms : Option Terms
  turbo : Bool
  deriving DecidableEq, Repr

/-- From ordinals::Etching for Etching (lib.rs lines 110 to 124): an absent
rune becomes the empty string (the default), a present one is rendered as
its spaced textual form with the spacers defaulting to zero; an absent
symbol becomes the empty string. -/
def etchingOfRunes (e : Runes.Etching) : Etching :=
  { divisibility := e.divisibility
    premine := e.premine
    rune :=
      match e.rune with
      | some v => srToString ⟨v, e.spacers.getD 0⟩
      | none => ""
    symbol :=
      match e.symbol with
      | some c => String.mk [c]
      | none => ""
    terms := e.terms.map termsOfRunes
    turbo := e.turbo }

/-- TryFrom Etching for ordinals::Etching (lib.rs lines 126 to 141): the
rune string must parse as a spaced name (the sole failure point); the
divisibility passes through unchecked; the premine is read through
get_u128; the symbol is the first character of the symbol string, if
any. -/
def etchingToRunes (e : Etching) : Option Runes.Etching :=
  match srFromStr e.rune with
  | none => none
  | some sr =>
    some
      { divisibility := e.divisibility
        premine := e.premine.map fun v => (getU128 v).2.1
        rune := some sr.rune
        spacers := some sr.spacers
        symbol := e.symbol.data.head?
        terms := e.terms.map termsToRunes
        turbo := e.turbo }

/-- The public runestone type of lib.rs. -/
structure Runestone where
  edicts : List Edict
  etching : Option Etching
  mint : Option String
  pointer : Option Nat
  deriving DecidableEq, Repr

/-- From ordinals::Runestone for Runestone (lib.rs lines 152 to 161). -/
def runestoneOfRunes (r : Runes.Runestone) : Runestone :=
  { edicts := r.edicts.map edictOfRunes
    etching := r.etching.map etchingOfRunes
    mint := r.mint.map formatRuneId
    pointer := r.pointer }

/-- Conversion of every edict in order, failing when any single edict
fails, as the collected Result of lib.rs lines 171 to 176. -/
def edictsToRunes : List Edict → Option (List Runes.Edict)
  | [] => some []
  | e :: rest =>
    match edictToRunes e with
    | none => none
    | some oe =>
      match edictsToRunes rest with
      | none => none
      | some os => some (oe :: os)

/-- TryFrom Runestone for ordinals::Runestone (lib.rs lines 163 to 182): a
present mint string must parse as an identifier, every edict and the
etching must convert; any failure fails the whole conversion. -/
def runestoneToRunes (r : Runestone) : Option Runes.Runestone :=
  match
    (match r.mint with
     | none => some none
     | some s => (parseRuneId s).map some) with
  | none => none
  | some mintId =>
    match edictsToRunes r.edicts with
    | none => none
    | some es =>
      match
        (match r.etching with
         | none => some none
         | some e => (etchingToRunes e).map some) with
      | none => none
      | some etch => some { edicts := es, etching := etch, mint := mintId, pointer := r.pointer }

/-- The public decipher entry point (lib.rs lines 184 to 199): hex-decode
the transaction, consensus-decode it, decipher it; a missing artifact and a
cenotaph artifact both become none, a runestone artifact converts to the
public type. -/
def decipher (transaction : String) : Option Runestone :=
  match hexDecode transaction with
  | none => none
  | some bytes =>
    match consensusDecodeTx bytes with
    | none => none
    | some tx =>
      match Runes.decipher tx with
      | none => none
      | some (Runes.Artifact.cenotaph _) => none
      | some (Runes.Artifact.runestone r) => some (runestoneOfRunes r)

/-- The public encipher entry point (lib.rs lines 201 to 206): convert the
public runestone (the sole failure point) and serialize it; the byte output
is the carrier script. -/
def encipher (data : Runestone) : Option (List Nat) :=
  match runestoneToRunes data with
  | none => none
  | some r => some (Runes.encipherScript r)

end Bridge

/-- Modelled from the spec: the transaction builder of the round-trip
property (section 8): wrap a carrier script as the single output of a
minimal transaction and present it in the consensus hex form the public
decipher accepts. -/
def buildTransaction (script : List Nat) : String :=
  hexEncode (encTx
    { version := 1
      inputs := [{ prevHash := List.replicate 32 0, prevIdx := 0,
                   scriptSig := [], sequence := 4294967295 }]
      outputs := [{ value := 0, script := script }]
      locktime := 0 })

/-!
Well-formedness predicates: the Data Model widths and invariants of spec
section 3, stated over the embedded types.
-/

/-- Bound on an optional value. -/
def optLt (o : Option Nat) (b : Nat) : Prop :=
  ∀ v, o = some v → v < b

namespace Runes

/-- Data Model widths of one edict: identifier within 64 and 32 bits,
amount within 128 bits, output within 32 bits. -/
def edictWF (e : Edict) : Prop :=
  e.id.block < U64 ∧ e.id.tx < U32 ∧ e.amount < U128 ∧ e.output < U32

/-- Data Model widths of one etching: each numeric field within its
declared width. -/
def etchingWF (e : Etching) : Prop :=
  optLt e.divisibility U128 ∧ optLt e.premine U128 ∧ optLt e.rune U128 ∧
  optLt e.spacers U128 ∧
  (∀ t, e.terms = some t →
    optLt t.amount U128 ∧ optLt t.cap U128 ∧
    optLt t.height.1 U64 ∧ optLt t.height.2 U64 ∧
    optLt t.offset.1 U64 ∧ optLt t.offset.2 U64)

/-- Data Model widths of a whole operation. -/
def widthsWF (r : Runestone) : Prop :=
  (∀ e ∈ r.edicts, edictWF e) ∧
  (∀ e, r.etching = some e → etchingWF e) ∧
  (∀ id, r.mint = some id → id.block < U64 ∧ id.tx < U32) ∧
  optLt r.pointer U32

/-- Terms normalization performed implicitly by a decode and re-encode
cycle: terms with every subfield absent serialize to no tags at all and so
decode as absent terms. -/
def normTerms : Option Terms → Option Terms
  | none => none
  | some t =>
    if t.amount.isSome || t.cap.isSome || t.height.1.isSome || t.height.2.isSome ||
       t.offset.1.isSome || t.offset.2.isSome then some t
    else none

/-- The normal form a flawless decode of an encoded operation yields: the
edicts sorted by ascending identifier and degenerate terms collapsed. -/
def decNormal (r : Runestone) : Runestone :=
  { edicts := sortEdicts r.edicts
    etching := r.etching.map fun e => { e with terms := normTerms e.terms }
    mint := r.mint
    pointer := r.pointer }

end Runes

namespace Bridge

/-- A well-formed public edict: the identifier string is the canonical
textual form of an in-range identifier, the amount is within 128 bits, the
output within 32 bits (its public type is a 32-bit integer). -/
def edictWellFormed (e : Edict) : Prop :=
  (∃ r : Runes.RuneId, parseRuneId e.id = some r ∧ formatRuneId r = e.id) ∧
  e.amount < U128 ∧ e.output < U32

/-- Well-formed public terms: bounds within their declared widths and at
least one subfield present (terms with no subfield serialize to nothing and
are degenerate). -/
def termsWellFormed (t : Terms) : Prop :=
  optLt t.amount U128 ∧ optLt t.cap U128 ∧
  optLt t.height.start U64 ∧ optLt t.height.end_ U64 ∧
  optLt t.offset.start U64 ∧ optLt t.offset.end_ U64 ∧
  (t.amount.isSome ∨ t.cap.isSome ∨ t.height.start.isSome ∨
   t.height.end_.isSome ∨ t.offset.start.isSome ∨ t.offset.end_.isSome)

/-- A well-formed public etching: the rune string is the canonical textual
form of a spaced name, divisibility is a byte at most 38, premine is within
128 bits, the symbol is empty or a single character, the terms are
well-formed, and the total supply premine + cap * amount stays within 128
bits (the Data Model invariants of spec section 3). -/
def etchingWellFormed (e : Etching) : Prop :=
  (∃ sr, srFromStr e.rune = some sr ∧ srToString sr = e.rune) ∧
  (∀ d, e.divisibility = some d → d ≤ 38) ∧
  optLt e.premine U128 ∧
  (e.symbol = "" ∨ ∃ c, e.symbol = String.mk [c]) ∧
  (∀ t, e.terms = some t → termsWellFormed t) ∧
  (e.premine.getD 0 +
    ((e.terms.bind Terms.cap).getD 0) * ((e.terms.bind Terms.amount).getD 0) < U128)

/-- A well-formed public operation, satisfying the Data Model invariants of
spec section 3: well-formed edicts and etching, a canonical mint identifier
string, and a 32-bit pointer. -/
def wellFormed (op : Runestone) : Prop :=
  (∀ e ∈ op.edicts, edictWellFormed e) ∧
  (∀ e, op.etching = some e → etchingWellFormed e) ∧
  (∀ s, op.mint = some s → ∃ r, parseRuneId s = some r ∧ formatRuneId r = s) ∧
  optLt op.pointer U32

end Bridge

namespace Runes

/-- Application of an optional tag/value pair to the parser state: absent
fields leave the state unchanged. -/
def applyOpt (t : Nat) (o : Option Nat) (st : PState) : PState :=
  match o with
  | none => st
  | some v => applyTag t v st

/-- The flat integer sequence of a list of optional tagged fields. -/
def pairsFlat (l : List (Nat × Option Nat)) : List Nat :=
  (l.map fun p => optPair p.1 p.2).flatten

/-- The fifteen optional tagged fields of an operation in the emission
order of the encoder (spec section 4.7). -/
def fieldOpts (r : Runestone) : List (Nat × Option Nat) :=
  [(2, r.etching.bind Etching.divisibility),
   (4, r.etching.bind Etching.premine),
   (6, r.etching.bind Etching.rune),
   (8, r.etching.bind Etching.spacers),
   (10, r.etching.bind fun e => e.symbol.map Char.toNat),
   (12, r.etching.bind fun e => e.terms.bind Terms.amount),
   (14, r.etching.bind fun e => e.terms.bind Terms.cap),
   (16, r.etching.bind fun e => e.terms.bind fun t => t.height.1),
   (18, r.etching.bind fun e => e.terms.bind fun t => t.height.2),
   (20, r.etching.bind fun e => e.terms.bind fun t => t.offset.1),
   (22, r.etching.bind fun e => e.terms.bind fun t => t.offset.2),
   (24, r.etching.bind fun e => if e.turbo then some 1 else none),
   (26, r.pointer),
   (28, r.mint.map RuneId.block),
   (30, r.mint.map RuneId.tx)]

/-- The parser state after the field section of an encoded operation. -/
def fieldState (r : Runestone) : PState :=
  (fieldOpts r).foldl (fun s p => applyOpt p.1 p.2 s) pstate0

/-- Identifier ordering as a proposition: ascending block, then index. -/
def idLeP (a b : RuneId) : Prop :=
  a.block < b.block ∨ (a.block = b.block ∧ a.tx ≤ b.tx)

/-- Sortedness of an edict list starting from a previous identifier: each
identifier is at least the one before it. -/
def chainFrom (prev : RuneId) : List Edict → Prop
  | [] => True
  | e :: rest => idLeP prev e.id ∧ chainFrom e.id rest

end Runes

/-- Shape conditions under which the consensus serialization of a
transaction parses back: fixed-width fields within their widths, 32-byte
previous-transaction hashes, and script lengths within the count prefix
range. -/
def txWF (t : Tx) : Prop :=
  t.version < U32 ∧ t.locktime < U32 ∧
  t.inputs.length < U64 ∧ t.outputs.length < U64 ∧
  (∀ i ∈ t.inputs, i.prevHash.length = 32 ∧ i.prevIdx < U32 ∧
    i.sequence < U32 ∧ i.scriptSig.length < U64) ∧
  (∀ o ∈ t.outputs, o.value < U64 ∧ o.script.length < U64)

/-!
Concrete inputs used by counterexamples and witnesses.
-/

/-- A transaction whose single output script carries the marker followed by
a one-byte push of the single tag integer 2 with no paired value: its
payload decodes with a TrailingTag flaw. -/
def txC1 : Tx :=
  { version := 1
    inputs := [{ prevHash := List.replicate 32 0, prevIdx := 0,
                 scriptSig := [], sequence := 4294967295 }]
    outputs := [{ value := 0, script := [106, 93, 1, 2] }]
    locktime := 0 }

/-- A public etching with divisibility 40, violating the 0 to 38 Data Model
invariant, but with a parseable rune name. -/
def etchC2 : Bridge.Etching :=
  { divisibility := some 40
    premine := none
    rune := "A"
    symbol := ""
    terms := none
    turbo := false }

/-- A public operation carrying the invariant-violating etching. -/
def opC2 : Bridge.Runestone :=
  { edicts := [], etching := some etchC2, mint := none, pointer := none }

/-- A public edict whose amount exceeds 128 bits. -/
def edictC3 : Bridge.Edict :=
  { id := "0:1", amount := U128 + 7, output := 0 }

/-- A public block range whose start exceeds 64 bits. -/
def rangeC3 : Bridge.BlockRange :=
  { start := some (U64 + 3), end_ := none }

/-- A public etching with a two-character symbol string. -/
def etchC9 : Bridge.Etching :=
  { divisibility := none
    premine := none
    rune := "A"
    symbol := "xy"
    terms := none
    turbo := false }

/-- The protocol etching the two-character-symbol etching converts to. -/
def oetchC9 : Runes.Etching :=
  { divisibility := none
    premine := none
    rune := some 0
    spacers := some 0
    symbol := some 'x'
    terms := none
    turbo := false }

/-- A public operation carrying the two-character-symbol etching. -/
def opC9 : Bridge.Runestone :=
  { edicts := [], etching := some etchC9, mint := none, pointer := none }

/-- A protocol etching carrying no rune name. -/
def oetchC10 : Runes.Etching :=
  { divisibility := none
    premine := none
    rune := none
    spacers := none
    symbol := none
    terms := none
    turbo := false }

/-- A protocol operation whose etching carries no rune name. -/
def opC10 : Runes.Runestone :=
  { edicts := [], etching := some oetchC10, mint := none, pointer := none }

/-!
Claim theorems and their helper lemmas.
-/

set_option maxRecDepth 4000

/-- C1 counterexample: a concrete transaction whose payload decodes with a
TrailingTag flaw (a cenotaph), on which the public decipher nevertheless
returns none, the very outcome of a transaction with no operation at all,
so the cenotaph outcome is not distinguishable from none. -/
theorem c1_counterexample :
    ((hexDecode (buildTransaction [106, 93, 1, 2])).bind fun bs =>
      (consensusDecodeTx bs).bind Runes.decipher) =
        some (Runes.Artifact.cenotaph [Runes.Flaw.trailingTag]) ∧
    Bridge.decipher (buildTransaction [106, 93, 1, 2]) = none ∧
    Bridge.decipher (buildTransaction [1]) = none := by
  refine ⟨by decide, by decide, by decide⟩

/-- C1 amended: whenever the embedded payload decodes with flaws (a
cenotaph artifact), the public decipher returns none, collapsing the
cenotaph outcome into the no-operation outcome; no exception or abort is
involved (the function is total). -/
theorem c1_cenotaph_becomes_none (s : String) (bs : List Nat) (tx : Tx)
    (fs : List Runes.Flaw) (h1 : hexDecode s = some bs)
    (h2 : consensusDecodeTx bs = some tx)
    (h3 : Runes.decipher tx = some (Runes.Artifact.cenotaph fs)) :
    Bridge.decipher s = none := by
  simp only [Bridge.decipher, h1, h2, h3]

/-- C1 witness: the amended theorem applied at the concrete flawed
transaction. -/
theorem c1_witness : Bridge.decipher (buildTransaction [106, 93, 1, 2]) = none :=
  c1_cenotaph_becomes_none (buildTransaction [106, 93, 1, 2]) (encTx txC1) txC1
    [Runes.Flaw.trailingTag] (by decide) (by decide) (by decide)

/-- C2 counterexample: an operation whose etching has divisibility 40,
violating the 0 to 38 invariant, for which encipher nevertheless produces
bytes instead of failing. -/
theorem c2_counterexample :
    Bridge.encipher opC2 = some [106, 93, 6, 2, 40, 6, 0, 8, 0] ∧
    opC2.etching.map Bridge.Etching.divisibility = some (some 40) := by
  refine ⟨by decide, by decide⟩

theorem edictToRunes_eq_none (e : Bridge.Edict) :
    Bridge.edictToRunes e = none ↔ parseRuneId e.id = none := by
  unfold Bridge.edictToRunes
  cases parseRuneId e.id <;> simp

theorem edictsToRunes_eq_none (l : List Bridge.Edict) :
    Bridge.edictsToRunes l = none ↔ ∃ e ∈ l, parseRuneId e.id = none := by
  induction l with
  | nil => simp [Bridge.edictsToRunes]
  | cons e rest ih =>
    simp only [Bridge.edictsToRunes]
    cases he : Bridge.edictToRunes e with
    | none =>
      exact iff_of_true rfl
        ⟨e, List.mem_cons_self e rest, (edictToRunes_eq_none e).mp he⟩
    | some oe =>
      cases hr : Bridge.edictsToRunes rest with
      | none =>
        obtain ⟨x, hx, hpx⟩ := ih.mp hr
        exact iff_of_true rfl ⟨x, List.mem_cons_of_mem e hx, hpx⟩
      | some os =>
        refine iff_of_false (by simp) ?_
        rintro ⟨x, hx, hpx⟩
        rcases List.mem_cons.mp hx with hxe | hxr
        · subst hxe
          rw [(edictToRunes_eq_none x).mpr hpx] at he
          cases he
        · rw [ih.mpr ⟨x, hxr, hpx⟩] at hr
          cases hr

theorem etchingToRunes_eq_none (e : Bridge.Etching) :
    Bridge.etchingToRunes e = none ↔ srFromStr e.rune = none := by
  unfold Bridge.etchingToRunes
  cases srFromStr e.rune <;> simp

theorem encipher_eq_none (op : Bridge.Runestone) :
    Bridge.encipher op = none ↔ Bridge.runestoneToRunes op = none := by
  unfold Bridge.encipher
  cases Bridge.runestoneToRunes op <;> simp

/-- C2 amended: encipher fails (returns none) exactly when a textual field
fails to parse: the mint identifier string, an edict identifier string, or
the rune name string.  Numeric Data Model invariant violations such as
divisibility above 38 are not rejected; bytes are produced for them. -/
theorem c2_encipher_none_iff (op : Bridge.Runestone) :
    Bridge.encipher op = none ↔
      ((∃ s, op.mint = some s ∧ parseRuneId s = none) ∨
       (∃ e ∈ op.edicts, parseRuneId e.id = none) ∨
       (∃ e, op.etching = some e ∧ srFromStr e.rune = none)) := by
  rw [encipher_eq_none]
  constructor
  · intro h
    unfold Bridge.runestoneToRunes at h
    cases hm2 : (match op.mint with
        | none => some none
        | some s => (parseRuneId s).map some) with
    | none =>
      cases hm : op.mint with
      | none =>
        rw [hm] at hm2
        cases hm2
      | some s =>
        simp only [hm] at hm2
        refine Or.inl ⟨s, rfl, ?_⟩
        cases hp : parseRuneId s with
        | none => rfl
        | some i => simp [hp] at hm2
    | some mid =>
      rw [hm2] at h
      simp only at h
      cases hed : Bridge.edictsToRunes op.edicts with
      | none =>
        exact Or.inr (Or.inl ((edictsToRunes_eq_none op.edicts).mp hed))
      | some es =>
        rw [hed] at h
        simp only at h
        cases hetch2 : (match op.etching with
            | none => some none
            | some e => (Bridge.etchingToRunes e).map some) with
        | none =>
          cases hetch : op.etching with
          | none =>
            rw [hetch] at hetch2
            cases hetch2
          | some e =>
            simp only [hetch] at hetch2
            refine Or.inr (Or.inr ⟨e, rfl, ?_⟩)
            rw [← etchingToRunes_eq_none]
            cases hec : Bridge.etchingToRunes e with
            | none => rfl
            | some oe => simp [hec] at hetch2
        | some et =>
          rw [hetch2] at h
          simp only at h
          cases h
  · rintro (⟨s, hs, hp⟩ | ⟨x, hx, hpx⟩ | ⟨e, he, hsr⟩) <;>
      unfold Bridge.runestoneToRunes
    · simp [hs, hp]
    · have hed := (edictsToRunes_eq_none op.edicts).mpr ⟨x, hx, hpx⟩
      cases hm2 : (match op.mint with
          | none => some none
          | some s => (parseRuneId s).map some) with
      | none => rfl
      | some mid =>
        simp only
        rw [hed]
    · cases hm2 : (match op.mint with
          | none => some none
          | some s => (parseRuneId s).map some) with
      | none => rfl
      | some mid =>
        simp only
        cases hed : Bridge.edictsToRunes op.edicts with
        | none => rfl
        | some es =>
          simp [he, (etchingToRunes_eq_none e).mpr hsr]

/-- C3 counterexample: an edict amount of 2 to the 128 plus 7 converts
without any flaw to the wrapped amount 7, and a range start of 2 to the 64
plus 3 converts to the wrapped bound 3: oversized values are silently
truncated, not flagged. -/
theorem c3_counterexample :
    Bridge.edictToRunes edictC3 = some { id := ⟨0, 1⟩, amount := 7, output := 0 } ∧
    Bridge.rangeToRunes rangeC3 = (some 3, none) := by
  refine ⟨by decide, by decide⟩

/-- C3 amended: a numeric value crossing the codec boundary in excess of
its declared width is silently reduced modulo that width by the conversion
(the accessor's losslessness flag is discarded), never flagged: an edict
whose identifier parses always converts with its amount taken modulo 2 to
the 128, and a block range always converts with its bounds taken modulo 2
to the 64. -/
theorem c3_oversized_values_truncated :
    (∀ (e : Bridge.Edict) (i : Runes.RuneId), parseRuneId e.id = some i →
      Bridge.edictToRunes e =
        some { id := i, amount := e.amount % U128, output := e.output }) ∧
    (∀ r : Bridge.BlockRange,
      Bridge.rangeToRunes r =
        (r.start.map fun v => v % U64, r.end_.map fun v => v % U64)) := by
  constructor
  · intro e i h
    simp only [Bridge.edictToRunes, h]
    rfl
  · intro r
    rfl

/-- C3 witness: the amended theorem applied at a concrete in-range
identifier. -/
theorem c3_witness :
    Bridge.edictToRunes edictC3 =
      some { id := ⟨0, 1⟩, amount := edictC3.amount % U128, output := edictC3.output } :=
  c3_oversized_values_truncated.1 edictC3 ⟨0, 1⟩ (by decide)

/-- C8: an input string that is not valid hexadecimal, or whose bytes do
not consensus-decode to a transaction, makes the public decipher return
none; the embedding is total, so no panic is possible. -/
theorem c8_bad_input_none (s : String) :
    (hexDecode s = none → Bridge.decipher s = none) ∧
    (∀ bs, hexDecode s = some bs → consensusDecodeTx bs = none →
      Bridge.decipher s = none) := by
  constructor
  · intro h
    simp only [Bridge.decipher, h]
  · intro bs h1 h2
    simp only [Bridge.decipher, h1, h2]

/-- C8 witness: the theorem applied at a non-hex string and at a
too-short byte string. -/
theorem c8_witness :
    Bridge.decipher "zz" = none ∧ Bridge.decipher "00" = none :=
  ⟨(c8_bad_input_none "zz").1 (by decide),
   (c8_bad_input_none "00").2 [0] (by decide) (by decide)⟩

theorem etchingToRunes_set_symbol (e : Bridge.Etching) (s : String) :
    Bridge.etchingToRunes { e with symbol := s } =
      (Bridge.etchingToRunes e).map fun oe => { oe with symbol := s.data.head? } := by
  unfold Bridge.etchingToRunes
  cases h : srFromStr e.rune <;> simp [h]

/-- C9: the symbol string of a public etching is consumed only through its
first character: a successful conversion carries the first character (none
when the string is empty, the remaining characters discarded), and the
success of encipher never depends on the symbol string. -/
theorem c9_symbol_first_char (e : Bridge.Etching) (oe : Runes.Etching)
    (s1 s2 : String) (op : Bridge.Runestone) :
    (Bridge.etchingToRunes e = some oe → oe.symbol = e.symbol.data.head?) ∧
    (op.etching = some e →
      (Bridge.encipher { op with etching := some { e with symbol := s1 } }).isSome =
        (Bridge.encipher { op with etching := some { e with symbol := s2 } }).isSome) := by
  constructor
  · intro h
    unfold Bridge.etchingToRunes at h
    cases hsr : srFromStr e.rune with
    | none =>
      rw [hsr] at h
      cases h
    | some sr =>
      rw [hsr] at h
      simp only at h
      cases h
      rfl
  · intro hetch
    have hiso : ∀ s : String,
        (Bridge.encipher { op with etching := some { e with symbol := s } }).isSome =
          ((match op.mint with
            | none => some none
            | some m => (parseRuneId m).map some).isSome &&
           (Bridge.edictsToRunes op.edicts).isSome &&
           (srFromStr e.rune).isSome) := by
      intro s
      unfold Bridge.encipher Bridge.runestoneToRunes
      simp only
      rw [etchingToRunes_set_symbol]
      cases hm : (match op.mint with
          | none => some none
          | some m => (parseRuneId m).map some) with
      | none => simp
      | some mid =>
        simp only
        cases hed : Bridge.edictsToRunes op.edicts with
        | none => simp
        | some es =>
          simp only
          cases hsr : srFromStr e.rune with
          | none =>
            rw [(etchingToRunes_eq_none e).mpr hsr]
            simp
          | some sr =>
            cases hec : Bridge.etchingToRunes e with
            | none =>
              rw [(etchingToRunes_eq_none e).mp hec] at hsr
              cases hsr
            | some x => simp
    rw [hiso s1, hiso s2]

/-- C9 witness: the theorem applied at the concrete two-character symbol
etching. -/
theorem c9_witness :
    oetchC9.symbol = etchC9.symbol.data.head? ∧
    (Bridge.encipher { opC9 with etching := some { etchC9 with symbol := "qr" } }).isSome =
      (Bridge.encipher { opC9 with etching := some { etchC9 with symbol := "" } }).isSome :=
  ⟨(c9_symbol_first_char etchC9 oetchC9 "qr" "" opC9).1 (by decide),
   (c9_symbol_first_char etchC9 oetchC9 "qr" "" opC9).2 (by decide)⟩

/-- C10: a protocol etching with no rune name converts to a public etching
whose rune field is the empty string (the same value an empty name would
give), the empty string fails to parse as a spaced name, and therefore any
decoded operation carrying such an etching makes encipher return none when
passed back. -/
theorem c10_empty_rune_encipher_none (oe : Runes.Etching) (R : Runes.Runestone)
    (h1 : oe.rune = none) (h2 : R.etching = some oe) :
    (Bridge.etchingOfRunes oe).rune = "" ∧ srFromStr "" = none ∧
    Bridge.encipher (Bridge.runestoneOfRunes R) = none := by
  refine ⟨by simp [Bridge.etchingOfRunes, h1], by decide, ?_⟩
  rw [encipher_eq_none]
  unfold Bridge.runestoneToRunes
  cases hm : (match (Bridge.runestoneOfRunes R).mint with
      | none => some none
      | some s => (parseRuneId s).map some) with
  | none => rfl
  | some mid =>
    simp only
    cases hed : Bridge.edictsToRunes (Bridge.runestoneOfRunes R).edicts with
    | none => rfl
    | some es =>
      simp only
      have hre : (Bridge.runestoneOfRunes R).etching = some (Bridge.etchingOfRunes oe) := by
        simp [Bridge.runestoneOfRunes, h2]
      have hrune : (Bridge.etchingOfRunes oe).rune = "" := by
        simp [Bridge.etchingOfRunes, h1]
      simp only [hre]
      rw [(etchingToRunes_eq_none (Bridge.etchingOfRunes oe)).mpr (by rw [hrune]; decide)]
      rfl

/-- C10 witness: the theorem applied at the concrete rune-less etching. -/
theorem c10_witness :
    (Bridge.etchingOfRunes oetchC10).rune = "" ∧ srFromStr "" = none ∧
    Bridge.encipher (Bridge.runestoneOfRunes opC10) = none :=
  c10_empty_rune_encipher_none oetchC10 opC10 rfl rfl

/-!
Decimal digit string lemmas, towards the identifier round-trip of claim C7.
-/

theorem digitsRev_lt (n : Nat) : ∀ d ∈ digitsRev n, d < 10 := by
  induction n using Nat.strong_induction_on with
  | _ n ih =>
    rw [digitsRev_eq]
    split
    · next h =>
      intro d hd
      simp only [List.mem_singleton] at hd
      omega
    · next h =>
      intro d hd
      simp only [List.mem_cons] at hd
      rcases hd with hd | hd
      · subst hd
        exact Nat.mod_lt n (by omega)
      · exact ih (n / 10) (Nat.div_lt_self (by omega) (by omega)) d hd

theorem digitsRev_ne_nil (n : Nat) : digitsRev n ≠ [] := by
  rw [digitsRev_eq]
  split <;> simp

theorem parseNatCore_append (xs ys : List Char) (a : Nat) :
    parseNatCore (xs ++ ys) a =
      match parseNatCore xs a with
      | some b => parseNatCore ys b
      | none => none := by
  induction xs generalizing a with
  | nil => rfl
  | cons c cs ih =>
    simp only [List.cons_append, parseNatCore]
    cases digitVal c with
    | none => rfl
    | some d => exact ih (10 * a + d)

theorem digitVal_ofNat {d : Nat} (h : d < 10) :
    digitVal (Char.ofNat (48 + d)) = some d := by
  interval_cases d <;> decide

theorem digitChar_ne_colon {d : Nat} (h : d < 10) :
    Char.ofNat (48 + d) ≠ ':' := by
  interval_cases d <;> decide

theorem parseNatCore_digits (n : Nat) : ∀ a : Nat,
    parseNatCore ((digitsRev n).reverse.map fun d => Char.ofNat (48 + d)) a =
      some (a * 10 ^ (digitsRev n).length + n) := by
  induction n using Nat.strong_induction_on with
  | _ n ih =>
    intro a
    by_cases h : n < 10
    · rw [digitsRev_eq, if_pos h]
      simp only [List.reverse_singleton, List.map_cons, List.map_nil, parseNatCore,
        digitVal_ofNat h, List.length_singleton]
      congr 1
      omega
    · have hrec := ih (n / 10) (Nat.div_lt_self (by omega) (by omega))
      rw [digitsRev_eq, if_neg h]
      simp only [List.reverse_cons, List.map_append, List.map_cons, List.map_nil,
        List.length_cons]
      rw [parseNatCore_append]
      rw [hrec a]
      simp only [parseNatCore, digitVal_ofNat (Nat.mod_lt n (by omega))]
      congr 1
      have hmd : n % 10 + 10 * (n / 10) = n := Nat.mod_add_div n 10
      rw [pow_succ, ← Nat.mul_assoc]
      set q := a * 10 ^ (digitsRev (n / 10)).length
      omega

theorem parseNatChars_natToString (n : Nat) :
    parseNatChars (natToString n).data = some n := by
  have hdata : (natToString n).data =
      (digitsRev n).reverse.map fun d => Char.ofNat (48 + d) := rfl
  rw [hdata]
  unfold parseNatChars
  have hne : ¬((digitsRev n).reverse.map fun d => Char.ofNat (48 + d)).isEmpty = true := by
    simp only [List.isEmpty_iff, List.map_eq_nil_iff, List.reverse_eq_nil_iff]
    exact digitsRev_ne_nil n
  rw [if_neg hne, parseNatCore_digits n 0]
  simp

theorem natToString_no_colon (n : Nat) : ∀ c ∈ (natToString n).data, c ≠ ':' := by
  intro c hc
  have hdata : (natToString n).data =
      (digitsRev n).reverse.map fun d => Char.ofNat (48 + d) := rfl
  rw [hdata] at hc
  obtain ⟨d, hd, hcd⟩ := List.mem_map.mp hc
  subst hcd
  exact digitChar_ne_colon (digitsRev_lt n d (List.mem_reverse.mp hd))

theorem splitColon_append (bs : List Char) :
    ∀ as : List Char, (∀ c ∈ as, c ≠ ':') →
      splitColon (as ++ ':' :: bs) = some (as, bs) := by
  intro as
  induction as with
  | nil =>
    intro _
    simp [splitColon]
  | cons c cs ih =>
    intro h
    have hc : c ≠ ':' := h c (List.mem_cons_self c cs)
    simp only [List.cons_append, splitColon, if_neg hc]
    rw [List.append_eq, ih (fun x hx => h x (List.mem_cons_of_mem c hx))]
    rfl

/-- C7: the textual form of every in-range identifier is the
colon-separated decimal pair, and parsing it back as the encode-time edict
and mint conversions do yields the same identifier. -/
theorem c7_id_text_roundtrip (i : Runes.RuneId)
    (hb : i.block < U64) (ht : i.tx < U32) :
    parseRuneId (formatRuneId i) = some i := by
  unfold formatRuneId parseRuneId
  have hdata : (natToString i.block ++ ":" ++ natToString i.tx).data =
      (natToString i.block).data ++ ':' :: (natToString i.tx).data := by
    rw [String.data_append, String.data_append]
    simp
  rw [hdata, splitColon_append (natToString i.tx).data (natToString i.block).data
      (natToString_no_colon i.block)]
  simp only [parseNatChars_natToString]
  rw [if_pos ⟨hb, ht⟩]

/-- C7 witness: the round-trip at the concrete identifier 5:3. -/
theorem c7_witness : parseRuneId (formatRuneId ⟨5, 3⟩) = some ⟨5, 3⟩ :=
  c7_id_text_roundtrip ⟨5, 3⟩ (by decide) (by decide)

/-!
Integer codec lemmas: encoding then decoding recovers the integer
sequence, and a truncated trailing varint surfaces as a Truncated flaw.
-/

theorem decodeIntsGo_enc (n : Nat) : ∀ (rest : List Nat) (a m : Nat), 1 ≤ m →
    Runes.decodeIntsGo (Runes.varintEnc n ++ rest) a m =
      (if a + m * n < U128 then
        match Runes.decodeIntsGo rest 0 1 with
        | .ok ints => .ok ((a + m * n) :: ints)
        | .error f => .error f
      else .error .overflow) := by
  induction n using Nat.strong_induction_on with
  | _ n ih =>
    intro rest a m hm
    rw [Runes.varintEnc_eq]
    by_cases h : n < 128
    · rw [if_pos h]
      simp only [List.cons_append, Runes.decodeIntsGo, if_pos h, List.append_eq,
        List.nil_append]
    · rw [if_neg h]
      simp only [List.cons_append, Runes.decodeIntsGo, List.append_eq]
      rw [if_neg (by omega)]
      have hrec := ih (n / 128) (Nat.div_lt_self (by omega) (by omega)) rest
        (a + m * (128 + n % 128 - 128)) (m * 128) (by omega)
      rw [hrec]
      have hval : a + m * (128 + n % 128 - 128) + m * 128 * (n / 128) = a + m * n := by
        have h1 : 128 + n % 128 - 128 = n % 128 := by omega
        rw [h1]
        have h2 : a + m * (n % 128) + m * 128 * (n / 128) =
            a + m * (n % 128 + 128 * (n / 128)) := by ring
        rw [h2, Nat.mod_add_div]
      rw [hval]

theorem decodeIntsGo_bytesOfInts (ints : List Nat) (tail : List Nat)
    (h : ∀ i ∈ ints, i < U128) :
    Runes.decodeIntsGo (Runes.bytesOfInts ints ++ tail) 0 1 =
      (match Runes.decodeIntsGo tail 0 1 with
       | .ok ts => .ok (ints ++ ts)
       | .error f => .error f) := by
  induction ints with
  | nil =>
    simp only [Runes.bytesOfInts, List.map_nil, List.flatten_nil, List.nil_append]
    cases Runes.decodeIntsGo tail 0 1 <;> rfl
  | cons i ints ih =>
    have hb : Runes.bytesOfInts (i :: ints) = Runes.varintEnc i ++ Runes.bytesOfInts ints := by
      simp [Runes.bytesOfInts]
    rw [hb, List.append_assoc, decodeIntsGo_enc i (Runes.bytesOfInts ints ++ tail) 0 1 (by omega)]
    have hi : 0 + 1 * i < U128 := by
      have := h i (List.mem_cons_self i ints)
      omega
    rw [if_pos hi, ih (fun x hx => h x (List.mem_cons_of_mem i hx))]
    have hval : 0 + 1 * i = i := by omega
    rw [hval]
    cases Runes.decodeIntsGo tail 0 1 <;> rfl

theorem decodeInts_bytesOfInts (ints : List Nat) (h : ∀ i ∈ ints, i < U128) :
    Runes.decodeInts (Runes.bytesOfInts ints) = .ok ints := by
  have happ := decodeIntsGo_bytesOfInts ints [] h
  rw [List.append_nil] at happ
  unfold Runes.decodeInts
  rw [happ]
  simp [Runes.decodeIntsGo]

theorem varintEnc_singleton {n : Nat} (h : n < 128) : Runes.varintEnc n = [n] := by
  rw [Runes.varintEnc_eq, if_pos h]

theorem varintEnc_dropLast_high {n : Nat} (h : 128 ≤ n) :
    Runes.varintEnc n = (Runes.varintEnc n).dropLast ++ [(Runes.varintEnc n).getLast (by
      rw [Runes.varintEnc_eq, if_neg (by omega)]; simp)] ∧
    (Runes.varintEnc n).dropLast ≠ [] ∧
    ∀ b ∈ (Runes.varintEnc n).dropLast, 128 ≤ b := by
  constructor
  · exact (List.dropLast_append_getLast (by
      rw [Runes.varintEnc_eq, if_neg (by omega)]; simp)).symm
  constructor
  · rw [Runes.varintEnc_eq, if_neg (by omega)]
    cases he : Runes.varintEnc (n / 128) with
    | nil =>
      rw [Runes.varintEnc_eq] at he
      split at he <;> cases he
    | cons x xs => simp
  · intro b hb
    induction n using Nat.strong_induction_on with
    | _ n ih =>
      rw [Runes.varintEnc_eq, if_neg (by omega)] at hb
      by_cases hd : n / 128 < 128
      · rw [varintEnc_singleton hd] at hb
        simp only [List.dropLast_cons₂, List.dropLast_single, List.mem_cons] at hb
        rcases hb with hb | hb
        · omega
        · cases hb
      · have hne : Runes.varintEnc (n / 128) ≠ [] := by
          rw [Runes.varintEnc_eq]
          split <;> simp
        rw [List.dropLast_cons_of_ne_nil hne, List.mem_cons] at hb
        rcases hb with hb | hb
        · omega
        · exact ih (n / 128) (Nat.div_lt_self (by omega) (by omega)) (by omega) hb

/-!
Tag stream lemmas: parsing the flat pair sequence of the encoder applies
each present field once, and the parser state projections compute.
-/

theorem applyTag_tagVals_ne {u t : Nat} (v : Nat) (st : Runes.PState) (h : u ≠ t) :
    (Runes.applyTag t v st).tagVals u = st.tagVals u := by
  unfold Runes.applyTag
  split
  · rfl
  · cases st.tagVals t <;> simp [Function.update_noteq h, Runes.PState.addFlaw]

theorem applyOpt_tagVals_ne {u t : Nat} (o : Option Nat) (st : Runes.PState) (h : u ≠ t) :
    (Runes.applyOpt t o st).tagVals u = st.tagVals u := by
  cases o with
  | none => rfl
  | some v => exact applyTag_tagVals_ne v st h

theorem applyOpt_tagVals_fresh {t : Nat} (o : Option Nat) (st : Runes.PState)
    (he : t % 2 = 0) (h : st.tagVals t = none) :
    (Runes.applyOpt t o st).tagVals t = o := by
  cases o with
  | none => exact h
  | some v =>
    show (Runes.applyTag t v st).tagVals t = some v
    unfold Runes.applyTag
    rw [if_neg (by omega), h]
    simp [Function.update_same]

theorem applyOpt_flaws {t : Nat} (o : Option Nat) (st : Runes.PState) (he : t % 2 = 0) :
    (Runes.applyOpt t o st).flaws = st.flaws := by
  cases o with
  | none => rfl
  | some v =>
    show (Runes.applyTag t v st).flaws = st.flaws
    unfold Runes.applyTag
    rw [if_neg (by omega)]
    split <;> rfl

theorem applyOpt_edicts {t : Nat} (o : Option Nat) (st : Runes.PState) :
    (Runes.applyOpt t o st).edicts = st.edicts := by
  cases o with
  | none => rfl
  | some v =>
    show (Runes.applyTag t v st).edicts = st.edicts
    unfold Runes.applyTag
    split
    · simp [Runes.PState.addFlaw]
    · split <;> rfl

theorem parseInts_optPair {t : Nat} (o : Option Nat) (rest : List Nat)
    (st : Runes.PState) (h : t ≠ 1) :
    Runes.parseInts (Runes.optPair t o ++ rest) st =
      Runes.parseInts rest (Runes.applyOpt t o st) := by
  cases o with
  | none => rfl
  | some v =>
    show Runes.parseInts (t :: v :: rest) st = _
    simp only [Runes.parseInts, if_neg h]
    rfl

theorem parseInts_pairsFlat (l : List (Nat × Option Nat)) (tail : List Nat)
    (st : Runes.PState) (h : ∀ p ∈ l, p.1 ≠ 1) :
    Runes.parseInts (Runes.pairsFlat l ++ tail) st =
      Runes.parseInts tail (l.foldl (fun s p => Runes.applyOpt p.1 p.2 s) st) := by
  induction l generalizing st with
  | nil => simp [Runes.pairsFlat]
  | cons p rest ih =>
    have hflat : Runes.pairsFlat (p :: rest) = Runes.optPair p.1 p.2 ++ Runes.pairsFlat rest := by
      simp [Runes.pairsFlat]
    rw [hflat, List.append_assoc,
      parseInts_optPair p.2 (Runes.pairsFlat rest ++ tail) st (h p (List.mem_cons_self p rest))]
    rw [ih (Runes.applyOpt p.1 p.2 st) (fun q hq => h q (List.mem_cons_of_mem p hq))]
    rfl

/-- Correspondence between the encoded integer stream and the optional
field pair list. -/
theorem intsOf_fieldOpts (r : Runes.Runestone) :
    Runes.intsOf r = Runes.pairsFlat (Runes.fieldOpts r) ++ Runes.bodyInts r.edicts := by
  unfold Runes.intsOf Runes.fieldOpts Runes.pairsFlat
  cases hetch : r.etching with
  | none =>
    cases hm : r.mint with
    | none => simp [Runes.optPair, Runes.mintInts]
    | some mid => simp [Runes.optPair, Runes.mintInts]
  | some e =>
    cases hm : r.mint with
    | none =>
      cases ht : e.terms with
      | none =>
        cases htb : e.turbo <;>
          simp [Runes.etchingInts, Runes.optPair, Runes.mintInts, ht, htb,
            List.append_assoc]
      | some t =>
        cases htb : e.turbo <;>
          simp [Runes.etchingInts, Runes.termsInts, Runes.optPair, Runes.mintInts, ht, htb,
            List.append_assoc]
    | some mid =>
      cases ht : e.terms with
      | none =>
        cases htb : e.turbo <;>
          simp [Runes.etchingInts, Runes.optPair, Runes.mintInts, ht, htb,
            List.append_assoc]
      | some t =>
        cases htb : e.turbo <;>
          simp [Runes.etchingInts, Runes.termsInts, Runes.optPair, Runes.mintInts, ht, htb,
            List.append_assoc]

/-!
Edict sorting and delta coding lemmas.
-/

theorem idLe_iff (a b : Runes.RuneId) : Runes.idLe a b = true ↔ Runes.idLeP a b := by
  unfold Runes.idLe Runes.idLeP
  simp [Nat.blt_eq, Nat.ble_eq]

theorem idLeP_total (a b : Runes.RuneId) (h : ¬Runes.idLeP a b) : Runes.idLeP b a := by
  unfold Runes.idLeP at h ⊢
  omega

theorem idLeP_zero (x : Runes.RuneId) : Runes.idLeP ⟨0, 0⟩ x := by
  show 0 < x.block ∨ ((0 : Nat) = x.block ∧ 0 ≤ x.tx)
  omega

theorem insertEdict_chainFrom (e : Runes.Edict) :
    ∀ (l : List Runes.Edict) (prev : Runes.RuneId),
      Runes.chainFrom prev l → Runes.idLeP prev e.id →
      Runes.chainFrom prev (Runes.insertEdict e l) := by
  intro l
  induction l with
  | nil =>
    intro prev _ hpe
    exact ⟨hpe, trivial⟩
  | cons x xs ih =>
    intro prev hc hpe
    unfold Runes.insertEdict
    split
    · next hle =>
      exact ⟨hpe, (idLe_iff e.id x.id).mp hle, hc.2⟩
    · next hnle =>
      have hxe : Runes.idLeP x.id e.id :=
        idLeP_total e.id x.id (fun hp => hnle ((idLe_iff e.id x.id).mpr hp))
      exact ⟨hc.1, ih x.id hc.2 hxe⟩

theorem sortEdicts_chain (l : List Runes.Edict) :
    Runes.chainFrom ⟨0, 0⟩ (Runes.sortEdicts l) := by
  induction l with
  | nil => trivial
  | cons e rest ih =>
    exact insertEdict_chainFrom e (Runes.sortEdicts rest) ⟨0, 0⟩ ih (idLeP_zero e.id)

theorem insertEdict_perm (e : Runes.Edict) (l : List Runes.Edict) :
    (Runes.insertEdict e l).Perm (e :: l) := by
  induction l with
  | nil => exact List.Perm.refl _
  | cons x xs ih =>
    unfold Runes.insertEdict
    split
    · exact List.Perm.refl _
    · exact ((ih.cons x).trans (List.Perm.swap e x xs))

theorem sortEdicts_perm (l : List Runes.Edict) : (Runes.sortEdicts l).Perm l := by
  induction l with
  | nil => exact List.Perm.refl _
  | cons e rest ih =>
    exact (insertEdict_perm e (Runes.sortEdicts rest)).trans (ih.cons e)

theorem sortEdicts_mem {l : List Runes.Edict} {e : Runes.Edict}
    (h : e ∈ Runes.sortEdicts l) : e ∈ l :=
  (sortEdicts_perm l).mem_iff.mp h

theorem sortEdicts_sorted_eq : ∀ (l : List Runes.Edict) (prev : Runes.RuneId),
    Runes.chainFrom prev l → Runes.sortEdicts l = l := by
  intro l
  induction l with
  | nil =>
    intro _ _
    rfl
  | cons e rest ih =>
    intro prev hc
    show Runes.insertEdict e (Runes.sortEdicts rest) = e :: rest
    rw [ih e.id hc.2]
    cases rest with
    | nil => rfl
    | cons x xs =>
      show Runes.insertEdict e (x :: xs) = e :: x :: xs
      unfold Runes.insertEdict
      rw [if_pos ((idLe_iff e.id x.id).mpr hc.2.1)]

theorem parseEdicts_edictInts :
    ∀ (es : List Runes.Edict) (prev : Runes.RuneId) (st : Runes.PState),
      Runes.chainFrom prev es → (∀ e ∈ es, Runes.edictWF e) →
      Runes.parseEdicts (Runes.edictInts prev es) prev st =
        { st with edicts := st.edicts ++ es } := by
  intro es
  induction es with
  | nil =>
    intro prev st _ _
    simp [Runes.edictInts, Runes.parseEdicts]
  | cons e rest ih =>
    intro prev st hc hwf
    have hewf := hwf e (List.mem_cons_self e rest)
    obtain ⟨hb, ht, ha, ho⟩ := hewf
    unfold Runes.edictInts
    by_cases heq : e.id.block = prev.block
    · rw [if_pos heq]
      have htx : prev.tx ≤ e.id.tx := by
        rcases hc.1 with hlt | ⟨hbe, hte⟩
        · omega
        · exact hte
      show Runes.parseEdicts
        (0 :: (e.id.tx - prev.tx) :: e.amount :: e.output :: Runes.edictInts e.id rest)
        prev st = _
      unfold Runes.parseEdicts
      rw [if_pos rfl]
      rw [if_pos ⟨by omega, ha, ho⟩]
      have hid : (⟨prev.block, prev.tx + (e.id.tx - prev.tx)⟩ : Runes.RuneId) = e.id := by
        have : prev.tx + (e.id.tx - prev.tx) = e.id.tx := by omega
        rw [this, ← heq]
      rw [hid]
      rw [ih e.id _ hc.2 (fun x hx => hwf x (List.mem_cons_of_mem e hx))]
      simp
    · rw [if_neg heq]
      have hblt : prev.block < e.id.block := by
        rcases hc.1 with hlt | ⟨hbe, hte⟩
        · exact hlt
        · omega
      show Runes.parseEdicts
        ((e.id.block - prev.block) :: e.id.tx :: e.amount :: e.output ::
          Runes.edictInts e.id rest) prev st = _
      unfold Runes.parseEdicts
      rw [if_neg (by omega)]
      rw [if_pos ⟨by omega, ht, ha, ho⟩]
      have hid : (⟨prev.block + (e.id.block - prev.block), e.id.tx⟩ : Runes.RuneId) = e.id := by
        have : prev.block + (e.id.block - prev.block) = e.id.block := by omega
        rw [this]
      rw [hid]
      rw [ih e.id _ hc.2 (fun x hx => hwf x (List.mem_cons_of_mem e hx))]
      simp

theorem edictInts_lt :
    ∀ (es : List Runes.Edict) (prev : Runes.RuneId),
      (∀ e ∈ es, Runes.edictWF e) →
      ∀ i ∈ Runes.edictInts prev es, i < U128 := by
  intro es
  induction es with
  | nil =>
    intro prev _ i hi
    simp [Runes.edictInts] at hi
  | cons e rest ih =>
    intro prev hwf i hi
    obtain ⟨hb, ht, ha, ho⟩ := hwf e (List.mem_cons_self e rest)
    have h64 : U64 < U128 := by decide
    have h32 : U32 < U128 := by decide
    have hz : (0 : Nat) < U128 := by decide
    unfold Runes.edictInts at hi
    have hrest := fun hr => ih e.id (fun x hx => hwf x (List.mem_cons_of_mem e hx)) i hr
    split at hi <;>
      simp only [List.cons_append, List.nil_append, List.mem_cons] at hi
    · rcases hi with h | h | h | h | h
      · omega
      · subst h
        omega
      · subst h
        exact ha
      · subst h
        omega
      · exact hrest h
    · rcases hi with h | h | h | h | h
      · subst h
        omega
      · subst h
        omega
      · subst h
        exact ha
      · subst h
        omega
      · exact hrest h

theorem sortEdicts_ne_nil {l : List Runes.Edict} (h : l ≠ []) :
    Runes.sortEdicts l ≠ [] := by
  intro hc
  have := (sortEdicts_perm l).length_eq
  rw [hc] at this
  cases l with
  | nil => exact h rfl
  | cons x xs => simp at this

theorem edictInts_ne_nil (prev : Runes.RuneId) {l : List Runes.Edict} (h : l ≠ []) :
    Runes.edictInts prev l ≠ [] := by
  cases l with
  | nil => exact absurd rfl h
  | cons e rest =>
    unfold Runes.edictInts
    split <;> simp

/-!
The parser state after the field section: flaw-free, edict-free, and
carrying exactly the encoded field values.
-/

theorem char_toNat_lt (c : Char) : c.toNat < U128 := by
  have h := c.val.toNat_lt
  unfold Char.toNat U128
  omega

theorem char_ofNat_toNat (c : Char) : Char.ofNat c.toNat = c := by
  have h := c.valid
  simp [Char.ofNat, Char.toNat] at h ⊢
  simp [h, Char.ofNatAux]
  apply Char.ext
  simp [Char.toNat]
  rfl

theorem fieldState_facts (r : Runes.Runestone) :
    (Runes.fieldState r).flaws = [] ∧
    (Runes.fieldState r).edicts = [] ∧
    (Runes.fieldState r).tagVals 2 = r.etching.bind Runes.Etching.divisibility ∧
    (Runes.fieldState r).tagVals 4 = r.etching.bind Runes.Etching.premine ∧
    (Runes.fieldState r).tagVals 6 = r.etching.bind Runes.Etching.rune ∧
    (Runes.fieldState r).tagVals 8 = r.etching.bind Runes.Etching.spacers ∧
    (Runes.fieldState r).tagVals 10 =
      (r.etching.bind fun e => e.symbol.map Char.toNat) ∧
    (Runes.fieldState r).tagVals 12 =
      (r.etching.bind fun e => e.terms.bind Runes.Terms.amount) ∧
    (Runes.fieldState r).tagVals 14 =
      (r.etching.bind fun e => e.terms.bind Runes.Terms.cap) ∧
    (Runes.fieldState r).tagVals 16 =
      (r.etching.bind fun e => e.terms.bind fun t => t.height.1) ∧
    (Runes.fieldState r).tagVals 18 =
      (r.etching.bind fun e => e.terms.bind fun t => t.height.2) ∧
    (Runes.fieldState r).tagVals 20 =
      (r.etching.bind fun e => e.terms.bind fun t => t.offset.1) ∧
    (Runes.fieldState r).tagVals 22 =
      (r.etching.bind fun e => e.terms.bind fun t => t.offset.2) ∧
    (Runes.fieldState r).tagVals 24 =
      (r.etching.bind fun e => if e.turbo then some 1 else none) ∧
    (Runes.fieldState r).tagVals 26 = r.pointer ∧
    (Runes.fieldState r).tagVals 28 = r.mint.map Runes.RuneId.block ∧
    (Runes.fieldState r).tagVals 30 = r.mint.map Runes.RuneId.tx := by
  unfold Runes.fieldState Runes.fieldOpts
  simp only [List.foldl_cons, List.foldl_nil]
  refine ⟨?_, ?_, ?_, ?_, ?_, ?_, ?_, ?_, ?_, ?_, ?_, ?_, ?_, ?_, ?_, ?_, ?_⟩ <;>
    simp [applyOpt_flaws, applyOpt_edicts, applyOpt_tagVals_ne, applyOpt_tagVals_fresh,
      Runes.pstate0]

theorem fieldOpts_tags (r : Runes.Runestone) :
    ∀ p ∈ Runes.fieldOpts r, p.1 ≠ 1 ∧ p.1 % 2 = 0 ∧ p.1 < U128 := by
  intro p hp
  unfold Runes.fieldOpts at hp
  simp only [List.mem_cons, List.not_mem_nil, or_false] at hp
  rcases hp with h | h | h | h | h | h | h | h | h | h | h | h | h | h | h <;>
    (subst h; refine ⟨?_, ?_, ?_⟩) <;> norm_num [U128]

theorem pstate_edicts_eta (st : Runes.PState) (h : st.edicts = []) :
    { st with edicts := ([] : List Runes.Edict) } = st := by
  cases st
  simp_all

theorem parseInts_intsOf (r : Runes.Runestone)
    (hwf : ∀ e ∈ r.edicts, Runes.edictWF e) :
    Runes.parseInts (Runes.intsOf r) Runes.pstate0 =
      { Runes.fieldState r with edicts := Runes.sortEdicts r.edicts } := by
  rw [intsOf_fieldOpts,
    parseInts_pairsFlat (Runes.fieldOpts r) (Runes.bodyInts r.edicts) Runes.pstate0
      (fun p hp => (fieldOpts_tags r p hp).1)]
  show Runes.parseInts (Runes.bodyInts r.edicts) (Runes.fieldState r) = _
  obtain ⟨hfl, hed, _⟩ := fieldState_facts r
  cases hre : r.edicts with
  | nil =>
    show Runes.fieldState r =
      { Runes.fieldState r with edicts := ([] : List Runes.Edict) }
    rw [pstate_edicts_eta (Runes.fieldState r) hed]
  | cons e rest =>
    unfold Runes.bodyInts
    cases hei : Runes.edictInts ⟨0, 0⟩ (Runes.sortEdicts (e :: rest)) with
    | nil =>
      exact absurd hei (edictInts_ne_nil ⟨0, 0⟩ (sortEdicts_ne_nil (by simp)))
    | cons x xs =>
      show Runes.parseInts (1 :: x :: xs) (Runes.fieldState r) = _
      simp only [Runes.parseInts, if_pos rfl]
      rw [← hei,
        parseEdicts_edictInts (Runes.sortEdicts (e :: rest)) ⟨0, 0⟩ (Runes.fieldState r)
          (sortEdicts_chain (e :: rest))
          (fun x hx => by
            rw [← hre] at hx
            exact hwf x (sortEdicts_mem hx))]
      rw [hed]
      simp

/-!
The assembler applied to the decoded field state reconstructs the encoded
operation in its decode normal form.
-/

theorem assembleEtching_fieldState (r : Runes.Runestone)
    (hrune : ∀ e, r.etching = some e → e.rune.isSome) :
    Runes.assembleEtching (Runes.fieldState r).tagVals = (Runes.decNormal r).etching := by
  obtain ⟨hfl, hed, h2, h4, h6, h8, h10, h12, h14, h16, h18, h20, h22, h24, h26, h28, h30⟩ :=
    fieldState_facts r
  unfold Runes.assembleEtching
  cases hetch : r.etching with
  | none =>
    simp only [hetch, Option.none_bind] at h2 h4 h6 h8 h10 h12 h14 h16 h18 h20 h22 h24
    rw [if_neg (by
      simp [Runes.hasEtching, h2, h4, h6, h8, h10, h12, h14, h16, h18, h20, h22, h24])]
    simp [Runes.decNormal, hetch]
  | some e =>
    simp only [hetch, Option.some_bind] at h2 h4 h6 h8 h10 h12 h14 h16 h18 h20 h22 h24
    obtain ⟨v, hv⟩ := Option.isSome_iff_exists.mp (hrune e hetch)
    rw [if_pos (by simp [Runes.hasEtching, h6, hv])]
    simp only [Runes.decNormal, hetch, Option.map_some]
    rw [h2, h4, h6, h8, h10, h12, h14, h16, h18, h20, h22, h24]
    congr 1
    have hsym : (e.symbol.map Char.toNat).bind
        (fun s => if Nat.isValidChar s then some (Char.ofNat s) else none) = e.symbol := by
      cases hs : e.symbol with
      | none => rfl
      | some c =>
        have hval : Nat.isValidChar c.toNat := c.valid
        simp [hval, char_ofNat_toNat]
    have htur : (if e.turbo then some 1 else none).isSome = e.turbo := by
      cases e.turbo <;> rfl
    cases ht : e.terms with
    | none =>
      simp only [ht, Option.none_bind]
      simp [Runes.normTerms, hsym, htur]
    | some t =>
      simp only [ht, Option.some_bind]
      by_cases hcond : (t.amount.isSome || t.cap.isSome || t.height.1.isSome ||
          t.height.2.isSome || t.offset.1.isSome || t.offset.2.isSome) = true
      · rw [if_pos hcond]
        simp only [Runes.normTerms, if_pos hcond]
        rw [hsym, htur]
      · rw [if_neg hcond]
        simp only [Runes.normTerms, if_neg hcond]
        rw [hsym, htur]

theorem assembleFlaws_fieldState (r : Runes.Runestone)
    (hw : Runes.widthsWF r)
    (hdiv : ∀ e, r.etching = some e → ∀ d, e.divisibility = some d → d ≤ 38)
    (hsupply : ∀ e, r.etching = some e →
      e.premine.getD 0 +
        ((e.terms.bind Runes.Terms.cap).getD 0) *
          ((e.terms.bind Runes.Terms.amount).getD 0) < U128) :
    Runes.assembleFlaws (Runes.fieldState r).tagVals = [] := by
  obtain ⟨hfl, hed, h2, h4, h6, h8, h10, h12, h14, h16, h18, h20, h22, h24, h26, h28, h30⟩ :=
    fieldState_facts r
  obtain ⟨hwe, hwetch, hwm, hwp⟩ := hw
  have hopt : ∀ (o : Option Nat) (b : Nat), optLt o b →
      (match o with
       | some v => if v < b then ([] : List Runes.Flaw) else [Runes.Flaw.overflow]
       | none => []) = [] := by
    intro o b hb
    cases ho : o with
    | none => rfl
    | some v => simp [hb v ho]
  have hterm : ∀ f : Runes.Terms → Option Nat,
      (∀ e t, r.etching = some e → e.terms = some t → optLt (f t) U64) →
      optLt (r.etching.bind fun e => e.terms.bind f) U64 := by
    intro f hf v hv
    cases hetch : r.etching with
    | none => rw [hetch] at hv; cases hv
    | some e =>
      rw [hetch] at hv
      simp only [Option.some_bind] at hv
      cases ht : e.terms with
      | none => rw [ht] at hv; cases hv
      | some t =>
        rw [ht] at hv
        simp only [Option.some_bind] at hv
        exact hf e t hetch ht v hv
  have hdivp : (match r.etching.bind Runes.Etching.divisibility with
      | some d => if d ≤ 38 then [] else [Runes.Flaw.invalidDivisibility]
      | none => []) = [] := by
    cases hetch : r.etching with
    | none => rfl
    | some e =>
      simp only [hetch, Option.some_bind]
      cases hd : e.divisibility with
      | none => rfl
      | some d => simp [hdiv e hetch d hd]
  have hsymp : (match r.etching.bind (fun e => e.symbol.map Char.toNat) with
      | some s => if Nat.isValidChar s then [] else [Runes.Flaw.invalidSymbol]
      | none => []) = [] := by
    cases hetch : r.etching with
    | none => rfl
    | some e =>
      simp only [hetch, Option.some_bind]
      cases hs : e.symbol with
      | none => rfl
      | some c =>
        simp only [Option.map_some']
        have hval : Nat.isValidChar c.toNat := c.valid
        show (if Nat.isValidChar c.toNat then ([] : List Runes.Flaw)
          else [Runes.Flaw.invalidSymbol]) = []
        rw [if_pos hval]
  have hsupp : (if Runes.hasEtching (Runes.fieldState r).tagVals then
      if (r.etching.bind Runes.Etching.premine).getD 0 +
          (r.etching.bind fun e => e.terms.bind Runes.Terms.cap).getD 0 *
            (r.etching.bind fun e => e.terms.bind Runes.Terms.amount).getD 0 < U128 then
        ([] : List Runes.Flaw)
      else [Runes.Flaw.supplyOverflow]
    else []) = [] := by
    split
    · rw [if_pos ?_]
      cases hetch : r.etching with
      | none => decide
      | some e => simpa using hsupply e hetch
    · rfl
  have hH1 : optLt (r.etching.bind fun e => e.terms.bind fun t => t.height.1) U64 :=
    hterm _ (fun e t he ht => ((hwetch e he).2.2.2.2 t ht).2.2.1)
  have hH2 : optLt (r.etching.bind fun e => e.terms.bind fun t => t.height.2) U64 :=
    hterm _ (fun e t he ht => ((hwetch e he).2.2.2.2 t ht).2.2.2.1)
  have hO1 : optLt (r.etching.bind fun e => e.terms.bind fun t => t.offset.1) U64 :=
    hterm _ (fun e t he ht => ((hwetch e he).2.2.2.2 t ht).2.2.2.2.1)
  have hO2 : optLt (r.etching.bind fun e => e.terms.bind fun t => t.offset.2) U64 :=
    hterm _ (fun e t he ht => ((hwetch e he).2.2.2.2 t ht).2.2.2.2.2)
  have hMB : optLt (r.mint.map Runes.RuneId.block) U64 := by
    intro v hv
    cases hm : r.mint with
    | none => rw [hm] at hv; cases hv
    | some mid =>
      rw [hm] at hv
      simp only [Option.map_some', Option.some.injEq] at hv
      subst hv
      exact (hwm mid hm).1
  have hMI : optLt (r.mint.map Runes.RuneId.tx) U32 := by
    intro v hv
    cases hm : r.mint with
    | none => rw [hm] at hv; cases hv
    | some mid =>
      rw [hm] at hv
      simp only [Option.map_some', Option.some.injEq] at hv
      subst hv
      exact (hwm mid hm).2
  unfold Runes.assembleFlaws
  rw [h2, h4, h10, h12, h14, h16, h18, h20, h22, h26, h28, h30]
  rw [hdivp, hsymp, hsupp, hopt _ _ hH1, hopt _ _ hH2, hopt _ _ hO1, hopt _ _ hO2,
    hopt _ _ hwp, hopt _ _ hMB, hopt _ _ hMI]
  rfl

theorem optLt_bind {α : Type} (o : Option α) (f : α → Option Nat) (b : Nat)
    (h : ∀ x, o = some x → optLt (f x) b) : optLt (o.bind f) b := by
  intro v hv
  cases ho : o with
  | none => rw [ho] at hv; cases hv
  | some x =>
    rw [ho] at hv
    simp only [Option.some_bind] at hv
    exact h x ho v hv

theorem optLt_mono {o : Option Nat} {b b' : Nat} (hb : b ≤ b') (h : optLt o b) :
    optLt o b' := fun v hv => lt_of_lt_of_le (h v hv) hb

theorem pairsFlat_mem {l : List (Nat × Option Nat)} {i : Nat}
    (h : i ∈ Runes.pairsFlat l) : ∃ p ∈ l, i = p.1 ∨ p.2 = some i := by
  induction l with
  | nil => simp [Runes.pairsFlat] at h
  | cons p rest ih =>
    have hflat : Runes.pairsFlat (p :: rest) =
        Runes.optPair p.1 p.2 ++ Runes.pairsFlat rest := by
      simp [Runes.pairsFlat]
    rw [hflat] at h
    rcases List.mem_append.mp h with hl | hr
    · cases hp2 : p.2 with
      | none =>
        rw [hp2] at hl
        cases hl
      | some v =>
        rw [hp2] at hl
        simp only [Runes.optPair, List.mem_cons, List.not_mem_nil, or_false] at hl
        rcases hl with hl | hl
        · exact ⟨p, List.mem_cons_self p rest, Or.inl hl⟩
        · exact ⟨p, List.mem_cons_self p rest, Or.inr (by rw [hp2, hl])⟩
    · obtain ⟨q, hq, hqi⟩ := ih hr
      exact ⟨q, List.mem_cons_of_mem p hq, hqi⟩

theorem fieldOpts_values_lt (r : Runes.Runestone) (hw : Runes.widthsWF r) :
    ∀ p ∈ Runes.fieldOpts r, optLt p.2 U128 := by
  obtain ⟨hwe, hwetch, hwm, hwp⟩ := hw
  have h64 : U64 ≤ U128 := by decide
  have h32 : U32 ≤ U128 := by decide
  have hterm : ∀ f : Runes.Terms → Option Nat,
      (∀ e t, r.etching = some e → e.terms = some t → optLt (f t) U128) →
      optLt (r.etching.bind fun e => e.terms.bind f) U128 := by
    intro f hf
    exact optLt_bind _ _ _ (fun e he => optLt_bind _ _ _ (fun t ht => hf e t he ht))
  intro p hp
  unfold Runes.fieldOpts at hp
  simp only [List.mem_cons, List.not_mem_nil, or_false] at hp
  rcases hp with h | h | h | h | h | h | h | h | h | h | h | h | h | h | h <;> subst h
  · exact optLt_bind _ _ _ (fun e he => (hwetch e he).1)
  · exact optLt_bind _ _ _ (fun e he => (hwetch e he).2.1)
  · exact optLt_bind _ _ _ (fun e he => (hwetch e he).2.2.1)
  · exact optLt_bind _ _ _ (fun e he => (hwetch e he).2.2.2.1)
  · refine optLt_bind _ _ _ (fun e he => ?_)
    intro v hv
    cases hs : e.symbol with
    | none => rw [hs] at hv; cases hv
    | some c =>
      rw [hs] at hv
      simp only [Option.map_some', Option.some.injEq] at hv
      subst hv
      exact char_toNat_lt c
  · exact hterm _ (fun e t he ht => ((hwetch e he).2.2.2.2 t ht).1)
  · exact hterm _ (fun e t he ht => ((hwetch e he).2.2.2.2 t ht).2.1)
  · exact hterm _ (fun e t he ht => optLt_mono h64 ((hwetch e he).2.2.2.2 t ht).2.2.1)
  · exact hterm _ (fun e t he ht => optLt_mono h64 ((hwetch e he).2.2.2.2 t ht).2.2.2.1)
  · exact hterm _ (fun e t he ht => optLt_mono h64 ((hwetch e he).2.2.2.2 t ht).2.2.2.2.1)
  · exact hterm _ (fun e t he ht => optLt_mono h64 ((hwetch e he).2.2.2.2 t ht).2.2.2.2.2)
  · refine optLt_bind _ _ _ (fun e he => ?_)
    intro v hv
    split at hv
    · cases hv
      decide
    · cases hv
  · exact optLt_mono h32 hwp
  · intro v hv
    cases hm : r.mint with
    | none => rw [hm] at hv; cases hv
    | some mid =>
      rw [hm] at hv
      simp only [Option.map_some', Option.some.injEq] at hv
      subst hv
      exact lt_of_lt_of_le (hwm mid hm).1 h64
  · intro v hv
    cases hm : r.mint with
    | none => rw [hm] at hv; cases hv
    | some mid =>
      rw [hm] at hv
      simp only [Option.map_some', Option.some.injEq] at hv
      subst hv
      exact lt_of_lt_of_le (hwm mid hm).2 h32

theorem intsOf_lt (r : Runes.Runestone) (hw : Runes.widthsWF r) :
    ∀ i ∈ Runes.intsOf r, i < U128 := by
  intro i hi
  rw [intsOf_fieldOpts] at hi
  rcases List.mem_append.mp hi with hl | hr
  · obtain ⟨p, hp, hpi⟩ := pairsFlat_mem hl
    rcases hpi with hpi | hpi
    · subst hpi
      exact (fieldOpts_tags r p hp).2.2
    · exact fieldOpts_values_lt r hw p hp i hpi
  · unfold Runes.bodyInts at hr
    cases hre : r.edicts with
    | nil =>
      rw [hre] at hr
      cases hr
    | cons e rest =>
      rw [hre] at hr
      simp only [List.mem_cons] at hr
      rcases hr with hr | hr
      · subst hr
        decide
      · refine edictInts_lt (Runes.sortEdicts (e :: rest)) ⟨0, 0⟩ ?_ i hr
        intro x hx
        refine hw.1 x ?_
        rw [hre]
        exact sortEdicts_mem hx

theorem decodePayload_payload (r : Runes.Runestone) (hw : Runes.widthsWF r)
    (hrune : ∀ e, r.etching = some e → e.rune.isSome)
    (hdiv : ∀ e, r.etching = some e → ∀ d, e.divisibility = some d → d ≤ 38)
    (hsupply : ∀ e, r.etching = some e →
      e.premine.getD 0 +
        ((e.terms.bind Runes.Terms.cap).getD 0) *
          ((e.terms.bind Runes.Terms.amount).getD 0) < U128) :
    Runes.decodePayload (Runes.payload r) =
      Runes.Artifact.runestone (Runes.decNormal r) := by
  obtain ⟨hfl, hed, h2, h4, h6, h8, h10, h12, h14, h16, h18, h20, h22, h24, h26, h28, h30⟩ :=
    fieldState_facts r
  unfold Runes.decodePayload Runes.payload
  rw [decodeInts_bytesOfInts _ (intsOf_lt r hw)]
  simp only
  rw [parseInts_intsOf r hw.1]
  unfold Runes.assemble
  have hflaws :
      ({ Runes.fieldState r with edicts := Runes.sortEdicts r.edicts } : Runes.PState).flaws ++
        Runes.assembleFlaws
          ({ Runes.fieldState r with edicts := Runes.sortEdicts r.edicts } : Runes.PState).tagVals =
        [] := by
    show (Runes.fieldState r).flaws ++ Runes.assembleFlaws (Runes.fieldState r).tagVals = []
    rw [hfl, assembleFlaws_fieldState r hw hdiv hsupply]
    rfl
  rw [hflaws]
  simp only
  congr 1
  show (⟨Runes.sortEdicts r.edicts,
      Runes.assembleEtching (Runes.fieldState r).tagVals,
      (match (Runes.fieldState r).tagVals 28, (Runes.fieldState r).tagVals 30 with
       | some b, some i => some ⟨b, i⟩
       | _, _ => none),
      (Runes.fieldState r).tagVals 26⟩ : Runes.Runestone) = Runes.decNormal r
  have hmint : (match (Runes.fieldState r).tagVals 28, (Runes.fieldState r).tagVals 30 with
      | some b, some i => some (⟨b, i⟩ : Runes.RuneId)
      | _, _ => none) = r.mint := by
    rw [h28, h30]
    cases r.mint with
    | none => rfl
    | some mid => rfl
  rw [assembleEtching_fieldState r hrune, hmint, h26]
  show Runes.Runestone.mk _ _ _ _ = Runes.Runestone.mk _ _ _ _
  rfl

theorem decodePayload_runestone_inv (r : Runes.Runestone) (hw : Runes.widthsWF r)
    (hrune : ∀ e, r.etching = some e → e.rune.isSome) (X : Runes.Runestone)
    (h : Runes.decodePayload (Runes.payload r) = Runes.Artifact.runestone X) :
    X = Runes.decNormal r := by
  obtain ⟨hfl, hed, h2, h4, h6, h8, h10, h12, h14, h16, h18, h20, h22, h24, h26, h28, h30⟩ :=
    fieldState_facts r
  unfold Runes.decodePayload Runes.payload at h
  rw [decodeInts_bytesOfInts _ (intsOf_lt r hw)] at h
  simp only at h
  rw [parseInts_intsOf r hw.1] at h
  unfold Runes.assemble at h
  rw [show ({ Runes.fieldState r with edicts := Runes.sortEdicts r.edicts } :
        Runes.PState).flaws ++
      Runes.assembleFlaws
        ({ Runes.fieldState r with edicts := Runes.sortEdicts r.edicts } :
          Runes.PState).tagVals =
      (Runes.fieldState r).flaws ++
        Runes.assembleFlaws (Runes.fieldState r).tagVals from rfl] at h
  cases hscr : (Runes.fieldState r).flaws ++
      Runes.assembleFlaws (Runes.fieldState r).tagVals with
  | cons f fs =>
    rw [hscr] at h
    simp only at h
    cases h
  | nil =>
    rw [hscr] at h
    simp only at h
    injection h with hx
    rw [← hx]
    show (⟨Runes.sortEdicts r.edicts,
        Runes.assembleEtching (Runes.fieldState r).tagVals,
        (match (Runes.fieldState r).tagVals 28, (Runes.fieldState r).tagVals 30 with
         | some b, some i => some ⟨b, i⟩
         | _, _ => none),
        (Runes.fieldState r).tagVals 26⟩ : Runes.Runestone) = Runes.decNormal r
    have hmint : (match (Runes.fieldState r).tagVals 28, (Runes.fieldState r).tagVals 30 with
        | some b, some i => some (⟨b, i⟩ : Runes.RuneId)
        | _, _ => none) = r.mint := by
      rw [h28, h30]
      cases r.mint with
      | none => rfl
      | some mid => rfl
    rw [assembleEtching_fieldState r hrune, hmint, h26]
    show Runes.Runestone.mk _ _ _ _ = Runes.Runestone.mk _ _ _ _
    rfl

/-!
Script, hex and consensus transport lemmas: the carrier layers around the
payload reproduce it exactly.
-/

theorem collectGo_copy : ∀ (c rest : List Nat),
    Runes.collectGo (c ++ rest) c.length = c ++ Runes.collectGo rest 0 := by
  intro c
  induction c with
  | nil =>
    intro rest
    rfl
  | cons b c ih =>
    intro rest
    show b :: Runes.collectGo (c ++ rest) c.length = b :: (c ++ Runes.collectGo rest 0)
    rw [ih rest]

theorem collectGo_cons_zero (b : Nat) (s : List Nat) :
    Runes.collectGo (b :: s) 0 =
      (if b = 0 then Runes.collectGo s 0
       else if b ≤ 75 then Runes.collectGo s b
       else if b = 76 then
         match s with
         | [] => []
         | n :: r => Runes.collectGo r n
       else if b = 77 then
         match s with
         | n1 :: n2 :: r => Runes.collectGo r (n1 + 256 * n2)
         | _ => []
       else []) := by
  cases s with
  | nil => rfl
  | cons n1 r1 => cases r1 <;> rfl

theorem collectGo_pushEnc (c rest : List Nat) (hlen : c.length ≤ 520) :
    Runes.collectGo (Runes.pushEnc c ++ rest) 0 = c ++ Runes.collectGo rest 0 := by
  unfold Runes.pushEnc
  by_cases h76 : c.length < 76
  · rw [if_pos h76]
    show Runes.collectGo (c.length :: (c ++ rest)) 0 = _
    rw [collectGo_cons_zero]
    by_cases h0 : c.length = 0
    · have hc : c = [] := List.eq_nil_of_length_eq_zero h0
      subst hc
      simp
    · rw [if_neg h0, if_pos (by omega : c.length ≤ 75)]
      exact collectGo_copy c rest
  · rw [if_neg h76]
    by_cases h255 : c.length ≤ 255
    · rw [if_pos h255]
      show Runes.collectGo (76 :: c.length :: (c ++ rest)) 0 = _
      rw [collectGo_cons_zero, if_neg (by omega : ¬(76 : Nat) = 0),
        if_neg (by omega : ¬(76 : Nat) ≤ 75), if_pos rfl]
      show Runes.collectGo (c ++ rest) c.length = _
      exact collectGo_copy c rest
    · rw [if_neg h255]
      show Runes.collectGo (77 :: c.length % 256 :: c.length / 256 :: (c ++ rest)) 0 = _
      rw [collectGo_cons_zero, if_neg (by omega : ¬(77 : Nat) = 0),
        if_neg (by omega : ¬(77 : Nat) ≤ 75), if_neg (by omega : ¬(77 : Nat) = 76),
        if_pos rfl]
      show Runes.collectGo (c ++ rest) (c.length % 256 + 256 * (c.length / 256)) = _
      have hmd : c.length % 256 + 256 * (c.length / 256) = c.length := Nat.mod_add_div _ _
      rw [hmd]
      exact collectGo_copy c rest

theorem collectPushes_chunks_aux : ∀ (n : Nat) (p : List Nat), p.length = n →
    Runes.collectPushes (((Runes.chunks p).map Runes.pushEnc).flatten) = p := by
  intro n
  induction n using Nat.strong_induction_on with
  | _ n ih =>
    intro p hn
    rw [Runes.chunks_eq]
    by_cases hp : p = []
    · subst hp
      rfl
    · rw [if_neg hp]
      simp only [List.map_cons, List.flatten_cons]
      unfold Runes.collectPushes
      rw [collectGo_pushEnc (p.take 520)
        (((Runes.chunks (p.drop 520)).map Runes.pushEnc).flatten)
        (by simp [List.length_take])]
      have hplen : p.length ≠ 0 := fun hc => hp (List.eq_nil_of_length_eq_zero hc)
      have hrec := ih (p.drop 520).length (by
        subst hn
        simp only [List.length_drop]
        omega) (p.drop 520) rfl
      unfold Runes.collectPushes at hrec
      rw [hrec, List.take_append_drop]

theorem collectPushes_chunks (p : List Nat) :
    Runes.collectPushes (((Runes.chunks p).map Runes.pushEnc).flatten) = p :=
  collectPushes_chunks_aux p.length p rfl

theorem hexDigitVal_hexDigitChar {d : Nat} (h : d < 16) :
    hexDigitVal (hexDigitChar d) = some d := by
  interval_cases d <;> decide

theorem hexDecode_hexEncode (bs : List Nat) (h : ∀ b ∈ bs, b < 256) :
    hexDecode (hexEncode bs) = some bs := by
  show hexDecodeList (bs.map fun b => [hexDigitChar (b / 16), hexDigitChar (b % 16)]).flatten =
    some bs
  induction bs with
  | nil => rfl
  | cons b rest ih =>
    have hb := h b (List.mem_cons_self b rest)
    simp only [List.map_cons, List.flatten_cons, List.cons_append, List.nil_append]
    show hexDecodeList (hexDigitChar (b / 16) :: hexDigitChar (b % 16) ::
      (rest.map fun b => [hexDigitChar (b / 16), hexDigitChar (b % 16)]).flatten) = some (b :: rest)
    unfold hexDecodeList
    rw [hexDigitVal_hexDigitChar (by omega : b / 16 < 16),
      hexDigitVal_hexDigitChar (by omega : b % 16 < 16),
      ih (fun x hx => h x (List.mem_cons_of_mem b hx))]
    show some ((16 * (b / 16) + b % 16) :: rest) = some (b :: rest)
    have hmd : 16 * (b / 16) + b % 16 = b := by
      have := Nat.mod_add_div b 16
      omega
    rw [hmd]

/-!
Consensus-serialization round-trip: the reader functions invert the
encoder functions on well-formed transactions.
-/

theorem readN_exact (xs rest : List Nat) :
    readN xs.length (xs ++ rest) = some (xs, rest) := by
  unfold readN
  rw [if_pos (by simp)]
  rw [List.take_left, List.drop_left]

theorem leBytes_length (n w : Nat) : (leBytes n w).length = w := by
  induction w generalizing n with
  | zero => rfl
  | succ w ih =>
    show (n % 256 :: leBytes (n / 256) w).length = w + 1
    simp [ih]

theorem leVal_leBytes (w : Nat) : ∀ n : Nat, n < 256 ^ w → leVal (leBytes n w) = n := by
  induction w with
  | zero =>
    intro n hn
    simp only [Nat.pow_zero] at hn
    have hz : n = 0 := by omega
    subst hz
    rfl
  | succ w ih =>
    intro n hn
    show leVal (n % 256 :: leBytes (n / 256) w) = n
    unfold leVal
    simp only [List.foldr_cons]
    have hdiv : n / 256 < 256 ^ w := by
      have hp : (256 : Nat) ^ (w + 1) = 256 ^ w * 256 := by ring
      rw [hp] at hn
      exact Nat.div_lt_of_lt_mul (by omega)
    have hv : leVal (leBytes (n / 256) w) = n / 256 := ih (n / 256) hdiv
    unfold leVal at hv
    rw [hv]
    have := Nat.mod_add_div n 256
    omega

theorem readLE_exact (n w : Nat) (rest : List Nat) (h : n < 256 ^ w) :
    readLE w (leBytes n w ++ rest) = some (n, rest) := by
  unfold readLE
  nth_rewrite 1 [show w = (leBytes n w).length from (leBytes_length n w).symm]
  rw [readN_exact]
  simp [Option.map_some', leVal_leBytes w n h]

theorem readCompact_compactEnc (n : Nat) (rest : List Nat) (h : n < U64) :
    readCompact (compactEnc n ++ rest) = some (n, rest) := by
  unfold compactEnc
  by_cases h1 : n < 253
  · rw [if_pos h1]
    show readCompact (n :: rest) = some (n, rest)
    simp only [readCompact]
    rw [if_pos h1]
  · rw [if_neg h1]
    by_cases h2 : n < 2 ^ 16
    · rw [if_pos h2]
      show readLE 2 (leBytes n 2 ++ rest) = some (n, rest)
      refine readLE_exact n 2 rest ?_
      have e : (256 : Nat) ^ 2 = 2 ^ 16 := by norm_num
      omega
    · rw [if_neg h2]
      by_cases h3 : n < U32
      · rw [if_pos h3]
        show readLE 4 (leBytes n 4 ++ rest) = some (n, rest)
        refine readLE_exact n 4 rest ?_
        have e : (256 : Nat) ^ 4 = U32 := by unfold U32; norm_num
        omega
      · rw [if_neg h3]
        show readLE 8 (leBytes n 8 ++ rest) = some (n, rest)
        refine readLE_exact n 8 rest ?_
        have e : (256 : Nat) ^ 8 = U64 := by unfold U64; norm_num
        omega

theorem readBytesField_enc (s rest : List Nat) (h : s.length < U64) :
    readBytesField (compactEnc s.length ++ (s ++ rest)) = some (s, rest) := by
  unfold readBytesField
  simp only [readCompact_compactEnc s.length (s ++ rest) h]
  exact readN_exact s rest

theorem readInput_enc (i : TxIn) (rest : List Nat) (h : i.prevHash.length = 32)
    (hidx : i.prevIdx < U32) (hseq : i.sequence < U32) (hsig : i.scriptSig.length < U64) :
    readInput (encTxIn i ++ rest) = some (i, rest) := by
  unfold readInput encTxIn
  rw [show (32 : Nat) = i.prevHash.length from h.symm]
  rw [List.append_assoc, List.append_assoc, List.append_assoc, List.append_assoc]
  simp only [readN_exact]
  have e1 : readLE 4 (leBytes i.prevIdx 4 ++ (compactEnc i.scriptSig.length ++
      (i.scriptSig ++ (leBytes i.sequence 4 ++ rest)))) =
      some (i.prevIdx, compactEnc i.scriptSig.length ++
        (i.scriptSig ++ (leBytes i.sequence 4 ++ rest))) := by
    refine readLE_exact i.prevIdx 4 _ ?_
    have e : (256 : Nat) ^ 4 = U32 := by unfold U32; norm_num
    omega
  simp only [e1]
  have e2 : readBytesField (compactEnc i.scriptSig.length ++ (i.scriptSig ++
      (leBytes i.sequence 4 ++ rest))) =
      some (i.scriptSig, leBytes i.sequence 4 ++ rest) :=
    readBytesField_enc i.scriptSig (leBytes i.sequence 4 ++ rest) hsig
  simp only [e2]
  have e3 : readLE 4 (leBytes i.sequence 4 ++ rest) = some (i.sequence, rest) := by
    refine readLE_exact i.sequence 4 rest ?_
    have e : (256 : Nat) ^ 4 = U32 := by unfold U32; norm_num
    omega
  simp only [e3]

theorem readOutput_enc (o : TxOut) (rest : List Nat) (hv : o.value < U64)
    (hs : o.script.length < U64) :
    readOutput (encTxOut o ++ rest) = some (o, rest) := by
  unfold readOutput encTxOut
  rw [List.append_assoc, List.append_assoc]
  have e1 : readLE 8 (leBytes o.value 8 ++ (compactEnc o.script.length ++
      (o.script ++ rest))) =
      some (o.value, compactEnc o.script.length ++ (o.script ++ rest)) := by
    refine readLE_exact o.value 8 _ ?_
    have e : (256 : Nat) ^ 8 = U64 := by unfold U64; norm_num
    omega
  simp only [e1]
  have e2 : readBytesField (compactEnc o.script.length ++ (o.script ++ rest)) =
      some (o.script, rest) := readBytesField_enc o.script rest hs
  simp only [e2]

theorem readCount_enc {α : Type} (rd : List Nat → Option (α × List Nat))
    (enc : α → List Nat) (l : List α) (rest : List Nat)
    (h : ∀ x ∈ l, ∀ r : List Nat, rd (enc x ++ r) = some (x, r)) :
    readCount rd l.length ((l.map enc).flatten ++ rest) = some (l, rest) := by
  induction l with
  | nil => rfl
  | cons x xs ih =>
    simp only [List.map_cons, List.flatten_cons, List.length_cons, List.append_assoc]
    simp only [readCount]
    simp only [h x (List.mem_cons_self x xs)]
    simp only [ih (fun y hy r => h y (List.mem_cons_of_mem x hy) r)]

theorem consensusDecodeTx_encTx (t : Tx) (h : txWF t) :
    consensusDecodeTx (encTx t) = some t := by
  obtain ⟨hv, hl, hni, hno, hi, ho⟩ := h
  unfold consensusDecodeTx encTx
  rw [List.append_assoc, List.append_assoc, List.append_assoc, List.append_assoc]
  have eV : readLE 4 (leBytes t.version 4 ++ (compactEnc t.inputs.length ++
      ((t.inputs.map encTxIn).flatten ++ (compactEnc t.outputs.length ++
      ((t.outputs.map encTxOut).flatten ++ leBytes t.locktime 4))))) =
      some (t.version, compactEnc t.inputs.length ++
        ((t.inputs.map encTxIn).flatten ++ (compactEnc t.outputs.length ++
        ((t.outputs.map encTxOut).flatten ++ leBytes t.locktime 4)))) := by
    refine readLE_exact t.version 4 _ ?_
    have e : (256 : Nat) ^ 4 = U32 := by unfold U32; norm_num
    omega
  simp only [eV]
  simp only [readCompact_compactEnc t.inputs.length _ hni]
  simp only [readCount_enc readInput encTxIn t.inputs _
    (fun i him r => readInput_enc i r (hi i him).1 (hi i him).2.1
      (hi i him).2.2.1 (hi i him).2.2.2)]
  simp only [readCompact_compactEnc t.outputs.length _ hno]
  simp only [readCount_enc readOutput encTxOut t.outputs _
    (fun o hom r => readOutput_enc o r (ho o hom).1 (ho o hom).2)]
  have eL : readLE 4 (leBytes t.locktime 4) = some (t.locktime, []) := by
    have e0 : readLE 4 (leBytes t.locktime 4 ++ []) = some (t.locktime, []) := by
      refine readLE_exact t.locktime 4 [] ?_
      have e : (256 : Nat) ^ 4 = U32 := by unfold U32; norm_num
      omega
    rwa [List.append_nil] at e0
  simp only [eL]

/-!
Byte bounds: every byte produced by the encoders is below 256, so the hex
boundary is lossless on them.
-/

theorem varintEncAux_bytes_lt : ∀ f n : Nat, ∀ b ∈ Runes.varintEncAux f n, b < 256 := by
  intro f
  induction f with
  | zero =>
    intro n b hb
    simp only [Runes.varintEncAux, List.mem_singleton] at hb
    omega
  | succ f ih =>
    intro n b hb
    simp only [Runes.varintEncAux] at hb
    by_cases hn : n < 128
    · rw [if_pos hn] at hb
      simp only [List.mem_singleton] at hb
      omega
    · rw [if_neg hn] at hb
      rcases List.mem_cons.mp hb with h1 | h2
      · omega
      · exact ih (n / 128) b h2

theorem varintEnc_bytes_lt (n : Nat) : ∀ b ∈ Runes.varintEnc n, b < 256 :=
  varintEncAux_bytes_lt n n

theorem payload_bytes_lt (r : Runes.Runestone) : ∀ b ∈ Runes.payload r, b < 256 := by
  intro b hb
  unfold Runes.payload Runes.bytesOfInts at hb
  rcases List.mem_flatten.mp hb with ⟨s, hs, hbs⟩
  rcases List.mem_map.mp hs with ⟨n, _, hn⟩
  exact varintEnc_bytes_lt n b (hn ▸ hbs)

theorem chunksAux_mem : ∀ (f : Nat) (bs : List Nat), ∀ c ∈ Runes.chunksAux f bs,
    c.length ≤ 520 ∧ ∀ b ∈ c, b ∈ bs := by
  intro f
  induction f with
  | zero => intro bs c hc; simp [Runes.chunksAux] at hc
  | succ f ih =>
    intro bs c hc
    simp only [Runes.chunksAux] at hc
    by_cases hbs : bs = []
    · rw [if_pos hbs] at hc
      simp at hc
    · rw [if_neg hbs] at hc
      rcases List.mem_cons.mp hc with h1 | h2
      · subst h1
        refine ⟨by simp [List.length_take], fun b hb => List.take_subset 520 bs hb⟩
      · rcases ih (bs.drop 520) c h2 with ⟨hl, hm⟩
        exact ⟨hl, fun b hb => List.drop_subset 520 bs (hm b hb)⟩

theorem pushEnc_bytes_lt (c : List Nat) (hl : c.length ≤ 520)
    (hc : ∀ b ∈ c, b < 256) : ∀ b ∈ Runes.pushEnc c, b < 256 := by
  intro b hb
  unfold Runes.pushEnc at hb
  by_cases h1 : c.length < 76
  · rw [if_pos h1] at hb
    rcases List.mem_cons.mp hb with h | h
    · omega
    · exact hc b h
  · rw [if_neg h1] at hb
    by_cases h2 : c.length ≤ 255
    · rw [if_pos h2] at hb
      simp only [List.cons_append, List.nil_append] at hb
      rcases List.mem_cons.mp hb with h | h
      · omega
      rcases List.mem_cons.mp h with h | h
      · omega
      · exact hc b h
    · rw [if_neg h2] at hb
      simp only [List.cons_append, List.nil_append] at hb
      rcases List.mem_cons.mp hb with h | h
      · omega
      rcases List.mem_cons.mp h with h | h
      · have := Nat.mod_lt c.length (show 0 < 256 by norm_num)
        omega
      rcases List.mem_cons.mp h with h | h
      · have : c.length / 256 ≤ 520 / 256 := Nat.div_le_div_right hl
        omega
      · exact hc b h

theorem encipherScript_bytes_lt (r : Runes.Runestone) :
    ∀ b ∈ Runes.encipherScript r, b < 256 := by
  intro b hb
  unfold Runes.encipherScript at hb
  simp only [List.cons_append, List.nil_append] at hb
  rcases List.mem_cons.mp hb with h | h
  · omega
  rcases List.mem_cons.mp h with h | h
  · omega
  rcases List.mem_flatten.mp h with ⟨s, hs, hbs⟩
  rcases List.mem_map.mp hs with ⟨c, hcm, hce⟩
  rcases chunksAux_mem _ _ c hcm with ⟨hl, hm⟩
  exact pushEnc_bytes_lt c hl (fun x hx => payload_bytes_lt r x (hm x hx)) b (hce ▸ hbs)

theorem leBytes_bytes_lt : ∀ (w n : Nat), ∀ b ∈ leBytes n w, b < 256 := by
  intro w
  induction w with
  | zero => intro n b hb; simp [leBytes] at hb
  | succ w ih =>
    intro n b hb
    rcases List.mem_cons.mp hb with h | h
    · have := Nat.mod_lt n (show 0 < 256 by norm_num)
      omega
    · exact ih (n / 256) b h

theorem compactEnc_bytes_lt (n : Nat) : ∀ b ∈ compactEnc n, b < 256 := by
  intro b hb
  unfold compactEnc at hb
  by_cases h1 : n < 253
  · rw [if_pos h1] at hb
    simp only [List.mem_singleton] at hb
    omega
  · rw [if_neg h1] at hb
    by_cases h2 : n < 2 ^ 16
    · rw [if_pos h2] at hb
      rcases List.mem_cons.mp hb with h | h
      · omega
      · exact leBytes_bytes_lt 2 n b h
    · rw [if_neg h2] at hb
      by_cases h3 : n < U32
      · rw [if_pos h3] at hb
        rcases List.mem_cons.mp hb with h | h
        · omega
        · exact leBytes_bytes_lt 4 n b h
      · rw [if_neg h3] at hb
        rcases List.mem_cons.mp hb with h | h
        · omega
        · exact leBytes_bytes_lt 8 n b h

theorem encTxIn_bytes_lt (i : TxIn) (hh : ∀ b ∈ i.prevHash, b < 256)
    (hs : ∀ b ∈ i.scriptSig, b < 256) : ∀ b ∈ encTxIn i, b < 256 := by
  intro b hb
  unfold encTxIn at hb
  simp only [List.mem_append] at hb
  rcases hb with ((((h | h) | h) | h) | h)
  · exact hh b h
  · exact leBytes_bytes_lt 4 i.prevIdx b h
  · exact compactEnc_bytes_lt i.scriptSig.length b h
  · exact hs b h
  · exact leBytes_bytes_lt 4 i.sequence b h

theorem encTxOut_bytes_lt (o : TxOut) (hs : ∀ b ∈ o.script, b < 256) :
    ∀ b ∈ encTxOut o, b < 256 := by
  intro b hb
  unfold encTxOut at hb
  simp only [List.mem_append] at hb
  rcases hb with ((h | h) | h)
  · exact leBytes_bytes_lt 8 o.value b h
  · exact compactEnc_bytes_lt o.script.length b h
  · exact hs b h

theorem encTx_bytes_lt (t : Tx)
    (hi : ∀ i ∈ t.inputs, (∀ b ∈ i.prevHash, b < 256) ∧ ∀ b ∈ i.scriptSig, b < 256)
    (ho : ∀ o ∈ t.outputs, ∀ b ∈ o.script, b < 256) :
    ∀ b ∈ encTx t, b < 256 := by
  intro b hb
  unfold encTx at hb
  simp only [List.mem_append] at hb
  rcases hb with (((((h | h) | h) | h) | h) | h)
  · exact leBytes_bytes_lt 4 t.version b h
  · exact compactEnc_bytes_lt t.inputs.length b h
  · rcases List.mem_flatten.mp h with ⟨s, hsm, hbs⟩
    rcases List.mem_map.mp hsm with ⟨i, him, hie⟩
    exact encTxIn_bytes_lt i (hi i him).1 (hi i him).2 b (hie ▸ hbs)
  · exact compactEnc_bytes_lt t.outputs.length b h
  · rcases List.mem_flatten.mp h with ⟨s, hsm, hbs⟩
    rcases List.mem_map.mp hsm with ⟨o, hom, hoe⟩
    exact encTxOut_bytes_lt o (ho o hom) b (hoe ▸ hbs)
  · exact leBytes_bytes_lt 4 t.locktime b h

/-!
The transport front end: deciphering a transaction built from an enciphered
script reaches the payload decoder on exactly the payload bytes.
-/

theorem decipher_build (R : Runes.Runestone)
    (hsl : (Runes.encipherScript R).length < U64) :
    Bridge.decipher (buildTransaction (Runes.encipherScript R)) =
      (match Runes.decodePayload (Runes.payload R) with
       | Runes.Artifact.cenotaph _ => none
       | Runes.Artifact.runestone x => some (Bridge.runestoneOfRunes x)) := by
  have hin : ∀ b ∈ List.replicate 32 0, b < 256 := by
    intro b hb
    have := List.eq_of_mem_replicate hb
    omega
  have hb : ∀ b ∈ encTx (Tx.mk 1 [TxIn.mk (List.replicate 32 0) 0 [] 4294967295] [TxOut.mk 0 (Runes.encipherScript R)] 0), b < 256 := by
    refine encTx_bytes_lt _ ?_ ?_
    · intro i him
      rw [List.mem_singleton] at him
      subst him
      exact ⟨hin, by intro b hb0; simp at hb0⟩
    · intro o hom
      rw [List.mem_singleton] at hom
      subst hom
      exact encipherScript_bytes_lt R
  have hwf : txWF (Tx.mk 1 [TxIn.mk (List.replicate 32 0) 0 [] 4294967295] [TxOut.mk 0 (Runes.encipherScript R)] 0) := by
    refine ⟨by norm_num [U32], by norm_num [U32], by norm_num [U64], by norm_num [U64], ?_, ?_⟩
    · intro i him
      rw [List.mem_singleton] at him
      subst him
      exact ⟨by simp, by norm_num [U32], by norm_num [U32], by norm_num [U64]⟩
    · intro o hom
      rw [List.mem_singleton] at hom
      subst hom
      exact ⟨by norm_num [U64], hsl⟩
  have hfp : Runes.decipher (Tx.mk 1 [TxIn.mk (List.replicate 32 0) 0 [] 4294967295] [TxOut.mk 0 (Runes.encipherScript R)] 0) = some (Runes.decodePayload (Runes.payload R)) := by
    unfold Runes.decipher
    show (Runes.findPayload [Runes.encipherScript R]).map Runes.decodePayload = _
    have hfind : Runes.findPayload [Runes.encipherScript R] = some (Runes.payload R) := by
      show Runes.findPayload
        [106 :: 93 :: ((Runes.chunks (Runes.payload R)).map Runes.pushEnc).flatten] = _
      show some
        (Runes.collectPushes (((Runes.chunks (Runes.payload R)).map Runes.pushEnc).flatten)) = _
      rw [collectPushes_chunks]
    rw [hfind]
    rfl
  unfold Bridge.decipher buildTransaction
  simp only [hexDecode_hexEncode _ hb, consensusDecodeTx_encTx _ hwf, hfp]
  cases hX : Runes.decodePayload (Runes.payload R) <;> rfl

/-!
Length bounds: the enciphered script of a widths-wellformed operation stays
within the 64-bit script-length budget of the consensus encoding.
-/

theorem varintEncAux_length : ∀ (f k n : Nat), 1 ≤ k → n < 128 ^ k →
    (Runes.varintEncAux f n).length ≤ k := by
  intro f
  induction f with
  | zero =>
    intro k n hk _
    simp only [Runes.varintEncAux, List.length_singleton]
    omega
  | succ f ih =>
    intro k n hk hn
    simp only [Runes.varintEncAux]
    by_cases h : n < 128
    · rw [if_pos h]
      simp only [List.length_singleton]
      omega
    · rw [if_neg h]
      simp only [List.length_cons]
      have hk2 : 2 ≤ k := by
        by_contra hc
        have hk1 : k = 1 := by omega
        subst hk1
        simp only [pow_one] at hn
        omega
      have hdiv : n / 128 < 128 ^ (k - 1) := by
        refine Nat.div_lt_of_lt_mul ?_
        have he : (128 : Nat) ^ k = 128 * 128 ^ (k - 1) := by
          rw [← pow_succ']
          congr 1
          omega
        omega
      have := ih (k - 1) (n / 128) (by omega) hdiv
      omega

theorem varintEnc_length_le (n : Nat) (h : n < U128) :
    (Runes.varintEnc n).length ≤ 19 := by
  refine varintEncAux_length n 19 n (by norm_num) ?_
  have : U128 ≤ 128 ^ 19 := by unfold U128; norm_num
  omega

theorem bytesOfInts_length (ints : List Nat) (h : ∀ n ∈ ints, n < U128) :
    (Runes.bytesOfInts ints).length ≤ 19 * ints.length := by
  induction ints with
  | nil => simp [Runes.bytesOfInts]
  | cons n rest ih =>
    unfold Runes.bytesOfInts
    simp only [List.map_cons, List.flatten_cons, List.length_append, List.length_cons]
    have h1 := varintEnc_length_le n (h n (List.mem_cons_self n rest))
    have h2 := ih (fun x hx => h x (List.mem_cons_of_mem n hx))
    unfold Runes.bytesOfInts at h2
    omega

theorem optPair_length (t : Nat) (o : Option Nat) : (Runes.optPair t o).length ≤ 2 := by
  cases o <;> simp [Runes.optPair]

theorem termsInts_length (t : Runes.Terms) : (Runes.termsInts t).length ≤ 12 := by
  unfold Runes.termsInts
  simp only [List.length_append]
  have h1 := optPair_length 12 t.amount
  have h2 := optPair_length 14 t.cap
  have h3 := optPair_length 16 t.height.1
  have h4 := optPair_length 18 t.height.2
  have h5 := optPair_length 20 t.offset.1
  have h6 := optPair_length 22 t.offset.2
  omega

theorem etchingInts_length (e : Runes.Etching) : (Runes.etchingInts e).length ≤ 24 := by
  unfold Runes.etchingInts
  simp only [List.length_append]
  have h1 := optPair_length 2 e.divisibility
  have h2 := optPair_length 4 e.premine
  have h3 := optPair_length 6 e.rune
  have h4 := optPair_length 8 e.spacers
  have h5 := optPair_length 10 (e.symbol.map Char.toNat)
  have h6 : (match e.terms with
      | some t => Runes.termsInts t
      | none => []).length ≤ 12 := by
    cases e.terms with
    | none => simp
    | some t => exact termsInts_length t
  have h7 : (if e.turbo then ([24, 1] : List Nat) else []).length ≤ 2 := by
    cases e.turbo <;> simp
  omega

theorem edictInts_length : ∀ (prev : Runes.RuneId) (es : List Runes.Edict),
    (Runes.edictInts prev es).length = 4 * es.length := by
  intro prev es
  induction es generalizing prev with
  | nil => rfl
  | cons e rest ih =>
    unfold Runes.edictInts
    simp only [List.length_append, List.length_cons]
    rw [ih e.id]
    by_cases h : e.id.block = prev.block
    · rw [if_pos h]
      simp only [List.length_cons, List.length_nil]
      omega
    · rw [if_neg h]
      simp only [List.length_cons, List.length_nil]
      omega

theorem sortEdicts_length (es : List Runes.Edict) :
    (Runes.sortEdicts es).length = es.length :=
  (sortEdicts_perm es).length_eq

theorem bodyInts_length (es : List Runes.Edict) :
    (Runes.bodyInts es).length ≤ 1 + 4 * es.length := by
  cases es with
  | nil => simp [Runes.bodyInts]
  | cons e rest =>
    unfold Runes.bodyInts
    simp only [List.length_cons]
    rw [edictInts_length, sortEdicts_length]
    simp only [List.length_cons]
    omega

theorem mintInts_length (o : Option Runes.RuneId) : (Runes.mintInts o).length ≤ 4 := by
  cases o <;> simp [Runes.mintInts]

theorem intsOf_length (r : Runes.Runestone) :
    (Runes.intsOf r).length ≤ 31 + 4 * r.edicts.length := by
  unfold Runes.intsOf
  simp only [List.length_append]
  have h1 : (match r.etching with
      | some e => Runes.etchingInts e
      | none => []).length ≤ 24 := by
    cases r.etching with
    | none => simp
    | some e => exact etchingInts_length e
  have h2 := optPair_length 26 r.pointer
  have h3 := mintInts_length r.mint
  have h4 := bodyInts_length r.edicts
  omega

theorem chunksAux_length_le : ∀ (f : Nat) (bs : List Nat),
    (Runes.chunksAux f bs).length ≤ bs.length := by
  intro f
  induction f with
  | zero => intro bs; simp [Runes.chunksAux]
  | succ f ih =>
    intro bs
    simp only [Runes.chunksAux]
    by_cases h : bs = []
    · rw [if_pos h]; simp
    · rw [if_neg h]
      simp only [List.length_cons]
      have h1 := ih (bs.drop 520)
      have h2 : (bs.drop 520).length = bs.length - 520 := List.length_drop 520 bs
      have h3 : bs.length ≠ 0 := fun hl => h (List.eq_nil_of_length_eq_zero hl)
      omega

theorem chunksAux_flatten : ∀ (f : Nat) (bs : List Nat), bs.length < f →
    (Runes.chunksAux f bs).flatten = bs := by
  intro f
  induction f with
  | zero => intro bs h; omega
  | succ f ih =>
    intro bs h
    simp only [Runes.chunksAux]
    by_cases hb : bs = []
    · rw [if_pos hb]; simp [hb]
    · rw [if_neg hb]
      simp only [List.flatten_cons]
      have h2 : (bs.drop 520).length = bs.length - 520 := List.length_drop 520 bs
      have h3 : bs.length ≠ 0 := fun hl => hb (List.eq_nil_of_length_eq_zero hl)
      rw [ih (bs.drop 520) (by omega)]
      exact List.take_append_drop 520 bs

theorem pushEnc_length (c : List Nat) : (Runes.pushEnc c).length ≤ c.length + 3 := by
  unfold Runes.pushEnc
  by_cases h1 : c.length < 76
  · rw [if_pos h1]; simp
  · rw [if_neg h1]
    by_cases h2 : c.length ≤ 255
    · rw [if_pos h2]; simp
    · rw [if_neg h2]; simp

theorem pushList_length : ∀ L : List (List Nat),
    ((L.map Runes.pushEnc).flatten).length ≤ L.flatten.length + 3 * L.length := by
  intro L
  induction L with
  | nil => simp
  | cons c rest ih =>
    simp only [List.map_cons, List.flatten_cons, List.length_append, List.length_cons]
    have h1 := pushEnc_length c
    omega

theorem encipherScript_length (r : Runes.Runestone) :
    (Runes.encipherScript r).length ≤ 2 + 4 * (Runes.payload r).length := by
  unfold Runes.encipherScript
  simp only [List.cons_append, List.nil_append, List.length_cons]
  have h1 := pushList_length (Runes.chunks (Runes.payload r))
  have h2 : (Runes.chunks (Runes.payload r)).flatten = Runes.payload r :=
    chunksAux_flatten _ _ (by omega)
  have h3 : (Runes.chunks (Runes.payload r)).length ≤ (Runes.payload r).length :=
    chunksAux_length_le _ _
  rw [h2] at h1
  omega

theorem encipherScript_length_lt (r : Runes.Runestone) (hw : Runes.widthsWF r)
    (hn : r.edicts.length < U32) : (Runes.encipherScript r).length < U64 := by
  have h1 := encipherScript_length r
  have h2 : (Runes.payload r).length ≤ 19 * (Runes.intsOf r).length :=
    bytesOfInts_length (Runes.intsOf r) (intsOf_lt r hw)
  have h3 := intsOf_length r
  unfold U32 at hn
  unfold U64
  norm_num at hn ⊢
  omega

/-!
Bounds carried by a successful spaced-name parse: the name value is checked
against 128 bits directly, and the spacer bitmask stays below the letter
count, itself bounded because the name value grows geometrically with the
letters.
-/

theorem srParse_bounds : ∀ (cs : List Char) (k acc sp : Nat) (lastSp : Bool)
    (sr : SpacedRune),
    (lastSp = true → 1 ≤ k ∧ sp < 2 ^ k) →
    (lastSp = false → (k = 0 ∧ sp = 0) ∨ (1 ≤ k ∧ sp < 2 ^ (k - 1))) →
    (1 ≤ k → 26 ^ (k - 1) ≤ acc + 1) →
    srParse cs k acc sp lastSp = some sr →
    sr.rune < U128 ∧ sr.spacers < U128 := by
  intro cs
  induction cs with
  | nil =>
    intro k acc sp lastSp sr ht hf hacc h
    simp only [srParse] at h
    by_cases hg : k = 0 ∨ lastSp = true
    · rw [if_pos (by rcases hg with hg | hg; exact Or.inl hg; exact Or.inr (by simp [hg]))] at h
      cases h
    · push_neg at hg
      rw [if_neg (by simp [hg.1, hg.2])] at h
      by_cases ha : acc < U128
      · rw [if_pos ha] at h
        injection h with h1
        subst h1
        refine ⟨ha, ?_⟩
        have hk1 : 1 ≤ k := by omega
        rcases hf (by simpa using hg.2) with ⟨hk0, _⟩ | ⟨_, hsp⟩
        · omega
        · have hkb : k - 1 ≤ 27 := by
            by_contra hc
            have h28 : (26 : Nat) ^ 28 ≤ 26 ^ (k - 1) :=
              Nat.pow_le_pow_right (by norm_num) (by omega)
            have hbig : U128 < 26 ^ 28 := by unfold U128; norm_num
            have := hacc hk1
            omega
          have h27 : (2 : Nat) ^ (k - 1) ≤ 2 ^ 27 :=
            Nat.pow_le_pow_right (by norm_num) hkb
          have hfin : (2 : Nat) ^ 27 < U128 := by unfold U128; norm_num
          show sp < U128
          omega
      · rw [if_neg ha] at h
        cases h
  | cons c rest ih =>
    intro k acc sp lastSp sr ht hf hacc h
    simp only [srParse] at h
    by_cases hA : 'A' ≤ c ∧ c ≤ 'Z'
    · rw [if_pos hA] at h
      refine ih (k + 1) _ sp false sr (by intro hc; cases hc) ?_ ?_ h
      · intro _
        right
        refine ⟨by omega, ?_⟩
        simp only [Nat.add_sub_cancel]
        cases lastSp with
        | false =>
          rcases hf rfl with ⟨_, hsp⟩ | ⟨hk1, hsp⟩
          · subst hsp
            positivity
          · have : (2 : Nat) ^ (k - 1) ≤ 2 ^ k :=
              Nat.pow_le_pow_right (by norm_num) (by omega)
            omega
        | true => exact (ht rfl).2
      · intro _
        simp only [Nat.add_sub_cancel]
        by_cases hk : k = 0
        · rw [if_pos hk]
          subst hk
          simp
        · rw [if_neg hk]
          have hk1 : 1 ≤ k := by omega
          have hge := hacc hk1
          have he : (26 : Nat) ^ k = 26 ^ (k - 1) * 26 := by
            rw [← pow_succ]
            congr 1
            omega
          omega
    · rw [if_neg hA] at h
      by_cases hS : c = '•' ∨ c = '.'
      · rw [if_pos hS] at h
        by_cases hg : k = 0 ∨ lastSp = true
        · rw [if_pos (by rcases hg with hg | hg; exact Or.inl hg; exact Or.inr (by simp [hg]))] at h
          cases h
        · push_neg at hg
          rw [if_neg (by simp [hg.1, hg.2])] at h
          refine ih k acc _ true sr ?_ (by intro hc; cases hc) hacc h
          intro _
          have hk1 : 1 ≤ k := by omega
          refine ⟨hk1, ?_⟩
          rcases hf (by simpa using hg.2) with ⟨hk0, _⟩ | ⟨_, hsp⟩
          · omega
          · have he : (2 : Nat) ^ k = 2 ^ (k - 1) * 2 := by
              rw [← pow_succ]
              congr 1
              omega
            omega
      · rw [if_neg hS] at h
        cases h

theorem srFromStr_bounds {s : String} {sr : SpacedRune}
    (h : srFromStr s = some sr) : sr.rune < U128 ∧ sr.spacers < U128 :=
  srParse_bounds s.data 0 0 0 false sr
    (fun hc => absurd hc (by decide))
    (fun _ => Or.inl ⟨rfl, rfl⟩)
    (fun h1 => absurd h1 (by decide)) h

/-!
Bridge conversion identities: under the Data Model bounds the BigInt
accessors are lossless, so the public-to-internal conversions invert the
internal-to-public ones.
-/

theorem getU128_eq (v : Nat) (h : v < U128) : (getU128 v).2.1 = v :=
  Nat.mod_eq_of_lt h

theorem getU64_eq (v : Nat) (h : v < U64) : (getU64 v).2.1 = v :=
  Nat.mod_eq_of_lt h

theorem getU128_lt (v : Nat) : (getU128 v).2.1 < U128 :=
  Nat.mod_lt v (by unfold U128; positivity)

theorem getU64_lt (v : Nat) : (getU64 v).2.1 < U64 :=
  Nat.mod_lt v (by unfold U64; positivity)

theorem optMap_u128_id (o : Option Nat) (h : optLt o U128) :
    o.map (fun v => (getU128 v).2.1) = o := by
  cases o with
  | none => rfl
  | some v => simp [getU128_eq v (h v rfl)]

theorem optMap_u64_id (o : Option Nat) (h : optLt o U64) :
    o.map (fun v => (getU64 v).2.1) = o := by
  cases o with
  | none => rfl
  | some v => simp [getU64_eq v (h v rfl)]

theorem optLt_map_u128 (o : Option Nat) : optLt (o.map fun v => (getU128 v).2.1) U128 := by
  intro v hv
  cases o with
  | none => cases hv
  | some w =>
    simp only [Option.map_some', Option.some.injEq] at hv
    rw [← hv]
    exact getU128_lt w

theorem optLt_map_u64 (o : Option Nat) : optLt (o.map fun v => (getU64 v).2.1) U64 := by
  intro v hv
  cases o with
  | none => cases hv
  | some w =>
    simp only [Option.map_some', Option.some.injEq] at hv
    rw [← hv]
    exact getU64_lt w

theorem parseRuneId_bounds {s : String} {r : Runes.RuneId}
    (h : parseRuneId s = some r) : r.block < U64 ∧ r.tx < U32 := by
  unfold parseRuneId at h
  split at h
  · cases h
  · split at h
    · next blk tx hb ht =>
      by_cases hcond : blk < U64 ∧ tx < U32
      · rw [if_pos hcond] at h
        injection h with h1
        rw [← h1]
        exact hcond
      · rw [if_neg hcond] at h
        cases h
    · cases h

theorem edictToRunes_wf (e : Bridge.Edict) (h : Bridge.edictWellFormed e) :
    ∃ r : Runes.Edict, Bridge.edictToRunes e = some r ∧
      Bridge.edictOfRunes r = e ∧ Runes.edictWF r := by
  obtain ⟨⟨rid, hp, hfmt⟩, ham, hout⟩ := h
  refine ⟨⟨rid, e.amount, e.output⟩, ?_, ?_, ?_⟩
  · unfold Bridge.edictToRunes
    rw [hp]
    simp only [getU128_eq e.amount ham]
  · unfold Bridge.edictOfRunes
    simp only [hfmt]
  · obtain ⟨hb, ht⟩ := parseRuneId_bounds hp
    exact ⟨hb, ht, ham, hout⟩

theorem edictsToRunes_wf (es : List Bridge.Edict)
    (h : ∀ e ∈ es, Bridge.edictWellFormed e) :
    ∃ rs : List Runes.Edict, Bridge.edictsToRunes es = some rs ∧
      rs.map Bridge.edictOfRunes = es ∧ ∀ r ∈ rs, Runes.edictWF r := by
  induction es with
  | nil => exact ⟨[], rfl, rfl, by intro r hr; cases hr⟩
  | cons e rest ih =>
    obtain ⟨r, hr, hback, hwf⟩ := edictToRunes_wf e (h e (List.mem_cons_self e rest))
    obtain ⟨rs, hrs, hbacks, hwfs⟩ := ih (fun x hx => h x (List.mem_cons_of_mem e hx))
    refine ⟨r :: rs, ?_, ?_, ?_⟩
    · unfold Bridge.edictsToRunes
      rw [hr]
      simp only
      rw [hrs]
    · simp [hback, hbacks]
    · intro x hx
      rcases List.mem_cons.mp hx with h1 | h2
      · rw [h1]; exact hwf
      · exact hwfs x h2

theorem rangeOfRunes_rangeToRunes (br : Bridge.BlockRange)
    (h1 : optLt br.start U64) (h2 : optLt br.end_ U64) :
    Bridge.rangeOfRunes (Bridge.rangeToRunes br) = br := by
  unfold Bridge.rangeOfRunes Bridge.rangeToRunes
  simp only [optMap_u64_id br.start h1, optMap_u64_id br.end_ h2]

theorem termsOfRunes_termsToRunes (t : Bridge.Terms) (h : Bridge.termsWellFormed t) :
    Bridge.termsOfRunes (Bridge.termsToRunes t) = t := by
  obtain ⟨ha, hc, hh1, hh2, ho1, ho2, _⟩ := h
  unfold Bridge.termsOfRunes Bridge.termsToRunes
  simp only [optMap_u128_id t.amount ha, optMap_u128_id t.cap hc]
  rw [rangeOfRunes_rangeToRunes t.height hh1 hh2,
    rangeOfRunes_rangeToRunes t.offset ho1 ho2]

theorem termsToRunes_bounds (t : Bridge.Terms) :
    optLt (Bridge.termsToRunes t).amount U128 ∧
    optLt (Bridge.termsToRunes t).cap U128 ∧
    optLt (Bridge.termsToRunes t).height.1 U64 ∧
    optLt (Bridge.termsToRunes t).height.2 U64 ∧
    optLt (Bridge.termsToRunes t).offset.1 U64 ∧
    optLt (Bridge.termsToRunes t).offset.2 U64 := by
  unfold Bridge.termsToRunes Bridge.rangeToRunes
  exact ⟨optLt_map_u128 t.amount, optLt_map_u128 t.cap,
    optLt_map_u64 t.height.start, optLt_map_u64 t.height.end_,
    optLt_map_u64 t.offset.start, optLt_map_u64 t.offset.end_⟩

theorem normTerms_termsToRunes (t : Bridge.Terms) (h : Bridge.termsWellFormed t) :
    Runes.normTerms (some (Bridge.termsToRunes t)) = some (Bridge.termsToRunes t) := by
  obtain ⟨_, _, _, _, _, _, hpres⟩ := h
  have hcond : ((Bridge.termsToRunes t).amount.isSome ||
      (Bridge.termsToRunes t).cap.isSome ||
      (Bridge.termsToRunes t).height.1.isSome ||
      (Bridge.termsToRunes t).height.2.isSome ||
      (Bridge.termsToRunes t).offset.1.isSome ||
      (Bridge.termsToRunes t).offset.2.isSome) = true := by
    unfold Bridge.termsToRunes Bridge.rangeToRunes
    simp only [Option.isSome_map]
    rcases hpres with h | h | h | h | h | h <;> simp [h]
  simp only [Runes.normTerms]
  rw [if_pos hcond]

theorem etchingToRunes_wf (e : Bridge.Etching) (h : Bridge.etchingWellFormed e) :
    ∃ re : Runes.Etching, Bridge.etchingToRunes e = some re ∧
      Bridge.etchingOfRunes { re with terms := Runes.normTerms re.terms } = e ∧
      Runes.etchingWF re ∧ re.rune.isSome ∧
      (∀ d, re.divisibility = some d → d ≤ 38) ∧
      re.premine.getD 0 + ((re.terms.bind Runes.Terms.cap).getD 0) *
        ((re.terms.bind Runes.Terms.amount).getD 0) < U128 := by
  obtain ⟨⟨sr, hsr, hst⟩, hdiv, hpre, hsym, hterms, hsupply⟩ := h
  have hnt : Runes.normTerms (e.terms.map Bridge.termsToRunes) =
      e.terms.map Bridge.termsToRunes := by
    cases he : e.terms with
    | none => rfl
    | some t =>
      simp only [Option.map_some']
      exact normTerms_termsToRunes t (hterms t he)
  refine ⟨Runes.Etching.mk e.divisibility (e.premine.map fun v => (getU128 v).2.1)
    (some sr.rune) (some sr.spacers) e.symbol.data.head?
    (e.terms.map Bridge.termsToRunes) e.turbo, ?_, ?_, ?_, rfl, ?_, ?_⟩
  · unfold Bridge.etchingToRunes
    rw [hsr]
  · have hB : e.premine.map (fun v => (getU128 v).2.1) = e.premine :=
      optMap_u128_id e.premine hpre
    have hC : srToString ⟨sr.rune, sr.spacers⟩ = e.rune := hst
    have hD : (match e.symbol.data.head? with
        | some c => String.mk [c]
        | none => "") = e.symbol := by
      rcases hsym with hs | ⟨c, hs⟩
      · rw [hs]; rfl
      · rw [hs]; rfl
    have hE : (e.terms.map Bridge.termsToRunes).map Bridge.termsOfRunes = e.terms := by
      cases he : e.terms with
      | none => rfl
      | some t =>
        simp only [Option.map_some']
        rw [termsOfRunes_termsToRunes t (hterms t he)]
    show Bridge.Etching.mk _ _ _ _ _ _ = e
    rw [show ({ Runes.Etching.mk e.divisibility
        (e.premine.map fun v => (getU128 v).2.1)
        (some sr.rune) (some sr.spacers) e.symbol.data.head?
        (e.terms.map Bridge.termsToRunes) e.turbo with
        terms := Runes.normTerms (e.terms.map Bridge.termsToRunes) } : Runes.Etching) =
      Runes.Etching.mk e.divisibility (e.premine.map fun v => (getU128 v).2.1)
        (some sr.rune) (some sr.spacers) e.symbol.data.head?
        (e.terms.map Bridge.termsToRunes) e.turbo from by rw [hnt]]
    show Bridge.Etching.mk e.divisibility (e.premine.map fun v => (getU128 v).2.1)
        (srToString ⟨sr.rune, sr.spacers⟩)
        (match e.symbol.data.head? with
         | some c => String.mk [c]
         | none => "")
        ((e.terms.map Bridge.termsToRunes).map Bridge.termsOfRunes) e.turbo = e
    rw [hB, hC, hD, hE]
  · refine ⟨?_, ?_, ?_, ?_, ?_⟩
    · intro d hd
      exact lt_of_le_of_lt (hdiv d hd) (by unfold U128; norm_num)
    · exact optLt_map_u128 e.premine
    · intro v hv
      injection hv with h1
      rw [← h1]
      exact (srFromStr_bounds hsr).1
    · intro v hv
      injection hv with h1
      rw [← h1]
      exact (srFromStr_bounds hsr).2
    · intro t' ht'
      rcases Option.map_eq_some'.mp ht' with ⟨t, ht, hconv⟩
      rw [← hconv]
      exact termsToRunes_bounds t
  · exact hdiv
  · cases he : e.terms with
    | none =>
      show (e.premine.map fun v => (getU128 v).2.1).getD 0 + _ * _ < U128
      rw [optMap_u128_id e.premine hpre]
      simp only [he, Option.map_none', Option.none_bind, Option.getD_none]
      simp only [he, Option.none_bind, Option.getD_none] at hsupply
      omega
    | some t =>
      show (e.premine.map fun v => (getU128 v).2.1).getD 0 + _ * _ < U128
      rw [optMap_u128_id e.premine hpre]
      simp only [he, Option.map_some', Option.some_bind] at hsupply ⊢
      show e.premine.getD 0 + ((t.cap.map fun v => (getU128 v).2.1).getD 0) *
        ((t.amount.map fun v => (getU128 v).2.1).getD 0) < U128
      rw [optMap_u128_id t.cap (hterms t he).2.1,
        optMap_u128_id t.amount (hterms t he).1]
      exact hsupply

theorem runestoneToRunes_wf (op : Bridge.Runestone) (hwf : Bridge.wellFormed op) :
    ∃ R : Runes.Runestone, Bridge.runestoneToRunes op = some R ∧
      Runes.widthsWF R ∧
      (∀ e, R.etching = some e → e.rune.isSome) ∧
      (∀ e, R.etching = some e → ∀ d, e.divisibility = some d → d ≤ 38) ∧
      (∀ e, R.etching = some e →
        e.premine.getD 0 + ((e.terms.bind Runes.Terms.cap).getD 0) *
          ((e.terms.bind Runes.Terms.amount).getD 0) < U128) ∧
      Bridge.runestoneOfRunes (Runes.decNormal R) =
        Bridge.Runestone.mk ((Runes.sortEdicts R.edicts).map Bridge.edictOfRunes)
          op.etching op.mint op.pointer ∧
      R.edicts.map Bridge.edictOfRunes = op.edicts := by
  obtain ⟨hed, hetch, hmint, hptr⟩ := hwf
  obtain ⟨rs, hrs, hback, hwfs⟩ := edictsToRunes_wf op.edicts hed
  have hmint' : ∃ mo : Option Runes.RuneId,
      (match op.mint with
       | none => some none
       | some s => (parseRuneId s).map some) = some mo ∧
      mo.map formatRuneId = op.mint ∧
      (∀ id, mo = some id → id.block < U64 ∧ id.tx < U32) := by
    cases hm : op.mint with
    | none => exact ⟨none, rfl, rfl, by intro id hid; cases hid⟩
    | some s =>
      obtain ⟨rid, hp, hf⟩ := hmint s hm
      refine ⟨some rid, ?_, ?_, ?_⟩
      · show (parseRuneId s).map some = some (some rid)
        rw [hp]
        rfl
      · simp [hf]
      · intro id hid
        injection hid with h1
        rw [← h1]
        exact parseRuneId_bounds hp
  have hetch' : ∃ eo : Option Runes.Etching,
      (match op.etching with
       | none => some none
       | some e => (Bridge.etchingToRunes e).map some) = some eo ∧
      (eo.map fun e => { e with terms := Runes.normTerms e.terms }).map
        Bridge.etchingOfRunes = op.etching ∧
      (∀ e, eo = some e → Runes.etchingWF e) ∧
      (∀ e, eo = some e → e.rune.isSome) ∧
      (∀ e, eo = some e → ∀ d, e.divisibility = some d → d ≤ 38) ∧
      (∀ e, eo = some e →
        e.premine.getD 0 + ((e.terms.bind Runes.Terms.cap).getD 0) *
          ((e.terms.bind Runes.Terms.amount).getD 0) < U128) := by
    cases he : op.etching with
    | none =>
      refine ⟨none, rfl, rfl, ?_, ?_, ?_, ?_⟩ <;> intro e he' <;> cases he'
    | some pe =>
      obtain ⟨re, hconv, hback2, hWF, hrune, hdivb, hsup⟩ :=
        etchingToRunes_wf pe (hetch pe he)
      refine ⟨some re, ?_, ?_, ?_, ?_, ?_, ?_⟩
      · show (Bridge.etchingToRunes pe).map some = some (some re)
        rw [hconv]
        rfl
      · simp only [Option.map_some']
        rw [hback2]
      · intro e he'
        injection he' with h1
        rw [← h1]
        exact hWF
      · intro e he'
        injection he' with h1
        rw [← h1]
        exact hrune
      · intro e he'
        injection he' with h1
        rw [← h1]
        exact hdivb
      · intro e he'
        injection he' with h1
        rw [← h1]
        exact hsup
  obtain ⟨mo, hmo, hmb, hmw⟩ := hmint'
  obtain ⟨eo, heo, heb, hew, her, hedv, hesup⟩ := hetch'
  refine ⟨Runes.Runestone.mk rs eo mo op.pointer, ?_, ⟨hwfs, hew, hmw, hptr⟩,
    her, hedv, hesup, ?_, hback⟩
  · unfold Bridge.runestoneToRunes
    simp only [hmo]
    simp only [hrs]
    simp only [heo]
  · unfold Bridge.runestoneOfRunes Runes.decNormal
    show Bridge.Runestone.mk ((Runes.sortEdicts rs).map Bridge.edictOfRunes)
      ((eo.map fun e => { e with terms := Runes.normTerms e.terms }).map
        Bridge.etchingOfRunes) (mo.map formatRuneId) op.pointer =
      Bridge.Runestone.mk ((Runes.sortEdicts rs).map Bridge.edictOfRunes)
        op.etching op.mint op.pointer
    rw [heb, hmb]

/-- A concrete well-formed etching for the round-trip witness: canonical
two-letter name, divisibility 2, no other fields. -/
def etchC4 : Bridge.Etching :=
  { divisibility := some 2
    premine := none
    rune := "AB"
    symbol := ""
    terms := none
    turbo := false }

/-- A concrete well-formed operation exercising the round-trip: one edict,
an etching, a mint reference and a pointer. -/
def opC4 : Bridge.Runestone :=
  { edicts := [{ id := "5:3", amount := 100, output := 0 }]
    etching := some etchC4
    mint := some "7:1"
    pointer := some 2 }

/-- C4: for every operation satisfying the Data Model invariants (and with
an edict count within the 32-bit count the codec carries), enciphering,
wrapping the bytes in a transaction and deciphering yields the operation
again: etching, mint and pointer unchanged and the edicts a permutation of
the originals (the encoder-sorted order). -/
theorem c4_roundtrip (op : Bridge.Runestone) (hwf : Bridge.wellFormed op)
    (hn : op.edicts.length < U32) :
    ∃ bytes : List Nat, Bridge.encipher op = some bytes ∧
      ∃ op' : Bridge.Runestone,
        Bridge.decipher (buildTransaction bytes) = some op' ∧
        op'.etching = op.etching ∧ op'.mint = op.mint ∧
        op'.pointer = op.pointer ∧ op'.edicts.Perm op.edicts := by
  obtain ⟨R, hR, hw, hrune, hdiv, hsup, hofr, hback⟩ := runestoneToRunes_wf op hwf
  have hlen : R.edicts.length = op.edicts.length := by
    have h1 := congrArg List.length hback
    simpa using h1
  have hsl : (Runes.encipherScript R).length < U64 :=
    encipherScript_length_lt R hw (by rw [hlen]; exact hn)
  refine ⟨Runes.encipherScript R, ?_, ?_⟩
  · unfold Bridge.encipher
    simp only [hR]
  · refine ⟨Bridge.Runestone.mk ((Runes.sortEdicts R.edicts).map Bridge.edictOfRunes)
      op.etching op.mint op.pointer, ?_, rfl, rfl, rfl, ?_⟩
    · rw [decipher_build R hsl]
      rw [decodePayload_payload R hw hrune hdiv hsup]
      show some (Bridge.runestoneOfRunes (Runes.decNormal R)) = _
      rw [hofr]
    · show ((Runes.sortEdicts R.edicts).map Bridge.edictOfRunes).Perm op.edicts
      have hp := (sortEdicts_perm R.edicts).map Bridge.edictOfRunes
      rw [hback] at hp
      exact hp

set_option maxRecDepth 8000 in
/-- Witness for C4: the concrete operation opC4 is well-formed and the
round-trip theorem applies to it. -/
theorem c4_witness :
    Bridge.wellFormed opC4 ∧ opC4.edicts.length < U32 ∧
    (∃ bytes : List Nat, Bridge.encipher opC4 = some bytes ∧
      ∃ op' : Bridge.Runestone,
        Bridge.decipher (buildTransaction bytes) = some op' ∧
        op'.etching = opC4.etching ∧ op'.mint = opC4.mint ∧
        op'.pointer = opC4.pointer ∧ op'.edicts.Perm opC4.edicts) := by
  have hetch : Bridge.etchingWellFormed etchC4 := by
    refine ⟨⟨⟨27, 0⟩, by decide, by decide⟩, ?_, ?_, Or.inl rfl, ?_, ?_⟩
    · intro d hd
      injection hd with h1
      omega
    · intro v hv
      cases hv
    · intro t ht
      cases ht
    · decide
  have hwf : Bridge.wellFormed opC4 := by
    refine ⟨?_, ?_, ?_, ?_⟩
    · intro e he
      rw [show opC4.edicts = [Bridge.Edict.mk "5:3" 100 0] from rfl,
        List.mem_singleton] at he
      subst he
      exact ⟨⟨⟨5, 3⟩, by decide, by decide⟩, by decide, by decide⟩
    · intro e he
      injection he with h1
      rw [← h1]
      exact hetch
    · intro s hs
      injection hs with h1
      rw [← h1]
      exact ⟨⟨7, 1⟩, by decide, by decide⟩
    · intro v hv
      injection hv with h1
      rw [← h1]
      decide
  exact ⟨hwf, by decide, c4_roundtrip opC4 hwf (by decide)⟩

/-!
Truncation analysis: removing the final byte of an encoded payload either
cuts a multi-byte integer (leaving a stream that ends mid-varint) or
removes a whole final integer (leaving a dangling tag or a partial edict
group).
-/

theorem bytesOfInts_append (a b : List Nat) :
    Runes.bytesOfInts (a ++ b) = Runes.bytesOfInts a ++ Runes.bytesOfInts b := by
  simp [Runes.bytesOfInts]

theorem decodeIntsGo_allHigh : ∀ (l : List Nat), (∀ b ∈ l, 128 ≤ b) → l ≠ [] →
    ∀ (acc mult : Nat), 1 ≤ mult →
    Runes.decodeIntsGo l acc mult = .error Runes.Flaw.truncated := by
  intro l
  induction l with
  | nil => intro _ hne; exact absurd rfl hne
  | cons b rest ih =>
    intro hb _ acc mult hm
    have hbge : 128 ≤ b := hb b (List.mem_cons_self b rest)
    simp only [Runes.decodeIntsGo]
    rw [if_neg (by omega)]
    by_cases hrn : rest = []
    · subst hrn
      simp only [Runes.decodeIntsGo]
      rw [if_neg (by omega)]
    · exact ih (fun x hx => hb x (List.mem_cons_of_mem b hx)) hrn _ _ (by omega)

theorem varintEnc_ne_nil (n : Nat) : Runes.varintEnc n ≠ [] := by
  rw [Runes.varintEnc_eq]
  split <;> simp

theorem parseEdicts_edictInts_dropLast :
    ∀ (es : List Runes.Edict) (prev : Runes.RuneId) (st : Runes.PState),
      es ≠ [] → Runes.chainFrom prev es → (∀ e ∈ es, Runes.edictWF e) →
      Runes.parseEdicts ((Runes.edictInts prev es).dropLast) prev st =
        Runes.PState.addFlaw { st with edicts := st.edicts ++ es.dropLast }
          Runes.Flaw.truncatedEdict := by
  intro es
  induction es with
  | nil => intro prev st hne; exact absurd rfl hne
  | cons e rest ih =>
    intro prev st _ hc hwf
    have hewf := hwf e (List.mem_cons_self e rest)
    obtain ⟨hb, ht, ha, ho⟩ := hewf
    by_cases hrn : rest = []
    · subst hrn
      unfold Runes.edictInts
      by_cases heq : e.id.block = prev.block
      · rw [if_pos heq]
        show Runes.parseEdicts
          ((0 :: (e.id.tx - prev.tx) :: e.amount :: [e.output]).dropLast) prev st = _
        show Runes.parseEdicts [0, e.id.tx - prev.tx, e.amount] prev st = _
        show Runes.PState.addFlaw st Runes.Flaw.truncatedEdict = _
        show Runes.PState.addFlaw st Runes.Flaw.truncatedEdict =
          Runes.PState.addFlaw { st with edicts := st.edicts ++ [] }
            Runes.Flaw.truncatedEdict
        rw [List.append_nil]
      · rw [if_neg heq]
        show Runes.parseEdicts
          (((e.id.block - prev.block) :: e.id.tx :: e.amount :: [e.output]).dropLast)
          prev st = _
        show Runes.parseEdicts [e.id.block - prev.block, e.id.tx, e.amount] prev st = _
        show Runes.PState.addFlaw st Runes.Flaw.truncatedEdict = _
        show Runes.PState.addFlaw st Runes.Flaw.truncatedEdict =
          Runes.PState.addFlaw { st with edicts := st.edicts ++ [] }
            Runes.Flaw.truncatedEdict
        rw [List.append_nil]
    · have hrec := ih e.id { st with edicts := st.edicts ++ [e] } hrn hc.2
        (fun x hx => hwf x (List.mem_cons_of_mem e hx))
      have hEne : Runes.edictInts e.id rest ≠ [] := edictInts_ne_nil e.id hrn
      have hdl : (e :: rest).dropLast = e :: rest.dropLast := by
        cases rest with
        | nil => exact absurd rfl hrn
        | cons x xs => rfl
      unfold Runes.edictInts
      by_cases heq : e.id.block = prev.block
      · rw [if_pos heq]
        have htx : prev.tx ≤ e.id.tx := by
          rcases hc.1 with hlt | ⟨hbe, hte⟩
          · omega
          · exact hte
        show Runes.parseEdicts
          ((0 :: (e.id.tx - prev.tx) :: e.amount :: e.output ::
            Runes.edictInts e.id rest).dropLast) prev st = _
        rw [show (0 :: (e.id.tx - prev.tx) :: e.amount :: e.output ::
            Runes.edictInts e.id rest).dropLast =
          0 :: (e.id.tx - prev.tx) :: e.amount :: e.output ::
            (Runes.edictInts e.id rest).dropLast from by
          show ((([0, e.id.tx - prev.tx, e.amount, e.output] : List Nat) ++
            Runes.edictInts e.id rest).dropLast) = _
          rw [List.dropLast_append_of_ne_nil _ hEne]
          rfl]
        unfold Runes.parseEdicts
        rw [if_pos rfl]
        rw [if_pos ⟨by omega, ha, ho⟩]
        have hid : (⟨prev.block, prev.tx + (e.id.tx - prev.tx)⟩ : Runes.RuneId) = e.id := by
          have h2 : prev.tx + (e.id.tx - prev.tx) = e.id.tx := by omega
          rw [h2, ← heq]
        rw [hid, hrec, hdl]
        show Runes.PState.addFlaw
          { st with edicts := (st.edicts ++ [e]) ++ rest.dropLast } _ = _
        rw [List.append_assoc]
        rfl
      · rw [if_neg heq]
        have hblt : prev.block < e.id.block := by
          rcases hc.1 with hlt | ⟨hbe, hte⟩
          · exact hlt
          · omega
        show Runes.parseEdicts
          (((e.id.block - prev.block) :: e.id.tx :: e.amount :: e.output ::
            Runes.edictInts e.id rest).dropLast) prev st = _
        rw [show ((e.id.block - prev.block) :: e.id.tx :: e.amount :: e.output ::
            Runes.edictInts e.id rest).dropLast =
          (e.id.block - prev.block) :: e.id.tx :: e.amount :: e.output ::
            (Runes.edictInts e.id rest).dropLast from by
          show ((([e.id.block - prev.block, e.id.tx, e.amount, e.output] : List Nat) ++
            Runes.edictInts e.id rest).dropLast) = _
          rw [List.dropLast_append_of_ne_nil _ hEne]
          rfl]
        unfold Runes.parseEdicts
        rw [if_neg (by omega)]
        rw [if_pos ⟨by omega, ht, ha, ho⟩]
        have hid : (⟨prev.block + (e.id.block - prev.block), e.id.tx⟩ : Runes.RuneId) =
            e.id := by
          have h2 : prev.block + (e.id.block - prev.block) = e.id.block := by omega
          rw [h2]
        rw [hid, hrec, hdl]
        show Runes.PState.addFlaw
          { st with edicts := (st.edicts ++ [e]) ++ rest.dropLast } _ = _
        rw [List.append_assoc]
        rfl

theorem parseInts_pairsFlat_dropLast :
    ∀ (l : List (Nat × Option Nat)) (st : Runes.PState),
      (∀ p ∈ l, p.1 ≠ 1 ∧ p.1 % 2 = 0) → Runes.pairsFlat l ≠ [] →
      ∃ st' : Runes.PState,
        Runes.parseInts ((Runes.pairsFlat l).dropLast) st =
          Runes.PState.addFlaw st' Runes.Flaw.trailingTag ∧ st'.flaws = st.flaws := by
  intro l
  induction l with
  | nil =>
    intro st _ hne
    exact absurd rfl hne
  | cons p rest ih =>
    intro st hp hne
    have hflat : Runes.pairsFlat (p :: rest) =
        Runes.optPair p.1 p.2 ++ Runes.pairsFlat rest := by
      simp [Runes.pairsFlat]
    cases ho : p.2 with
    | none =>
      rw [hflat, ho] at hne ⊢
      simp only [Runes.optPair, List.nil_append] at hne ⊢
      exact ih st (fun q hq => hp q (List.mem_cons_of_mem p hq)) hne
    | some v =>
      rw [hflat, ho]
      by_cases hr : Runes.pairsFlat rest = []
      · rw [hr]
        refine ⟨st, ?_, rfl⟩
        show Runes.parseInts (([p.1, v] ++ []).dropLast) st = _
        rw [List.append_nil]
        show Runes.parseInts [p.1] st = _
        show (if p.1 = 1 then st else Runes.PState.addFlaw st Runes.Flaw.trailingTag) = _
        rw [if_neg (hp p (List.mem_cons_self p rest)).1]
      · show ∃ st',
          Runes.parseInts ((([p.1, v] : List Nat) ++ Runes.pairsFlat rest).dropLast) st =
            Runes.PState.addFlaw st' Runes.Flaw.trailingTag ∧ st'.flaws = st.flaws
        rw [List.dropLast_append_of_ne_nil _ hr]
        obtain ⟨st', hst', hfl⟩ := ih (Runes.applyTag p.1 v st)
          (fun q hq => hp q (List.mem_cons_of_mem p hq)) hr
        refine ⟨st', ?_, ?_⟩
        · show Runes.parseInts (p.1 :: v :: (Runes.pairsFlat rest).dropLast) st = _
          cases hdl : (Runes.pairsFlat rest).dropLast with
          | nil =>
            rw [hdl] at hst'
            show (if p.1 = 1 then Runes.parseEdicts (v :: []) ⟨0, 0⟩ st
              else Runes.parseInts [] (Runes.applyTag p.1 v st)) = _
            rw [if_neg (hp p (List.mem_cons_self p rest)).1]
            exact hst'
          | cons x xs =>
            rw [hdl] at hst'
            show (if p.1 = 1 then Runes.parseEdicts (v :: x :: xs) ⟨0, 0⟩ st
              else Runes.parseInts (x :: xs) (Runes.applyTag p.1 v st)) = _
            rw [if_neg (hp p (List.mem_cons_self p rest)).1]
            exact hst'
        · rw [hfl]
          exact applyOpt_flaws (some v) st (hp p (List.mem_cons_self p rest)).2

/-- C6 (amended): removing the last byte of the encoded payload of any
widths-wellformed operation with a nonempty payload yields a cenotaph
whose flaws include Truncated, TruncatedEdict or TrailingTag: decoding is
total (no panic) and never returns an operation, but the flaw is
TrailingTag rather than Truncated or TruncatedEdict when the lost byte was
a whole one-byte field value, leaving its tag dangling. -/
theorem c6_truncation_flagged (r : Runes.Runestone) (hw : Runes.widthsWF r)
    (hne : Runes.payload r ≠ []) :
    ∃ fs, Runes.decodePayload ((Runes.payload r).dropLast) =
        Runes.Artifact.cenotaph fs ∧
      (Runes.Flaw.truncated ∈ fs ∨ Runes.Flaw.truncatedEdict ∈ fs ∨
       Runes.Flaw.trailingTag ∈ fs) := by
  have hbound := intsOf_lt r hw
  have hine : Runes.intsOf r ≠ [] := by
    intro hc
    apply hne
    unfold Runes.payload
    rw [hc]
    rfl
  obtain ⟨init, n, hsplit⟩ : ∃ init n, Runes.intsOf r = init ++ [n] :=
    ⟨(Runes.intsOf r).dropLast, (Runes.intsOf r).getLast hine,
      (List.dropLast_concat_getLast hine).symm⟩
  have hinitb : ∀ i ∈ init, i < U128 := by
    intro i hi
    exact hbound i (by rw [hsplit]; exact List.mem_append_left _ hi)
  have hpay : Runes.payload r = Runes.bytesOfInts init ++ Runes.varintEnc n := by
    unfold Runes.payload
    rw [hsplit, bytesOfInts_append]
    simp [Runes.bytesOfInts]
  by_cases hn : n < 128
  · have hdrop : (Runes.payload r).dropLast = Runes.bytesOfInts init := by
      rw [hpay, varintEnc_singleton hn]
      exact List.dropLast_concat
    have hinitEq : init = (Runes.intsOf r).dropLast := by
      rw [hsplit]
      exact List.dropLast_concat.symm
    rw [hdrop]
    unfold Runes.decodePayload
    simp only [decodeInts_bytesOfInts init hinitb]
    have hio := intsOf_fieldOpts r
    by_cases hede : r.edicts = []
    · have hinit2 : init = (Runes.pairsFlat (Runes.fieldOpts r)).dropLast := by
        rw [hinitEq, hio, hede]
        show (Runes.pairsFlat (Runes.fieldOpts r) ++
          Runes.bodyInts ([] : List Runes.Edict)).dropLast = _
        show (Runes.pairsFlat (Runes.fieldOpts r) ++ ([] : List Nat)).dropLast = _
        rw [List.append_nil]
      obtain ⟨st', hst', hfl⟩ := parseInts_pairsFlat_dropLast (Runes.fieldOpts r)
        Runes.pstate0
        (fun p hp => ⟨(fieldOpts_tags r p hp).1, (fieldOpts_tags r p hp).2.1⟩)
        (by
          intro hc
          apply hine
          rw [hio, hede, hc]
          rfl)
      rw [hinit2, hst']
      refine ⟨Runes.Flaw.trailingTag ::
        Runes.assembleFlaws (Runes.PState.addFlaw st' Runes.Flaw.trailingTag).tagVals,
        ?_, Or.inr (Or.inr (List.mem_cons_self _ _))⟩
      unfold Runes.assemble
      have hsc : (Runes.PState.addFlaw st' Runes.Flaw.trailingTag).flaws ++
          Runes.assembleFlaws
            (Runes.PState.addFlaw st' Runes.Flaw.trailingTag).tagVals =
          Runes.Flaw.trailingTag ::
            Runes.assembleFlaws
              (Runes.PState.addFlaw st' Runes.Flaw.trailingTag).tagVals := by
        show (st'.flaws ++ [Runes.Flaw.trailingTag]) ++ _ = _
        rw [hfl]
        rfl
      rw [hsc]
    · have hsne : Runes.sortEdicts r.edicts ≠ [] := sortEdicts_ne_nil hede
      have hEne : Runes.edictInts ⟨0, 0⟩ (Runes.sortEdicts r.edicts) ≠ [] :=
        edictInts_ne_nil _ hsne
      have hbody : Runes.bodyInts r.edicts =
          1 :: Runes.edictInts ⟨0, 0⟩ (Runes.sortEdicts r.edicts) := by
        cases hre : r.edicts with
        | nil => exact absurd hre hede
        | cons x xs => rfl
      have hinit1 : init = Runes.pairsFlat (Runes.fieldOpts r) ++
          1 :: (Runes.edictInts ⟨0, 0⟩ (Runes.sortEdicts r.edicts)).dropLast := by
        rw [hinitEq, hio, hbody]
        rw [List.dropLast_append_of_ne_nil _
          (by simp : (1 :: Runes.edictInts ⟨0, 0⟩ (Runes.sortEdicts r.edicts)) ≠ [])]
        congr 1
        cases hE : Runes.edictInts ⟨0, 0⟩ (Runes.sortEdicts r.edicts) with
        | nil => exact absurd hE hEne
        | cons x xs => rfl
      rw [hinit1]
      rw [parseInts_pairsFlat (Runes.fieldOpts r)
        (1 :: (Runes.edictInts ⟨0, 0⟩ (Runes.sortEdicts r.edicts)).dropLast)
        Runes.pstate0 (fun p hp => (fieldOpts_tags r p hp).1)]
      have hdlne : (Runes.edictInts ⟨0, 0⟩ (Runes.sortEdicts r.edicts)).dropLast ≠ [] := by
        intro hc
        have hlen2 := congrArg List.length hc
        rw [List.length_dropLast, edictInts_length] at hlen2
        have hpos : 0 < (Runes.sortEdicts r.edicts).length := List.length_pos.mpr hsne
        simp only [List.length_nil] at hlen2
        omega
      obtain ⟨v, vrest, hvr⟩ := List.exists_cons_of_ne_nil hdlne
      rw [hvr]
      show ∃ fs, Runes.assemble
          (Runes.parseEdicts (v :: vrest) ⟨0, 0⟩ (Runes.fieldState r)) =
          Runes.Artifact.cenotaph fs ∧
        (Runes.Flaw.truncated ∈ fs ∨ Runes.Flaw.truncatedEdict ∈ fs ∨
         Runes.Flaw.trailingTag ∈ fs)
      rw [← hvr]
      rw [parseEdicts_edictInts_dropLast (Runes.sortEdicts r.edicts) ⟨0, 0⟩
        (Runes.fieldState r) hsne (sortEdicts_chain r.edicts)
        (fun e hes => hw.1 e (sortEdicts_mem hes))]
      obtain ⟨hfl0, _⟩ := fieldState_facts r
      refine ⟨Runes.Flaw.truncatedEdict ::
        Runes.assembleFlaws (Runes.PState.addFlaw
          { Runes.fieldState r with edicts := (Runes.fieldState r).edicts ++
            (Runes.sortEdicts r.edicts).dropLast }
          Runes.Flaw.truncatedEdict).tagVals,
        ?_, Or.inr (Or.inl (List.mem_cons_self _ _))⟩
      unfold Runes.assemble
      have hsc : (Runes.PState.addFlaw
          { Runes.fieldState r with edicts := (Runes.fieldState r).edicts ++
            (Runes.sortEdicts r.edicts).dropLast }
          Runes.Flaw.truncatedEdict).flaws ++
          Runes.assembleFlaws (Runes.PState.addFlaw
            { Runes.fieldState r with edicts := (Runes.fieldState r).edicts ++
              (Runes.sortEdicts r.edicts).dropLast }
            Runes.Flaw.truncatedEdict).tagVals =
          Runes.Flaw.truncatedEdict ::
            Runes.assembleFlaws (Runes.PState.addFlaw
              { Runes.fieldState r with edicts := (Runes.fieldState r).edicts ++
                (Runes.sortEdicts r.edicts).dropLast }
              Runes.Flaw.truncatedEdict).tagVals := by
        show ((Runes.fieldState r).flaws ++ [Runes.Flaw.truncatedEdict]) ++ _ = _
        rw [hfl0]
        rfl
      rw [hsc]
  · push_neg at hn
    obtain ⟨henc, hdne, hhigh⟩ := varintEnc_dropLast_high hn
    have hdrop : (Runes.payload r).dropLast =
        Runes.bytesOfInts init ++ (Runes.varintEnc n).dropLast := by
      rw [hpay]
      exact List.dropLast_append_of_ne_nil _ (varintEnc_ne_nil n)
    rw [hdrop]
    unfold Runes.decodePayload Runes.decodeInts
    rw [decodeIntsGo_bytesOfInts init _ hinitb]
    rw [decodeIntsGo_allHigh _ hhigh hdne 0 1 (by omega)]
    exact ⟨[Runes.Flaw.truncated], rfl, Or.inl (List.mem_cons_self _ _)⟩

/-- C6 counterexample: the operation carrying only pointer 5 is
widths-wellformed and encodes to the two-byte payload [26, 5]; dropping the
last byte leaves the lone tag 26, and decoding classifies that as a
TrailingTag cenotaph, which is neither Truncated nor TruncatedEdict, so the
claimed two-flaw classification of the truncation boundary is incomplete. -/
theorem c6_counterexample :
    Runes.widthsWF (Runes.Runestone.mk [] none none (some 5)) ∧
    Runes.payload (Runes.Runestone.mk [] none none (some 5)) = [26, 5] ∧
    Runes.decodePayload
        ((Runes.payload (Runes.Runestone.mk [] none none (some 5))).dropLast) =
      Runes.Artifact.cenotaph [Runes.Flaw.trailingTag] ∧
    Runes.Flaw.trailingTag ∉ [Runes.Flaw.truncated, Runes.Flaw.truncatedEdict] := by
  refine ⟨⟨?_, ?_, ?_, ?_⟩, by decide, by decide, by decide⟩
  · intro e he
    exact absurd he (List.not_mem_nil e)
  · intro e he
    cases he
  · intro id hid
    cases hid
  · intro v hv
    injection hv with h1
    rw [← h1]
    decide

/-- Witness for C6: the pointer-only operation has a nonempty payload and
the amended truncation theorem applies to it, producing a flagged
cenotaph. -/
theorem c6_witness :
    Runes.widthsWF (Runes.Runestone.mk [] none none (some 5)) ∧
    Runes.payload (Runes.Runestone.mk [] none none (some 5)) ≠ [] ∧
    (∃ fs, Runes.decodePayload
        ((Runes.payload (Runes.Runestone.mk [] none none (some 5))).dropLast) =
        Runes.Artifact.cenotaph fs ∧
      (Runes.Flaw.truncated ∈ fs ∨ Runes.Flaw.truncatedEdict ∈ fs ∨
       Runes.Flaw.trailingTag ∈ fs)) := by
  have hw : Runes.widthsWF (Runes.Runestone.mk [] none none (some 5)) := by
    refine ⟨?_, ?_, ?_, ?_⟩
    · intro e he
      exact absurd he (List.not_mem_nil e)
    · intro e he
      cases he
    · intro id hid
      cases hid
    · intro v hv
      injection hv with h1
      rw [← h1]
      decide
  exact ⟨hw, by decide, c6_truncation_flagged _ hw (by decide)⟩

/-!
The spaced-name letter digits are a bijective base-26 numeration: the
digit list of a value decodes back to the value, and the digit list of a
decoded digit list is the original list.
-/

theorem letters_lt (n : Nat) : ∀ d ∈ letters n, d < 26 := by
  induction n using Nat.strong_induction_on with
  | _ n ih =>
    intro d hd
    rw [letters_eq] at hd
    by_cases hn : n < 26
    · rw [if_pos hn] at hd
      simp only [List.mem_singleton] at hd
      omega
    · rw [if_neg hn] at hd
      rcases List.mem_append.mp hd with h | h
      · have hlt : n / 26 - 1 < n := by
          have := Nat.div_lt_self (show 0 < n by omega) (show 1 < 26 by norm_num)
          omega
        exact ih (n / 26 - 1) hlt d h
      · simp only [List.mem_singleton] at h
        subst h
        exact Nat.mod_lt n (by norm_num)

theorem letters_ne_nil (n : Nat) : letters n ≠ [] := by
  rw [letters_eq]
  split <;> simp

theorem fromLetters_concat (L : List Nat) (d : Nat) (h : L ≠ []) :
    fromLetters (L ++ [d]) = (fromLetters L + 1) * 26 + d := by
  cases L with
  | nil => exact absurd rfl h
  | cons d0 ds =>
    show (ds ++ [d]).foldl (fun a e => (a + 1) * 26 + e) d0 = _
    rw [List.foldl_append]
    rfl

theorem fromLetters_letters (n : Nat) : fromLetters (letters n) = n := by
  induction n using Nat.strong_induction_on with
  | _ n ih =>
    rw [letters_eq]
    by_cases hn : n < 26
    · rw [if_pos hn]
      rfl
    · rw [if_neg hn]
      have hlt : n / 26 - 1 < n := by
        have := Nat.div_lt_self (show 0 < n by omega) (show 1 < 26 by norm_num)
        omega
      rw [fromLetters_concat _ _ (letters_ne_nil _), ih (n / 26 - 1) hlt]
      have hdiv : 1 ≤ n / 26 := (Nat.one_le_div_iff (by norm_num)).mpr (by omega)
      have hmd := Nat.mod_add_div n 26
      omega

theorem letters_fromLetters : ∀ (F : List Nat), F ≠ [] → (∀ d ∈ F, d < 26) →
    letters (fromLetters F) = F := by
  intro F
  induction F using List.reverseRecOn with
  | nil => intro h; exact absurd rfl h
  | append_singleton L d ihL =>
    intro _ hd
    have hdlt : d < 26 := hd d (List.mem_append_right L (List.mem_singleton_self d))
    by_cases hL : L = []
    · subst hL
      show letters (fromLetters [d]) = [d]
      show letters d = [d]
      rw [letters_eq, if_pos hdlt]
    · have hLne : L ≠ [] := hL
      rw [fromLetters_concat L d hLne]
      have hge : ¬((fromLetters L + 1) * 26 + d < 26) := by
        have : 26 ≤ (fromLetters L + 1) * 26 := by omega
        omega
      rw [letters_eq, if_neg hge]
      have hmod : ((fromLetters L + 1) * 26 + d) % 26 = d := by omega
      have hquot : ((fromLetters L + 1) * 26 + d) / 26 - 1 = fromLetters L := by omega
      rw [hmod, hquot, ihL hLne (fun x hx => hd x (List.mem_append_left _ hx))]

/-!
Parsing the printed form of a spaced name: one lemma per character kind,
then the full print/parse round trip by induction over the letter list.
-/

theorem srParse_letter (d : Nat) (hd : d < 26) (rest : List Char)
    (k acc sp : Nat) (lastSp : Bool) :
    srParse (Char.ofNat (65 + d) :: rest) k acc sp lastSp =
      srParse rest (k + 1) (if k = 0 then d else (acc + 1) * 26 + d) sp false := by
  have hA : 'A' ≤ Char.ofNat (65 + d) ∧ Char.ofNat (65 + d) ≤ 'Z' := by
    interval_cases d <;> exact ⟨by decide, by decide⟩
  have htn : (Char.ofNat (65 + d)).toNat - 65 = d := by
    interval_cases d <;> decide
  simp only [srParse]
  rw [if_pos hA, htn]

theorem srParse_sep (rest : List Char) (k acc sp : Nat) (hk : k ≠ 0) :
    srParse ('•' :: rest) k acc sp false =
      srParse rest k acc (sp + 2 ^ (k - 1)) true := by
  simp only [srParse]
  rw [if_neg (by decide), if_pos (Or.inl trivial), if_neg (by simp [hk])]

theorem mod_two_pow_succ (x m : Nat) :
    x % 2 ^ (m + 1) = x % 2 + 2 * (x / 2 % 2 ^ m) := by
  have hpos : 0 < 2 ^ m := by positivity
  have h1 : (2 * (x / 2) + x % 2) % (2 * 2 ^ m) = 2 * (x / 2 % 2 ^ m) + x % 2 := by
    rw [Nat.add_mod, Nat.mul_mod_mul_left]
    have h2 : x % 2 < 2 := Nat.mod_lt x (by norm_num)
    have h3 : x / 2 % 2 ^ m < 2 ^ m := Nat.mod_lt _ hpos
    have h4 : (x % 2) % (2 * 2 ^ m) = x % 2 := Nat.mod_eq_of_lt (by omega)
    rw [h4]
    exact Nat.mod_eq_of_lt (by omega)
  have hd : 2 * (x / 2) + x % 2 = x := by
    have := Nat.div_add_mod x 2
    omega
  have hpow : (2 : Nat) ^ (m + 1) = 2 * 2 ^ m := by
    rw [pow_succ]
    omega
  calc x % 2 ^ (m + 1) = (2 * (x / 2) + x % 2) % (2 * 2 ^ m) := by rw [hd, hpow]
    _ = 2 * (x / 2 % 2 ^ m) + x % 2 := h1
    _ = x % 2 + 2 * (x / 2 % 2 ^ m) := by omega

theorem srParse_spacedChars :
    ∀ (ds : List Nat) (d : Nat) (sp i acc spacc : Nat) (lastSp : Bool),
      d < 26 → (∀ x ∈ ds, x < 26) →
      srParse (spacedChars (d :: ds) sp i) i acc spacc lastSp =
        (if ds.foldl (fun a e => (a + 1) * 26 + e)
            (if i = 0 then d else (acc + 1) * 26 + d) < U128 then
          some ⟨ds.foldl (fun a e => (a + 1) * 26 + e)
            (if i = 0 then d else (acc + 1) * 26 + d),
            spacc + ((sp / 2 ^ i) % 2 ^ ds.length) * 2 ^ i⟩
        else none) := by
  intro ds
  induction ds with
  | nil =>
    intro d sp i acc spacc lastSp hd _
    show srParse [Char.ofNat (65 + d)] i acc spacc lastSp = _
    rw [srParse_letter d hd [] i acc spacc lastSp]
    simp only [srParse]
    rw [if_neg (by simp)]
    simp only [List.foldl_nil, List.length_nil, pow_zero, Nat.mod_one,
      Nat.zero_mul, Nat.add_zero]
  | cons e rest ih =>
    intro d sp i acc spacc lastSp hd hds
    have he : e < 26 := hds e (List.mem_cons_self e rest)
    have hrest : ∀ x ∈ rest, x < 26 := fun x hx => hds x (List.mem_cons_of_mem e hx)
    show srParse (Char.ofNat (65 + d) ::
      ((if sp / 2 ^ i % 2 = 1 then ['•'] else []) ++ spacedChars (e :: rest) sp (i + 1)))
      i acc spacc lastSp = _
    rw [srParse_letter d hd _ i acc spacc lastSp]
    by_cases hbit : sp / 2 ^ i % 2 = 1
    · rw [if_pos hbit]
      show srParse ('•' :: spacedChars (e :: rest) sp (i + 1)) (i + 1)
        (if i = 0 then d else (acc + 1) * 26 + d) spacc false = _
      rw [srParse_sep _ _ _ _ (by omega)]
      simp only [Nat.add_sub_cancel]
      rw [ih e sp (i + 1) (if i = 0 then d else (acc + 1) * 26 + d)
        (spacc + 2 ^ i) true he hrest]
      rw [if_neg (by omega : ¬i + 1 = 0)]
      simp only [List.foldl_cons, List.length_cons]
      have hsp : spacc + 2 ^ i + sp / 2 ^ (i + 1) % 2 ^ rest.length * 2 ^ (i + 1) =
          spacc + sp / 2 ^ i % 2 ^ (rest.length + 1) * 2 ^ i := by
        have hdd : sp / 2 ^ i / 2 = sp / 2 ^ (i + 1) := by
          rw [Nat.div_div_eq_div_mul, pow_succ]
        have hms := mod_two_pow_succ (sp / 2 ^ i) rest.length
        rw [hdd] at hms
        have hpow : (2 : Nat) ^ (i + 1) = 2 ^ i * 2 := pow_succ 2 i
        rw [hms, hbit, hpow]
        ring
      rw [hsp]
    · rw [if_neg hbit]
      show srParse (spacedChars (e :: rest) sp (i + 1)) (i + 1)
        (if i = 0 then d else (acc + 1) * 26 + d) spacc false = _
      rw [ih e sp (i + 1) (if i = 0 then d else (acc + 1) * 26 + d)
        spacc false he hrest]
      rw [if_neg (by omega : ¬i + 1 = 0)]
      simp only [List.foldl_cons, List.length_cons]
      have hbit0 : sp / 2 ^ i % 2 = 0 := by omega
      have hsp : spacc + sp / 2 ^ (i + 1) % 2 ^ rest.length * 2 ^ (i + 1) =
          spacc + sp / 2 ^ i % 2 ^ (rest.length + 1) * 2 ^ i := by
        have hdd : sp / 2 ^ i / 2 = sp / 2 ^ (i + 1) := by
          rw [Nat.div_div_eq_div_mul, pow_succ]
        have hms := mod_two_pow_succ (sp / 2 ^ i) rest.length
        rw [hdd] at hms
        have hpow : (2 : Nat) ^ (i + 1) = 2 ^ i * 2 := pow_succ 2 i
        rw [hms, hbit0, hpow]
        ring
      rw [hsp]

theorem srParse_digits : ∀ (cs : List Char) (k acc sp : Nat) (lastSp : Bool)
    (D : List Nat) (sr : SpacedRune),
    (∀ d ∈ D, d < 26) → D.length = k →
    (k = 0 → acc = 0 ∧ D = []) →
    (1 ≤ k → acc = fromLetters D) →
    (lastSp = true → 1 ≤ k ∧ sp < 2 ^ k) →
    (lastSp = false → (k = 0 ∧ sp = 0) ∨ (1 ≤ k ∧ sp < 2 ^ (k - 1))) →
    srParse cs k acc sp lastSp = some sr →
    ∃ F : List Nat, (∀ d ∈ F, d < 26) ∧ F ≠ [] ∧
      sr.rune = fromLetters F ∧ sr.spacers < 2 ^ (F.length - 1) := by
  intro cs
  induction cs with
  | nil =>
    intro k acc sp lastSp D sr hDd hDk h0 h1 ht hf h
    simp only [srParse] at h
    by_cases hg : k = 0 ∨ lastSp = true
    · rw [if_pos (by rcases hg with hg | hg; exact Or.inl hg; exact Or.inr (by simp [hg]))] at h
      cases h
    · push_neg at hg
      rw [if_neg (by simp [hg.1, hg.2])] at h
      by_cases ha : acc < U128
      · rw [if_pos ha] at h
        injection h with hsr
        refine ⟨D, hDd, ?_, ?_, ?_⟩
        · intro hc
          apply hg.1
          rw [← hDk, hc]
          rfl
        · rw [← hsr]
          exact (h1 (by omega)).symm ▸ rfl
        · rw [← hsr]
          show sp < 2 ^ (D.length - 1)
          rw [hDk]
          rcases hf (by simpa using hg.2) with ⟨hk0, _⟩ | ⟨_, hsp⟩
          · exact absurd hk0 hg.1
          · exact hsp
      · rw [if_neg ha] at h
        cases h
  | cons c rest ih =>
    intro k acc sp lastSp D sr hDd hDk h0 h1 ht hf h
    simp only [srParse] at h
    by_cases hA : 'A' ≤ c ∧ c ≤ 'Z'
    · rw [if_pos hA] at h
      have hcb : 65 ≤ c.toNat ∧ c.toNat ≤ 90 := by
        obtain ⟨hA1, hA2⟩ := hA
        rw [Char.le_def, UInt32.le_def] at hA1 hA2
        exact ⟨BitVec.le_def.mp hA1, BitVec.le_def.mp hA2⟩
      have hdlt : c.toNat - 65 < 26 := by omega
      refine ih (k + 1) _ sp false (D ++ [c.toNat - 65]) sr ?_ ?_ ?_ ?_
        (by intro hc; cases hc) ?_ h
      · intro x hx
        rcases List.mem_append.mp hx with hx | hx
        · exact hDd x hx
        · simp only [List.mem_singleton] at hx
          omega
      · simp [hDk]
      · intro hc
        omega
      · intro _
        by_cases hk : k = 0
        · rw [if_pos hk]
          rw [(h0 hk).2]
          rfl
        · rw [if_neg hk]
          rw [h1 (by omega)]
          have hDne : D ≠ [] := by
            intro hc
            apply hk
            rw [← hDk, hc]
            rfl
          exact (fromLetters_concat D _ hDne).symm
      · intro _
        right
        refine ⟨by omega, ?_⟩
        simp only [Nat.add_sub_cancel]
        cases lastSp with
        | false =>
          rcases hf rfl with ⟨_, hsp⟩ | ⟨hk1, hsp⟩
          · subst hsp
            positivity
          · have hle : (2 : Nat) ^ (k - 1) ≤ 2 ^ k :=
              Nat.pow_le_pow_right (by norm_num) (by omega)
            omega
        | true => exact (ht rfl).2
    · rw [if_neg hA] at h
      by_cases hS : c = '•' ∨ c = '.'
      · rw [if_pos hS] at h
        by_cases hg : k = 0 ∨ lastSp = true
        · rw [if_pos (by rcases hg with hg | hg; exact Or.inl hg; exact Or.inr (by simp [hg]))] at h
          cases h
        · push_neg at hg
          rw [if_neg (by simp [hg.1, hg.2])] at h
          refine ih k acc _ true D sr hDd hDk h0 h1 ?_ (by intro hc; cases hc) h
          intro _
          refine ⟨by omega, ?_⟩
          rcases hf (by simpa using hg.2) with ⟨hk0, _⟩ | ⟨hk1, hsp⟩
          · exact absurd hk0 hg.1
          · have he2 : (2 : Nat) ^ k = 2 ^ (k - 1) * 2 := by
              rw [← pow_succ]
              congr 1
              omega
            omega
      · rw [if_neg hS] at h
        cases h

theorem srFromStr_srToString (s : String) (sr : SpacedRune)
    (h : srFromStr s = some sr) : srFromStr (srToString sr) = some sr := by
  have hrb := (srFromStr_bounds h).1
  obtain ⟨F, hFd, hFne, hrune, hsp⟩ := srParse_digits s.data 0 0 0 false [] sr
    (by intro d hd; cases hd) rfl (fun _ => ⟨rfl, rfl⟩)
    (fun h1 => absurd h1 (by decide)) (fun hc => absurd hc (by decide))
    (fun _ => Or.inl ⟨rfl, rfl⟩) h
  have hletters : letters sr.rune = F := by
    rw [hrune]
    exact letters_fromLetters F hFne hFd
  obtain ⟨d, ds, hF⟩ := List.exists_cons_of_ne_nil hFne
  unfold srFromStr srToString
  rw [hletters, hF]
  show srParse (spacedChars (d :: ds) sr.spacers 0) 0 0 0 false = some sr
  rw [srParse_spacedChars ds d sr.spacers 0 0 0 false
    (hFd d (by rw [hF]; exact List.mem_cons_self d ds))
    (fun x hx => hFd x (by rw [hF]; exact List.mem_cons_of_mem d hx))]
  have haccF : ds.foldl (fun a e => (a + 1) * 26 + e)
      (if (0 : Nat) = 0 then d else (0 + 1) * 26 + d) = sr.rune := by
    rw [if_pos rfl, hrune, hF]
    rfl
  rw [haccF]
  rw [if_pos hrb]
  have hspv : (0 : Nat) + ((sr.spacers / 2 ^ 0) % 2 ^ ds.length) * 2 ^ 0 =
      sr.spacers := by
    have hlen : ds.length = F.length - 1 := by rw [hF]; rfl
    rw [hlen]
    simp only [pow_zero, Nat.div_one, Nat.mul_one, Nat.zero_add]
    exact Nat.mod_eq_of_lt hsp
  rw [hspv]

/-!
Inverse conversions: converting an internal value out to the public types
and back in is the identity when the internal value lies within the Data
Model widths (as every decoded value does).
-/

theorem parseRuneId_formatRuneId (i : Runes.RuneId)
    (hb : i.block < U64) (ht : i.tx < U32) :
    parseRuneId (formatRuneId i) = some i := by
  unfold formatRuneId parseRuneId
  have hdata : (natToString i.block ++ ":" ++ natToString i.tx).data =
      (natToString i.block).data ++ ':' :: (natToString i.tx).data := by
    rw [String.data_append, String.data_append]
    simp
  rw [hdata, splitColon_append (natToString i.tx).data (natToString i.block).data
      (natToString_no_colon i.block)]
  simp only [parseNatChars_natToString]
  rw [if_pos ⟨hb, ht⟩]

theorem edictToRunes_edictOfRunes (r : Runes.Edict)
    (hb : r.id.block < U64) (ht : r.id.tx < U32) (ha : r.amount < U128) :
    Bridge.edictToRunes (Bridge.edictOfRunes r) = some r := by
  unfold Bridge.edictToRunes Bridge.edictOfRunes
  simp only [parseRuneId_formatRuneId r.id hb ht]
  rw [getU128_eq r.amount ha]

theorem edictsToRunes_map_edictOfRunes (es : List Runes.Edict)
    (h : ∀ r ∈ es, r.id.block < U64 ∧ r.id.tx < U32 ∧ r.amount < U128) :
    Bridge.edictsToRunes (es.map Bridge.edictOfRunes) = some es := by
  induction es with
  | nil => rfl
  | cons r rest ih =>
    obtain ⟨hb, ht, ha⟩ := h r (List.mem_cons_self r rest)
    show Bridge.edictsToRunes (Bridge.edictOfRunes r :: rest.map Bridge.edictOfRunes) =
      some (r :: rest)
    unfold Bridge.edictsToRunes
    rw [edictToRunes_edictOfRunes r hb ht ha]
    simp only
    rw [ih (fun x hx => h x (List.mem_cons_of_mem r hx))]

theorem termsToRunes_termsOfRunes (t : Runes.Terms)
    (ha : optLt t.amount U128) (hc : optLt t.cap U128)
    (hh1 : optLt t.height.1 U64) (hh2 : optLt t.height.2 U64)
    (ho1 : optLt t.offset.1 U64) (ho2 : optLt t.offset.2 U64) :
    Bridge.termsToRunes (Bridge.termsOfRunes t) = t := by
  unfold Bridge.termsToRunes Bridge.termsOfRunes Bridge.rangeToRunes Bridge.rangeOfRunes
  simp only
  rw [optMap_u128_id t.amount ha, optMap_u128_id t.cap hc,
    optMap_u64_id t.height.1 hh1, optMap_u64_id t.height.2 hh2,
    optMap_u64_id t.offset.1 ho1, optMap_u64_id t.offset.2 ho2]

theorem etchingToRunes_etchingOfRunes (e : Runes.Etching) (sr : SpacedRune)
    (s0 : String) (hsr0 : srFromStr s0 = some sr)
    (hrune : e.rune = some sr.rune) (hspac : e.spacers = some sr.spacers)
    (hpre : optLt e.premine U128)
    (hterms : ∀ t, e.terms = some t → optLt t.amount U128 ∧ optLt t.cap U128 ∧
      optLt t.height.1 U64 ∧ optLt t.height.2 U64 ∧
      optLt t.offset.1 U64 ∧ optLt t.offset.2 U64) :
    Bridge.etchingToRunes (Bridge.etchingOfRunes e) = some e := by
  have hrs : (Bridge.etchingOfRunes e).rune = srToString sr := by
    show (match e.rune with
      | some v => srToString ⟨v, e.spacers.getD 0⟩
      | none => "") = srToString sr
    rw [hrune, hspac]
    rfl
  unfold Bridge.etchingToRunes
  rw [hrs]
  simp only [srFromStr_srToString s0 sr hsr0]
  have hXp : (Bridge.etchingOfRunes e).premine = e.premine := rfl
  have hXd : (Bridge.etchingOfRunes e).divisibility = e.divisibility := rfl
  have hXu : (Bridge.etchingOfRunes e).turbo = e.turbo := rfl
  have hXt : (Bridge.etchingOfRunes e).terms = e.terms.map Bridge.termsOfRunes := rfl
  have hprem : e.premine.map (fun v => (getU128 v).2.1) = e.premine :=
    optMap_u128_id _ hpre
  have hsym : (Bridge.etchingOfRunes e).symbol.data.head? = e.symbol := by
    have hXs : (Bridge.etchingOfRunes e).symbol = (match e.symbol with
      | some c => String.mk [c]
      | none => "") := rfl
    rw [hXs]
    cases e.symbol with
    | none => rfl
    | some c => rfl
  have hterms2 : (e.terms.map Bridge.termsOfRunes).map Bridge.termsToRunes = e.terms := by
    cases he : e.terms with
    | none => rfl
    | some t =>
      obtain ⟨ha, hc, h1, h2, h3, h4⟩ := hterms t he
      simp only [Option.map_some']
      rw [termsToRunes_termsOfRunes t ha hc h1 h2 h3 h4]
  rw [hXp, hXd, hXu, hXt, hprem, hsym, hterms2, ← hrune, ← hspac]

theorem runestoneToRunes_runestoneOfRunes (S : Runes.Runestone)
    (hed : ∀ r ∈ S.edicts, r.id.block < U64 ∧ r.id.tx < U32 ∧ r.amount < U128)
    (hmint : ∀ id, S.mint = some id → id.block < U64 ∧ id.tx < U32)
    (hetch : ∀ e, S.etching = some e → ∃ sr s0, srFromStr s0 = some sr ∧
      e.rune = some sr.rune ∧ e.spacers = some sr.spacers ∧
      optLt e.premine U128 ∧
      (∀ t, e.terms = some t → optLt t.amount U128 ∧ optLt t.cap U128 ∧
        optLt t.height.1 U64 ∧ optLt t.height.2 U64 ∧
        optLt t.offset.1 U64 ∧ optLt t.offset.2 U64)) :
    Bridge.runestoneToRunes (Bridge.runestoneOfRunes S) = some S := by
  have hm : (match S.mint.map formatRuneId with
      | none => some none
      | some s => (parseRuneId s).map some) = some S.mint := by
    cases hms : S.mint with
    | none => rfl
    | some id =>
      obtain ⟨hb, ht⟩ := hmint id hms
      simp only [Option.map_some']
      rw [parseRuneId_formatRuneId id hb ht]
      rfl
  have hE : Bridge.edictsToRunes (S.edicts.map Bridge.edictOfRunes) = some S.edicts :=
    edictsToRunes_map_edictOfRunes S.edicts hed
  have hEt : (match S.etching.map Bridge.etchingOfRunes with
      | none => some none
      | some e => (Bridge.etchingToRunes e).map some) = some S.etching := by
    cases hes : S.etching with
    | none => rfl
    | some e =>
      obtain ⟨sr, s0, hs0, hr, hsp, hpre, hterms⟩ := hetch e hes
      simp only [Option.map_some']
      rw [etchingToRunes_etchingOfRunes e sr s0 hs0 hr hsp hpre hterms]
      rfl
  unfold Bridge.runestoneToRunes Bridge.runestoneOfRunes
  simp only [hm, hE, hEt]

/-!
The decode normal form serializes to the same bytes as the original
operation: degenerate terms contribute no integers and the encoder-side
sort is idempotent.
-/

theorem opt_none_of_isSome_false {o : Option Nat} (h : o.isSome = false) : o = none := by
  cases o with
  | none => rfl
  | some v => cases h

theorem termsInts_all_none (t : Runes.Terms)
    (h : ¬(t.amount.isSome || t.cap.isSome || t.height.1.isSome || t.height.2.isSome ||
       t.offset.1.isSome || t.offset.2.isSome) = true) :
    Runes.termsInts t = [] := by
  simp only [Bool.or_eq_true, not_or, Bool.not_eq_true] at h
  obtain ⟨⟨⟨⟨⟨h1, h2⟩, h3⟩, h4⟩, h5⟩, h6⟩ := h
  unfold Runes.termsInts
  rw [opt_none_of_isSome_false h1, opt_none_of_isSome_false h2,
    opt_none_of_isSome_false h3, opt_none_of_isSome_false h4,
    opt_none_of_isSome_false h5, opt_none_of_isSome_false h6]
  rfl

theorem etchingInts_normTerms (e : Runes.Etching) :
    Runes.etchingInts { e with terms := Runes.normTerms e.terms } =
      Runes.etchingInts e := by
  have hterms : (match Runes.normTerms e.terms with
      | some t => Runes.termsInts t
      | none => []) = (match e.terms with
      | some t => Runes.termsInts t
      | none => []) := by
    cases ht : e.terms with
    | none => rfl
    | some t =>
      simp only [Runes.normTerms]
      by_cases hp : (t.amount.isSome || t.cap.isSome || t.height.1.isSome ||
          t.height.2.isSome || t.offset.1.isSome || t.offset.2.isSome) = true
      · rw [if_pos hp]
      · rw [if_neg hp]
        show ([] : List Nat) = Runes.termsInts t
        rw [termsInts_all_none t hp]
  unfold Runes.etchingInts
  simp only
  rw [hterms]

theorem bodyInts_sortEdicts (es : List Runes.Edict) :
    Runes.bodyInts (Runes.sortEdicts es) = Runes.bodyInts es := by
  cases hse : es with
  | nil => rfl
  | cons x xs =>
    have hne : Runes.sortEdicts (x :: xs) ≠ [] := sortEdicts_ne_nil (by simp)
    obtain ⟨y, ys, hys⟩ := List.exists_cons_of_ne_nil hne
    have hidem : Runes.sortEdicts (Runes.sortEdicts (x :: xs)) =
        Runes.sortEdicts (x :: xs) :=
      sortEdicts_sorted_eq (Runes.sortEdicts (x :: xs)) ⟨0, 0⟩
        (sortEdicts_chain (x :: xs))
    show Runes.bodyInts (Runes.sortEdicts (x :: xs)) = Runes.bodyInts (x :: xs)
    unfold Runes.bodyInts
    rw [hys]
    simp only
    rw [← hys, hidem]

theorem payload_decNormal (R : Runes.Runestone) :
    Runes.payload (Runes.decNormal R) = Runes.payload R := by
  unfold Runes.payload
  congr 1
  unfold Runes.intsOf Runes.decNormal
  simp only
  have hetch : (match R.etching.map (fun e =>
        { e with terms := Runes.normTerms e.terms }) with
      | some e => Runes.etchingInts e
      | none => []) = (match R.etching with
      | some e => Runes.etchingInts e
      | none => []) := by
    cases he : R.etching with
    | none => rfl
    | some e =>
      simp only [Option.map_some']
      exact etchingInts_normTerms e
  rw [hetch, bodyInts_sortEdicts]

/-!
Every conversion image satisfies the Data Model widths: the parsers bound
the identifiers, the BigInt accessors truncate to the declared widths, and
the name parser bounds the name value and the spacer bitmask.
-/

theorem edictsToRunes_facts : ∀ (es : List Bridge.Edict) (rs : List Runes.Edict),
    Bridge.edictsToRunes es = some rs → (∀ e ∈ es, e.output < U32) →
    rs.length = es.length ∧
    ∀ r ∈ rs, r.id.block < U64 ∧ r.id.tx < U32 ∧ r.amount < U128 ∧ r.output < U32 := by
  intro es
  induction es with
  | nil =>
    intro rs h _
    injection h with h1
    rw [← h1]
    exact ⟨rfl, by intro r hr; cases hr⟩
  | cons e rest ih =>
    intro rs h hout
    unfold Bridge.edictsToRunes at h
    cases he : Bridge.edictToRunes e with
    | none =>
      rw [he] at h
      cases h
    | some oe =>
      rw [he] at h
      simp only at h
      cases hr : Bridge.edictsToRunes rest with
      | none =>
        rw [hr] at h
        cases h
      | some os =>
        rw [hr] at h
        simp only at h
        injection h with h1
        obtain ⟨hlen, hfacts⟩ := ih os hr (fun x hx => hout x (List.mem_cons_of_mem e hx))
        have hoe : oe.id.block < U64 ∧ oe.id.tx < U32 ∧ oe.amount < U128 ∧
            oe.output < U32 := by
          unfold Bridge.edictToRunes at he
          cases hp : parseRuneId e.id with
          | none =>
            rw [hp] at he
            cases he
          | some id =>
            rw [hp] at he
            simp only at he
            injection he with h2
            obtain ⟨hb, ht⟩ := parseRuneId_bounds hp
            rw [← h2]
            exact ⟨hb, ht, getU128_lt e.amount,
              hout e (List.mem_cons_self e rest)⟩
        rw [← h1]
        refine ⟨by simp [hlen], ?_⟩
        intro r hrm
        rcases List.mem_cons.mp hrm with h2 | h2
        · rw [h2]
          exact hoe
        · exact hfacts r h2

theorem runestoneToRunes_image (op : Bridge.Runestone) (R : Runes.Runestone)
    (h : Bridge.runestoneToRunes op = some R)
    (hout : ∀ e ∈ op.edicts, e.output < U32)
    (hptr : optLt op.pointer U32)
    (hdivb : ∀ e g, op.etching = some e → e.divisibility = some g → g < U128) :
    Runes.widthsWF R ∧
    (∀ e, R.etching = some e → e.rune.isSome) ∧
    R.edicts.length = op.edicts.length ∧
    (∀ r ∈ R.edicts, r.id.block < U64 ∧ r.id.tx < U32 ∧ r.amount < U128) ∧
    (∀ id, R.mint = some id → id.block < U64 ∧ id.tx < U32) ∧
    (∀ e, R.etching = some e → ∃ sr s0, srFromStr s0 = some sr ∧
      e.rune = some sr.rune ∧ e.spacers = some sr.spacers ∧
      optLt e.premine U128 ∧
      (∀ t, e.terms = some t → optLt t.amount U128 ∧ optLt t.cap U128 ∧
        optLt t.height.1 U64 ∧ optLt t.height.2 U64 ∧
        optLt t.offset.1 U64 ∧ optLt t.offset.2 U64)) := by
  unfold Bridge.runestoneToRunes at h
  cases hm : (match op.mint with
      | none => some (none : Option Runes.RuneId)
      | some s => (parseRuneId s).map some) with
  | none =>
    rw [hm] at h
    cases h
  | some mo =>
    rw [hm] at h
    simp only at h
    cases hre : Bridge.edictsToRunes op.edicts with
    | none =>
      rw [hre] at h
      cases h
    | some rs =>
      rw [hre] at h
      simp only at h
      cases het : (match op.etching with
          | none => some (none : Option Runes.Etching)
          | some e => (Bridge.etchingToRunes e).map some) with
      | none =>
        rw [het] at h
        cases h
      | some eo =>
        rw [het] at h
        simp only at h
        injection h with h1
        obtain ⟨hlen, hedf⟩ := edictsToRunes_facts op.edicts rs hre hout
        have hmo : ∀ id, mo = some id → id.block < U64 ∧ id.tx < U32 := by
          intro id hid
          cases hms : op.mint with
          | none =>
            simp only [hms] at hm
            injection hm with h2
            rw [← h2] at hid
            cases hid
          | some s =>
            simp only [hms] at hm
            cases hp : parseRuneId s with
            | none =>
              rw [hp] at hm
              cases hm
            | some rid =>
              rw [hp] at hm
              simp only [Option.map_some'] at hm
              injection hm with h2
              rw [← h2] at hid
              injection hid with h3
              rw [← h3]
              exact parseRuneId_bounds hp
        have heo : ∀ e, eo = some e →
            (Runes.etchingWF e ∧ e.rune.isSome) ∧
            ∃ sr s0, srFromStr s0 = some sr ∧
              e.rune = some sr.rune ∧ e.spacers = some sr.spacers ∧
              optLt e.premine U128 ∧
              (∀ t, e.terms = some t → optLt t.amount U128 ∧ optLt t.cap U128 ∧
                optLt t.height.1 U64 ∧ optLt t.height.2 U64 ∧
                optLt t.offset.1 U64 ∧ optLt t.offset.2 U64) := by
          intro e hee
          cases hes : op.etching with
          | none =>
            simp only [hes] at het
            injection het with h2
            rw [← h2] at hee
            cases hee
          | some pe =>
            simp only [hes] at het
            cases hconv : Bridge.etchingToRunes pe with
            | none =>
              rw [hconv] at het
              cases het
            | some re =>
              rw [hconv] at het
              simp only [Option.map_some'] at het
              injection het with h2
              rw [← h2] at hee
              injection hee with h3
              unfold Bridge.etchingToRunes at hconv
              cases hsr : srFromStr pe.rune with
              | none =>
                rw [hsr] at hconv
                cases hconv
              | some sr =>
                rw [hsr] at hconv
                simp only at hconv
                injection hconv with h4
                rw [← h3, ← h4]
                have htb : ∀ t, (pe.terms.map Bridge.termsToRunes) = some t →
                    optLt t.amount U128 ∧ optLt t.cap U128 ∧
                    optLt t.height.1 U64 ∧ optLt t.height.2 U64 ∧
                    optLt t.offset.1 U64 ∧ optLt t.offset.2 U64 := by
                  intro t htm
                  rcases Option.map_eq_some'.mp htm with ⟨t0, _, hconv2⟩
                  rw [← hconv2]
                  exact termsToRunes_bounds t0
                refine ⟨⟨⟨?_, ?_, ?_, ?_, ?_⟩, rfl⟩, sr, pe.rune, hsr, rfl, rfl,
                  optLt_map_u128 pe.premine, htb⟩
                · intro g hg
                  exact hdivb pe g hes hg
                · exact optLt_map_u128 pe.premine
                · intro v hv
                  injection hv with h5
                  rw [← h5]
                  exact (srFromStr_bounds hsr).1
                · intro v hv
                  injection hv with h5
                  rw [← h5]
                  exact (srFromStr_bounds hsr).2
                · exact htb
        rw [← h1]
        refine ⟨⟨?_, ?_, hmo, hptr⟩, ?_, hlen, ?_, hmo, ?_⟩
        · intro r hr
          obtain ⟨hb, ht, ha, ho⟩ := hedf r hr
          exact ⟨hb, ht, ha, ho⟩
        · intro e hee
          exact ((heo e hee).1).1
        · intro e hee
          exact ((heo e hee).1).2
        · intro r hr
          obtain ⟨hb, ht, ha, _⟩ := hedf r hr
          exact ⟨hb, ht, ha⟩
        · intro e hee
          exact (heo e hee).2

theorem normTerms_eq_some {x : Option Runes.Terms} {t : Runes.Terms}
    (h : Runes.normTerms x = some t) : x = some t := by
  cases x with
  | none => cases h
  | some t0 =>
    simp only [Runes.normTerms] at h
    by_cases hc : (t0.amount.isSome || t0.cap.isSome || t0.height.1.isSome ||
        t0.height.2.isSome || t0.offset.1.isSome || t0.offset.2.isSome) = true
    · rw [if_pos hc] at h
      exact h
    · rw [if_neg hc] at h
      cases h

/-- C5: whenever enciphering an operation succeeds and deciphering the
resulting transaction yields an operation again, re-enciphering that
decoded operation reproduces the identical bytes.  The hypotheses record
the 32-bit/8-bit types of the public output, pointer and divisibility
fields and the 32-bit edict count the codec carries. -/
theorem c5_reencode_identical (op : Bridge.Runestone) (bytes : List Nat)
    (op' : Bridge.Runestone)
    (hout : ∀ e ∈ op.edicts, e.output < U32)
    (hptr : optLt op.pointer U32)
    (hdivb : ∀ e g, op.etching = some e → e.divisibility = some g → g < U128)
    (hn : op.edicts.length < U32)
    (henc : Bridge.encipher op = some bytes)
    (hdec : Bridge.decipher (buildTransaction bytes) = some op') :
    Bridge.encipher op' = some bytes := by
  unfold Bridge.encipher at henc
  cases hR : Bridge.runestoneToRunes op with
  | none =>
    rw [hR] at henc
    cases henc
  | some R =>
    rw [hR] at henc
    simp only at henc
    injection henc with hbytes
    obtain ⟨hw, hrune, hlen, hedf, hmintf, hetchf⟩ :=
      runestoneToRunes_image op R hR hout hptr hdivb
    have hsl : (Runes.encipherScript R).length < U64 :=
      encipherScript_length_lt R hw (by rw [hlen]; exact hn)
    rw [← hbytes] at hdec
    rw [decipher_build R hsl] at hdec
    cases hX : Runes.decodePayload (Runes.payload R) with
    | cenotaph fs =>
      rw [hX] at hdec
      cases hdec
    | runestone X =>
      rw [hX] at hdec
      simp only at hdec
      injection hdec with hop'
      have hXd : X = Runes.decNormal R := decodePayload_runestone_inv R hw hrune X hX
      rw [← hop', hXd]
      have hedS : ∀ r ∈ (Runes.decNormal R).edicts,
          r.id.block < U64 ∧ r.id.tx < U32 ∧ r.amount < U128 := by
        intro r hr
        have hre : (Runes.decNormal R).edicts = Runes.sortEdicts R.edicts := rfl
        rw [hre] at hr
        exact hedf r (sortEdicts_mem hr)
      have hmintS : ∀ id, (Runes.decNormal R).mint = some id →
          id.block < U64 ∧ id.tx < U32 := by
        intro id hid
        exact hmintf id hid
      have hetchS : ∀ e, (Runes.decNormal R).etching = some e →
          ∃ sr s0, srFromStr s0 = some sr ∧
            e.rune = some sr.rune ∧ e.spacers = some sr.spacers ∧
            optLt e.premine U128 ∧
            (∀ t, e.terms = some t → optLt t.amount U128 ∧ optLt t.cap U128 ∧
              optLt t.height.1 U64 ∧ optLt t.height.2 U64 ∧
              optLt t.offset.1 U64 ∧ optLt t.offset.2 U64) := by
        intro e hee
        have hre : (Runes.decNormal R).etching =
            R.etching.map (fun e0 => { e0 with terms := Runes.normTerms e0.terms }) := rfl
        rw [hre] at hee
        rcases Option.map_eq_some'.mp hee with ⟨e0, he0, hconv⟩
        obtain ⟨sr, s0, hs0, hr0, hsp0, hpre0, ht0⟩ := hetchf e0 he0
        refine ⟨sr, s0, hs0, ?_, ?_, ?_, ?_⟩
        · rw [← hconv]
          exact hr0
        · rw [← hconv]
          exact hsp0
        · rw [← hconv]
          exact hpre0
        · intro t htm
          rw [← hconv] at htm
          have htm2 : Runes.normTerms e0.terms = some t := htm
          exact ht0 t (normTerms_eq_some htm2)
      unfold Bridge.encipher
      rw [runestoneToRunes_runestoneOfRunes (Runes.decNormal R) hedS hmintS hetchS]
      simp only
      rw [← hbytes]
      show some (Runes.encipherScript (Runes.decNormal R)) =
        some (Runes.encipherScript R)
      congr 1
      unfold Runes.encipherScript
      rw [payload_decNormal]

set_option maxRecDepth 10000 in
/-- Witness for C5: the concrete operation opC4 enciphers to a concrete
byte list, deciphering the built transaction returns the operation itself,
and the re-encode theorem applies, reproducing the same bytes. -/
theorem c5_witness :
    (∀ e ∈ opC4.edicts, e.output < U32) ∧ optLt opC4.pointer U32 ∧
    (∀ e g, opC4.etching = some e → e.divisibility = some g → g < U128) ∧
    opC4.edicts.length < U32 ∧
    Bridge.encipher opC4 =
      some [106, 93, 17, 2, 2, 6, 27, 8, 0, 26, 2, 28, 7, 30, 1, 1, 5, 3, 100, 0] ∧
    Bridge.decipher (buildTransaction
      [106, 93, 17, 2, 2, 6, 27, 8, 0, 26, 2, 28, 7, 30, 1, 1, 5, 3, 100, 0]) =
      some opC4 ∧
    Bridge.encipher opC4 =
      some [106, 93, 17, 2, 2, 6, 27, 8, 0, 26, 2, 28, 7, 30, 1, 1, 5, 3, 100, 0] := by
  have h1 : ∀ e ∈ opC4.edicts, e.output < U32 := by
    intro e he
    rw [show opC4.edicts = [Bridge.Edict.mk "5:3" 100 0] from rfl,
      List.mem_singleton] at he
    subst he
    decide
  have h2 : optLt opC4.pointer U32 := by
    intro v hv
    injection hv with hv1
    rw [← hv1]
    decide
  have h3 : ∀ e g, opC4.etching = some e → e.divisibility = some g → g < U128 := by
    intro e g he hg
    injection he with he1
    rw [← he1] at hg
    injection hg with hg1
    rw [← hg1]
    decide
  have henc : Bridge.encipher opC4 =
      some [106, 93, 17, 2, 2, 6, 27, 8, 0, 26, 2, 28, 7, 30, 1, 1, 5, 3, 100, 0] := by
    decide
  have hdec : Bridge.decipher (buildTransaction
      [106, 93, 17, 2, 2, 6, 27, 8, 0, 26, 2, 28, 7, 30, 1, 1, 5, 3, 100, 0]) =
      some opC4 := by
    decide
  exact ⟨h1, h2, h3, by decide, henc, hdec,
    c5_reencode_identical opC4
      [106, 93, 17, 2, 2, 6, 27, 8, 0, 26, 2, 28, 7, 30, 1, 1, 5, 3, 100, 0]
      opC4 h1 h2 h3 (by decide) henc hdec⟩
